import Mathlib

/-!
Verification of the Myelin Flow graph intermediate representation
(`src/sling/myelin/flow.cc`) against its natural-language specification.

The C++ code is shallowly embedded: byte strings become `List Nat`,
pointers become stable numeric ids (`vid` for variables, `oid` for
operations, `fid` for functions), the pointer-linked graph becomes an
arena (lists of records) where producer/consumer back-references are ids,
and fatal `CHECK` failures become `Option.none` where a claim depends on
them.  All definitions are executable so that witnesses evaluate by
`decide` / `rfl`.
-/

namespace Myelin

/-- Byte strings of the C++ code (`std::string` holds raw bytes). -/
abbrev Str := List Nat

/-- Convert an ASCII Lean string literal to the byte-string model. -/
def strBytes (s : String) : Str := s.data.map Char.toNat

/-- One attribute: a name/value pair of byte strings (`struct Attribute`). -/
structure Attribute where
  name : Str
  value : Str
deriving DecidableEq

/-- Attribute list (`class Attributes : public std::vector<Attribute>`). -/
abbrev Attributes := List Attribute

/-- Attributes::Get(name): value of the first attribute with the given
name, or the empty string. -/
def attrGet (attrs : Attributes) (name : Str) : Str :=
  match attrs.find? (fun a => a.name = name) with
  | some a => a.value
  | none => []

/-- Attributes::Get(name, bool defval): the boolean interpretation of the
first attribute with the given name, or the default. -/
def attrGetBool (attrs : Attributes) (name : Str) (defval : Bool) : Bool :=
  match attrs.find? (fun a => a.name = name) with
  | some a =>
      a.value = strBytes "1" ∨ a.value = strBytes "T" ∨ a.value = strBytes "true"
  | none => defval

/-- Attributes::Has(name). -/
def attrHas (attrs : Attributes) (name : Str) : Bool :=
  attrs.any (fun a => a.name = name)

/-- Attributes::Set(name, value): overwrite the value of the first
attribute with this name in place, otherwise append a new attribute. -/
def attrSet (attrs : Attributes) (name value : Str) : Attributes :=
  match attrs with
  | [] => [⟨name, value⟩]
  | a :: rest =>
      if a.name = name then ⟨a.name, value⟩ :: rest
      else a :: attrSet rest name value

/-!
Element types.  The `Type` enum values live in flow.h (not part of the
sources under verification), but the code indexes the `typetraits` vector
directly with the enum value (`typetraits[type]`), so the enum values
must coincide with the positions of the `typetraits` initializer list;
we model a type as that position (so `DT_INVALID = 0`, `DT_FLOAT = 1`,
..., `DT_RESOURCE = 20`).
-/

/-- TypeTraits::of(Type).name(): position-indexed name table, transcribing
the `typetraits` initializer list of flow.cc. -/
def typeName (t : Nat) : Str :=
  strBytes (match t with
  | 0 => "void"
  | 1 => "float32"
  | 2 => "float64"
  | 3 => "int32"
  | 4 => "uint8"
  | 5 => "int16"
  | 6 => "int8"
  | 7 => "string"
  | 8 => "complex64"
  | 9 => "int64"
  | 10 => "bool"
  | 11 => "qint8"
  | 12 => "quint8"
  | 13 => "qint32"
  | 14 => "bfloat16"
  | 15 => "qint16"
  | 16 => "uint16"
  | 17 => "quint16"
  | 18 => "complex128"
  | 19 => "float16"
  | 20 => "resource"
  | _ => "void")

/-- The `typemap` of flow.cc: type name to enum value. -/
def typemap : List (String × Nat) :=
  [("void", 0), ("float16", 19), ("float32", 1), ("float64", 2),
   ("float", 1), ("bfloat16", 14), ("int8", 6), ("int16", 5),
   ("int32", 3), ("int64", 9), ("int", 3), ("uint8", 4),
   ("uint16", 16), ("bool", 10), ("string", 7), ("complex64", 8),
   ("complex128", 18), ("qint8", 11), ("qint32", 13), ("qint16", 15),
   ("quint8", 12), ("quint16", 17), ("resource", 20)]

/-- TypeTraits::of(name).type(): map a type name to its enum value,
`DT_INVALID` (0) when the name is unknown. -/
def typeFromName (s : Str) : Nat :=
  match typemap.find? (fun p => strBytes p.1 = s) with
  | some p => p.2
  | none => 0

/-!
Shapes.  A shape is its ordered dimension list; -1 marks an unknown
dimension.  `Shape::missing`/`Shape::defined` are declared in flow.h
(not under src/).
-/

/-- Modelled from the spec: `Shape::missing()` — flow.h is not part of
the sources; per the spec a dimension of -1 is "unknown/dynamic", and a
shape is unresolved when it contains an unknown dimension. -/
def shapeMissing (s : List Int) : Bool := s.contains (-1)

/-- Modelled from the spec: `Shape::defined()` — a shape is defined when
it has no unknown (-1) dimensions. -/
def shapeDefined (s : List Int) : Bool := !shapeMissing s

/-- Shape::IsCompatible inner loop, walking both shapes from their
trailing dimensions.  The lists are passed reversed (trailing dimension
first); `d2` is the index in the second shape of the dimension at the
head of `r2`.  The comparison `d2' = 1` (instead of `y = 1`) transcribes
the source literally: flow.cc compares the already-decremented loop
index `d2` against 1, not the dimension size. -/
def compatRev : List Int → List Int → Int → Bool
  | x :: r1, y :: r2, d2 =>
      let d2' := d2 - 1
      if x = -1 ∨ x = 1 then compatRev r1 r2 d2'
      else if y = -1 ∨ d2' = 1 then compatRev r1 r2 d2'
      else if x ≠ y then false
      else compatRev r1 r2 d2'
  | _, _, _ => true

/-- Shape::IsCompatible(other) of flow.cc. -/
def isCompatible (s1 s2 : List Int) : Bool :=
  compatRev s1.reverse s2.reverse ((s2.length : Int) - 1)

/-- Broadcast compatibility as worded by the specification: aligning the
shapes at their trailing dimensions, every aligned pair of dimension
sizes is equal, or the size from the first shape is 1 or -1, or the size
from the second shape is 1 or -1.  (Reference definition for comparison
with `isCompatible`; lists passed reversed.) -/
def specCompatRev : List Int → List Int → Bool
  | x :: r1, y :: r2 =>
      (x = y ∨ x = 1 ∨ x = -1 ∨ y = 1 ∨ y = -1) && specCompatRev r1 r2
  | _, _ => true

/-- Broadcast compatibility per the specification's words. -/
def isCompatibleSpec (s1 s2 : List Int) : Bool :=
  specCompatRev s1.reverse s2.reverse

/-!
The Flow graph arena.  Pointers of the C++ code become stable numeric
ids: `vid` for variables, `oid` for operations, `fid` for functions.
Producer/consumer back-references hold ids.  `Flow::Variable::in` and
`out` are named `isIn`/`isOut` (`in` is reserved in Lean).
-/

/-- Flow::Variable. -/
structure Variable where
  vid : Nat
  name : Str
  aliases : List Str
  type : Nat
  shape : List Int
  data : Option (List Nat)
  size : Nat
  isIn : Bool
  isOut : Bool
  ref : Bool
  producer : Option Nat
  consumers : List Nat
deriving DecidableEq

/-- Flow::Operation.  The scratch scheduling fields (`priority`, `order`,
`missing`) are not stored: `Sort` computes them functionally, matching a
flow whose operations carry the initial field values (priority 3,
missing 0). -/
structure Operation where
  oid : Nat
  name : Str
  type : Str
  inputs : List Nat
  outputs : List Nat
  attrs : Attributes
  task : Int
  func : Option Nat
deriving DecidableEq

/-- Flow::Function. -/
structure FlowFunction where
  fid : Nat
  name : Str
  ops : List Nat
deriving DecidableEq

/-- Flow::Connector. -/
structure Connector where
  name : Str
  links : List Nat
deriving DecidableEq

/-- Flow::Blob. -/
structure Blob where
  name : Str
  type : Str
  attrs : Attributes
  size : Nat
  data : Option (List Nat)
deriving DecidableEq

/-- The Flow graph: arena of variables, operations, functions,
connectors and blobs. -/
structure Flow where
  vars : List Variable
  ops : List Operation
  funcs : List FlowFunction
  cnxs : List Connector
  blobs : List Blob
deriving DecidableEq

/-- Dereference a variable id (a C++ `Variable*`). -/
def Flow.findVar (f : Flow) (vid : Nat) : Option Variable :=
  f.vars.find? (fun v => v.vid = vid)

/-- Dereference an operation id (a C++ `Operation*`). -/
def Flow.findOp (f : Flow) (oid : Nat) : Option Operation :=
  f.ops.find? (fun o => o.oid = oid)

/-- Flow::Var(name): first variable whose name or alias list matches. -/
def Flow.Var (f : Flow) (name : Str) : Option Variable :=
  f.vars.find? (fun v => decide (v.name = name ∨ name ∈ v.aliases))

/-- Flow::Op(name): first operation with the given name. -/
def Flow.Op (f : Flow) (name : Str) : Option Operation :=
  f.ops.find? (fun o => decide (o.name = name))

/-- Update the variable with the given id in place. -/
def updateVar (f : Flow) (vid : Nat) (g : Variable → Variable) : Flow :=
  { f with vars := f.vars.map (fun v => if v.vid = vid then g v else v) }

/-- Update the operation with the given id in place. -/
def updateOp (f : Flow) (oid : Nat) (g : Operation → Operation) : Flow :=
  { f with ops := f.ops.map (fun o => if o.oid = oid then g o else o) }

/-- The producer operation of a variable (`var->producer`). -/
def producerOf (f : Flow) (vid : Nat) : Option Nat :=
  match f.findVar vid with
  | some v => v.producer
  | none => none

/-- Flow::Operation::AddInput(var). -/
def addInput (f : Flow) (oid vid : Nat) : Flow :=
  let f1 := updateOp f oid (fun o => { o with inputs := o.inputs ++ [vid] })
  updateVar f1 vid (fun v => { v with consumers := v.consumers ++ [oid] })

/-- Flow::Operation::AddOutput(var).  The source `CHECK`s that the
variable has no producer yet and aborts otherwise; the fatal path is
`none`. -/
def addOutput (f : Flow) (oid vid : Nat) : Option Flow :=
  match f.findVar vid with
  | none => none
  | some v =>
      if v.producer = none then
        some (updateOp (updateVar f vid (fun w => { w with producer := some oid }))
                oid (fun o => { o with outputs := o.outputs ++ [vid] }))
      else none

/-- Flow::Operation::RemoveInput(var): drop the operation from the
variable's consumers and the variable from the inputs (first occurrence
each; the source `CHECK`s that both are present, which the consistency
hypotheses of the theorems guarantee). -/
def removeInput (f : Flow) (oid vid : Nat) : Flow :=
  let f1 := updateVar f vid (fun v => { v with consumers := v.consumers.erase oid })
  updateOp f1 oid (fun o => { o with inputs := o.inputs.erase vid })

/-- Flow::Operation::RemoveOutput(var). -/
def removeOutput (f : Flow) (oid vid : Nat) : Flow :=
  let f1 := updateVar f vid (fun v => { v with producer := none })
  updateOp f1 oid (fun o => { o with outputs := o.outputs.erase vid })

/-- Replace the first occurrence of `a` by `b` (the consumer-update loop
of MoveInput breaks after the first hit). -/
def replaceFirst (l : List Nat) (a b : Nat) : List Nat :=
  match l with
  | [] => []
  | x :: r => if x = a then b :: r else x :: replaceFirst r a b

/-- Flow::Operation::MoveInput(var, op). -/
def moveInput (f : Flow) (vid fromOid toOid : Nat) : Flow :=
  let f1 := updateOp f fromOid (fun o => { o with inputs := o.inputs.erase vid })
  let f2 := updateOp f1 toOid (fun o => { o with inputs := o.inputs ++ [vid] })
  updateVar f2 vid (fun v => { v with consumers := replaceFirst v.consumers fromOid toOid })

/-- Flow::Operation::MoveOutput(var, op). -/
def moveOutput (f : Flow) (vid fromOid toOid : Nat) : Flow :=
  let f1 := updateOp f fromOid (fun o => { o with outputs := o.outputs.erase vid })
  let f2 := updateOp f1 toOid (fun o => { o with outputs := o.outputs ++ [vid] })
  updateVar f2 vid (fun v => { v with producer := some toOid })

/-- Flow::Connector::RemoveLink(var) (dropping the found/not-found
result; callers test membership separately). -/
def cnxRemoveLink (c : Connector) (vid : Nat) : Connector :=
  { c with links := c.links.erase vid }

/-- Flow::Connector::AddLink(var): append unless already linked. -/
def cnxAddLink (c : Connector) (vid : Nat) : Connector :=
  if vid ∈ c.links then c else { c with links := c.links ++ [vid] }

/-- Flow::Connector::ReplaceLink(old, var): remove `old` and, only if it
was present, add the replacement. -/
def cnxReplaceLink (c : Connector) (oldVid newVid : Nat) : Connector :=
  if oldVid ∈ c.links then cnxAddLink (cnxRemoveLink c oldVid) newVid else c

/-- Flow::DeleteVariable(var): erase the variable from the arena. -/
def deleteVariable (f : Flow) (vid : Nat) : Flow :=
  { f with vars := f.vars.eraseP (fun v => v.vid = vid) }

/-- The function lists after DeleteOperation unlinks the operation from
its function (the first half of Flow::DeleteOperation). -/
def funcsDeleteOp (f : Flow) (oid : Nat) : List FlowFunction :=
  match f.findOp oid with
  | some o =>
      match o.func with
      | some fid =>
          f.funcs.map (fun (fn : FlowFunction) =>
            if fn.fid = fid then { fn with ops := fn.ops.erase oid } else fn)
      | none => f.funcs
  | none => f.funcs

/-- Flow::DeleteOperation(op): unlink from its function and erase from
the arena. -/
def deleteOperation (f : Flow) (oid : Nat) : Flow :=
  { f with funcs := funcsDeleteOp f oid,
           ops := f.ops.eraseP (fun o => o.oid = oid) }

/-- Append an alias unless already present (Flow::Variable::AddAlias). -/
def addAlias (al : List Str) (a : Str) : List Str :=
  if a ∈ al then al else al ++ [a]

/-- Fold AddAlias over a list of aliases. -/
def addAliasList (al : List Str) (l : List Str) : List Str :=
  l.foldl addAlias al

/-!
Flow::Fuse.  Both while-loops take the front of the second operation's
input/output list and remove it in every branch, so one unit of fuel per
initial list element is exactly enough; the fuel-0 fallthrough is
unreachable.
-/

/-- One iteration of the Fuse input-moving loop, processing the front of
the second operation's input list. -/
def fuseInputStep (f : Flow) (firstOid secondOid : Nat) (mergeInputs : Bool)
    (vid : Nat) : Flow :=
  match f.findOp firstOid with
  | none => f
  | some first =>
      if mergeInputs ∧ vid ∈ first.inputs then
        -- Shared input.
        removeInput f secondOid vid
      else if vid ∈ first.outputs then
        -- Input from the first op; delete it if it was only an
        -- intermediate result between the two ops.
        let f1 := removeInput f secondOid vid
        match f1.findVar vid with
        | some v =>
            if v.consumers = [] ∧ v.isOut = false then
              let f2 := removeOutput f1 firstOid vid
              let f3 := deleteVariable f2 vid
              { f3 with cnxs := f3.cnxs.map (fun c => cnxRemoveLink c vid) }
            else f1
        | none => f1
      else
        -- Additional input.
        moveInput f vid secondOid firstOid

/-- The Fuse input-moving loop. -/
def fuseInputsLoop (firstOid secondOid : Nat) (mergeInputs : Bool) :
    Nat → Flow → Flow
  | 0, f => f
  | fuel + 1, f =>
      match f.findOp secondOid with
      | none => f
      | some second =>
          match second.inputs with
          | [] => f
          | vid :: _ =>
              fuseInputsLoop firstOid secondOid mergeInputs fuel
                (fuseInputStep f firstOid secondOid mergeInputs vid)

/-- One iteration of the Fuse output-moving loop, processing the front of
the second operation's output list. -/
def fuseOutputStep (f : Flow) (firstOid secondOid : Nat) (vid : Nat) : Flow :=
  match f.findOp firstOid with
  | none => f
  | some first =>
      if vid ∈ first.inputs then
        -- Output feeding back into the first op; delete if intermediate.
        match f.findVar vid with
        | some v =>
            if v.consumers.length = 1 ∧ v.isOut = false then
              let f1 := removeInput f firstOid vid
              let f2 := removeOutput f1 secondOid vid
              let f3 := deleteVariable f2 vid
              { f3 with cnxs := f3.cnxs.map (fun c => cnxRemoveLink c vid) }
            else
              let f1 := removeInput f firstOid vid
              moveOutput f1 vid secondOid firstOid
        | none => f
      else if vid ∈ first.outputs then
        -- Shared output.
        removeOutput f secondOid vid
      else
        -- Additional output.
        moveOutput f vid secondOid firstOid

/-- The Fuse output-moving loop. -/
def fuseOutputsLoop (firstOid secondOid : Nat) : Nat → Flow → Flow
  | 0, f => f
  | fuel + 1, f =>
      match f.findOp secondOid with
      | none => f
      | some second =>
          match second.outputs with
          | [] => f
          | vid :: _ =>
              fuseOutputsLoop firstOid secondOid fuel
                (fuseOutputStep f firstOid secondOid vid)

/-- Copy the attributes of the second op that the first op does not
already have (in order). -/
def mergeAttrs (first second : Attributes) : Attributes :=
  second.foldl (fun acc a => if attrHas acc a.name then acc else attrSet acc a.name a.value) first

/-- Flow::Fuse(first, second, combined, merge_inputs). -/
def fuse (f : Flow) (firstOid secondOid : Nat) (combined : Str)
    (mergeInputs : Bool) : Flow :=
  let fuel1 := match f.findOp secondOid with
    | some o => o.inputs.length
    | none => 0
  let f1 := fuseInputsLoop firstOid secondOid mergeInputs fuel1 f
  let fuel2 := match f1.findOp secondOid with
    | some o => o.outputs.length
    | none => 0
  let f2 := fuseOutputsLoop firstOid secondOid fuel2 f1
  let secondAttrs := match f2.findOp secondOid with
    | some o => o.attrs
    | none => []
  let f3 := updateOp f2 firstOid (fun o =>
      { o with type := combined, attrs := mergeAttrs o.attrs secondAttrs })
  deleteOperation f3 secondOid

/-- Rewrite every operation input equal to `outputVid` to `inputVid`
(the usage-update loop of Flow::Eliminate). -/
def substOpInputs (f : Flow) (outputVid inputVid : Nat) : Flow :=
  { f with ops := f.ops.map (fun t =>
      { t with inputs := t.inputs.map (fun i =>
          if i = outputVid then inputVid else i) }) }

/-- Replace the output variable by the input variable in every connector
(the connector-update loop of Flow::Eliminate). -/
def substCnxLinks (f : Flow) (outputVid inputVid : Nat) : Flow :=
  { f with cnxs := f.cnxs.map (fun c => cnxReplaceLink c outputVid inputVid) }

/-- The body of Flow::Eliminate for a single-input/single-output
operation, once the fatal `CHECK`s have passed (`outputVar` is the
record the output variable id dereferences to). -/
def eliminateCore (f : Flow) (oid inputVid outputVid : Nat)
    (outputVar : Variable) : Flow :=
  -- Merge in/out/ref flags onto the input variable.
  let f1 := updateVar f inputVid (fun v =>
      { v with
        isIn := v.isIn || outputVar.isIn,
        isOut := v.isOut || outputVar.isOut,
        ref := v.ref || outputVar.ref })
  -- Update all usages of the output to use the input instead.
  let f2 := substOpInputs f1 outputVid inputVid
  -- Remove op as consumer of the input variable.
  let f3 := updateVar f2 inputVid (fun v =>
      { v with consumers := v.consumers.erase oid })
  -- Move consumers of the output variable to the input variable.
  let f4 := updateVar f3 inputVid (fun v =>
      { v with consumers := v.consumers ++ outputVar.consumers })
  -- Make the input variable an alias for the output variable.
  let f5 := updateVar f4 inputVid (fun v =>
      { v with aliases :=
          addAliasList v.aliases (outputVar.name :: outputVar.aliases) })
  -- Update connectors, replacing the output with the input.
  let f6 := substCnxLinks f5 outputVid inputVid
  -- Delete output variable and operation.
  deleteOperation (deleteVariable f6 outputVid) oid

/-- Flow::Eliminate(op).  The fatal `CHECK`s (exactly one input, exactly
one output, matching resolved types and shapes) appear as hypotheses of
the theorems; outside the checked domain the model returns the flow
unchanged where the source would abort. -/
def eliminate (f : Flow) (oid : Nat) : Flow :=
  match f.findOp oid with
  | none => f
  | some op =>
      match op.inputs, op.outputs with
      | [inputVid], [outputVid] =>
          match f.findVar outputVid with
          | none => f
          | some outputVar => eliminateCore f oid inputVid outputVid outputVar
      | [], _ =>
          -- Zero-input operation: clear producer links on the outputs.
          let f1 := { f with vars := f.vars.map (fun v =>
              if v.vid ∈ op.outputs then { v with producer := none } else v) }
          deleteOperation f1 oid
      | _, _ => f

/-- Flow::IsConsistent(). -/
def isConsistent (f : Flow) : Bool :=
  (f.ops.all fun o =>
    (o.inputs.all fun vid =>
      match f.findVar vid with
      | some v => v.consumers.contains o.oid
      | none => false) &&
    (o.outputs.all fun vid =>
      match f.findVar vid with
      | some v => v.producer == some o.oid
      | none => false)) &&
  (f.vars.all fun v =>
    (match v.producer with
     | some p =>
         match f.findOp p with
         | some o => o.outputs.contains v.vid
         | none => false
     | none => true) &&
    (v.consumers.all fun c =>
      match f.findOp c with
      | some o => o.inputs.contains v.vid
      | none => false)) &&
  (f.funcs.all fun fn =>
    fn.ops.all fun oid =>
      match f.findOp oid with
      | some o => o.func == some fn.fid
      | none => false)

/-!
Flow::InferTypes.  Type inferers ("typers") are abstract collaborators:
a typer receives the flow and the operation id and returns the updated
flow together with its done flag.  The source iterates the operation
vector, which typers do not reshape (they resolve variable
types/shapes), and tries the registered typers in reverse registration
order until one reports success.
-/

/-- A registered type inferer (`Typer::InferTypes(op)`). -/
def TyperFn : Type := Flow → Nat → Flow × Bool

/-- Try typers in the given order until one reports success. -/
def runTypersRev : List TyperFn → Flow → Nat → Flow
  | [], f, _ => f
  | t :: rest, f, oid =>
      let r := t f oid
      if r.2 then r.1 else runTypersRev rest r.1 oid

/-- A variable id whose type or shape is unresolved (`DT_INVALID` type
or a shape with unknown dimensions). -/
def varUnresolved (g : Flow) (vid : Nat) : Bool :=
  match g.findVar vid with
  | some v => v.type == 0 || shapeMissing v.shape
  | none => true

/-- Process one operation of InferTypes: returns the updated flow, the
skipped flag (an input is missing type or shape) and the unresolved flag
(an output is still missing type or shape after the typers ran). -/
def inferStep (typers : List TyperFn) (f : Flow) (oid : Nat) :
    Flow × Bool × Bool :=
  match f.findOp oid with
  | none => (f, false, false)
  | some op =>
      let missingIn := op.inputs.any (varUnresolved f)
      if missingIn then (f, true, false)
      else
        if op.outputs.any (varUnresolved f) then
          let f' := runTypersRev typers.reverse f oid
          (f', false, op.outputs.any (varUnresolved f'))
        else (f, false, false)

/-- The InferTypes iteration over the operations, collecting the per-op
skipped/unresolved flags. -/
def inferSteps (typers : List TyperFn) : Flow → List Operation →
    Flow × List (Bool × Bool)
  | f, [] => (f, [])
  | f, o :: rest =>
      let r := inferStep typers f o.oid
      let rr := inferSteps typers r.1 rest
      (rr.1, (r.2.1, r.2.2) :: rr.2)

/-- Flow::InferTypes: returns false when at least one operation was
skipped or had an output still unresolved. -/
def inferTypes (typers : List TyperFn) (f : Flow) : Flow × Bool :=
  let r := inferSteps typers f f.ops
  let numSkipped := r.2.countP (fun p => p.1)
  let numUnresolved := r.2.countP (fun p => p.2)
  (r.1, !(decide (numUnresolved > 0) || decide (numSkipped > 0)))

/-!
Flow::Sort.  The priority phases (`pre`/`post` sets) are computed by the
source with a worklist that re-scans until no pass adds an element, so
the resulting sets are the closures of the directly inserted operations
under the expansion edges; the model iterates the deterministic pass
function enough times to reach that fixpoint.  Note two transcription
points checked against the source: the pre-expansion inserts every
producer of an input of a pre-set member with no task check (only the
directly inserted producers are filtered to the main task), and the
ready queue of the Kahn phase pops the operation with the smallest
(priority, order) pair — `std::priority_queue` with the source's
`PriorityComparator` (both comparisons use `>`) is a min-heap on that
lexicographic key.

An operation lying in both the pre- and the post-set receives whichever
priority was written at its later insertion, which depends on the
iteration order of `std::unordered_set`; the model resolves such
operations to the pre-set priority 4, and the theorems that depend on a
determinate value assume the two sets are disjoint.
-/

/-- Insert into a worklist set unless already present. -/
def addIfNew (l : List Nat) (x : Nat) : List Nat :=
  if x ∈ l then l else l ++ [x]

/-- The inputs of an operation id. -/
def inputsOf (f : Flow) (oid : Nat) : List Nat :=
  match f.findOp oid with
  | some o => o.inputs
  | none => []

/-- The outputs of an operation id. -/
def outputsOf (f : Flow) (oid : Nat) : List Nat :=
  match f.findOp oid with
  | some o => o.outputs
  | none => []

/-- The consumers of a variable id. -/
def consumersOf (f : Flow) (vid : Nat) : List Nat :=
  match f.findVar vid with
  | some v => v.consumers
  | none => []

/-- The task of an operation id (0 when the id does not resolve). -/
def taskOf (f : Flow) (oid : Nat) : Int :=
  match f.findOp oid with
  | some o => o.task
  | none => 0

/-- The main-task producers feeding an input of a parallel operation:
the operations directly inserted into the pre-parallel set. -/
def directPreList (f : Flow) : List Nat :=
  f.ops.foldl (fun acc op =>
    if op.task ≠ 0 then
      op.inputs.foldl (fun acc2 vid =>
        match producerOf f vid with
        | some p => if taskOf f p = 0 then addIfNew acc2 p else acc2
        | none => acc2) acc
    else acc) []

/-- The main-task consumers of an output of a parallel operation: the
operations directly inserted into the post-parallel set. -/
def directPostList (f : Flow) : List Nat :=
  f.ops.foldl (fun acc op =>
    if op.task ≠ 0 then
      op.outputs.foldl (fun acc2 vid =>
        (consumersOf f vid).foldl (fun acc3 c =>
          if taskOf f c = 0 then addIfNew acc3 c else acc3) acc2) acc
    else acc) []

/-- One expansion pass of the pre-parallel set: add every producer of an
input of a member (the source pass has no task filter here). -/
def preStep (f : Flow) (s : List Nat) : List Nat :=
  s.foldl (fun acc oid =>
    (inputsOf f oid).foldl (fun acc2 vid =>
      match producerOf f vid with
      | some p => addIfNew acc2 p
      | none => acc2) acc) s

/-- One expansion pass of the post-parallel set: add every main-task
consumer of an output of a member. -/
def postStep (f : Flow) (s : List Nat) : List Nat :=
  s.foldl (fun acc oid =>
    (outputsOf f oid).foldl (fun acc2 vid =>
      (consumersOf f vid).foldl (fun acc3 c =>
        if taskOf f c = 0 then addIfNew acc3 c else acc3) acc2) acc) s

/-- Iterate a worklist pass. -/
def iterClosure (step : List Nat → List Nat) : Nat → List Nat → List Nat
  | 0, s => s
  | n + 1, s => iterClosure step n (step s)

/-- Fuel that suffices for the worklist passes to reach their fixpoint. -/
def closureFuel (f : Flow) : Nat :=
  f.ops.length + f.vars.length + 1

/-- The pre-parallel set (priority 4) after expansion to fixpoint. -/
def preClosure (f : Flow) : List Nat :=
  iterClosure (preStep f) (closureFuel f) (directPreList f)

/-- The post-parallel set (priority 1) after expansion to fixpoint. -/
def postClosure (f : Flow) : List Nat :=
  iterClosure (postStep f) (closureFuel f) (directPostList f)

/-- The scheduling priority Sort assigns to an operation.  The source
mutates `priority` at every worklist insertion, so an operation in both
worklists ends with whichever write came last: that order depends on the
arena positions of the inserting parallel operations and on the
iteration order of the `unordered_set` expansion passes, and either
value can win.  The model returns 4 on that overlap as an arbitrary
resolution; the C3 theorem asserts priorities only for operations in at
most one of the two sets, where every execution order gives the same
value.  (The Kahn-phase theorems of C2 are proven for an arbitrary
priority function, so nothing there depends on this choice.) -/
def priorityOf (f : Flow) (oid : Nat) : Nat :=
  if oid ∈ preClosure f then 4
  else if oid ∈ postClosure f then 1
  else if taskOf f oid ≠ 0 then 2
  else 3

/-- State of the Kahn phase of Sort: missing-input counts, the ready
queue (operation id, discovery order), the discovery-order counter and
the operation/variable orders emitted so far. -/
structure SortSt where
  missing : Nat → Nat
  ready : List (Nat × Nat)
  ctr : Nat
  emitOps : List Nat
  emitVars : List Nat

/-- Decrement the missing-input count of one consumer, pushing it on the
ready queue when the count reaches zero.  (The source `CHECK`s that the
count is nonzero before decrementing; the consistency invariant of the
theorems guarantees it.) -/
def consumeStep (st : SortSt) (c : Nat) : SortSt :=
  let m' := st.missing c - 1
  let missing' := fun x => if x = c then m' else st.missing x
  if m' = 0 then
    { st with missing := missing', ready := st.ready ++ [(c, st.ctr)],
              ctr := st.ctr + 1 }
  else { st with missing := missing' }

/-- Decrement the missing-input counts of a consumer list in order. -/
def processConsumers (cs : List Nat) (st : SortSt) : SortSt :=
  cs.foldl consumeStep st

/-- Emit one output variable of a popped operation and propagate
readiness to its consumers. -/
def emitOutput (f : Flow) (st : SortSt) (vid : Nat) : SortSt :=
  processConsumers (consumersOf f vid)
    { st with emitVars := st.emitVars ++ [vid] }

/-- The ready-queue ordering: `std::priority_queue` with the source's
`PriorityComparator` pops the smallest (priority, order) pair. -/
def lexLt (p1 o1 p2 o2 : Nat) : Bool :=
  decide (p1 < p2) || (decide (p1 = p2) && decide (o1 < o2))

/-- Pop the ready operation with the smallest (priority, order) pair. -/
def popMin (pri : Nat → Nat) (ready : List (Nat × Nat)) :
    Option ((Nat × Nat) × List (Nat × Nat)) :=
  match ready with
  | [] => none
  | x :: rest =>
      let best := rest.foldl (fun b y =>
        if lexLt (pri y.1) y.2 (pri b.1) b.2 then y else b) x
      some (best, ready.erase best)

/-- The Kahn loop of Sort: repeatedly pop the minimal ready operation,
emit it and its outputs, and propagate readiness. -/
def sortLoop (f : Flow) (pri : Nat → Nat) : Nat → SortSt → SortSt
  | 0, st => st
  | fuel + 1, st =>
      match popMin pri st.ready with
      | none => st
      | some (m, rest) =>
          let st1 := { st with ready := rest, emitOps := st.emitOps ++ [m.1] }
          sortLoop f pri fuel ((outputsOf f m.1).foldl (emitOutput f) st1)

/-- The ids of the variables with no producer, in arena order. -/
def noProducerVids (f : Flow) : List Nat :=
  (f.vars.filter (fun v => v.producer.isNone)).map (fun v => v.vid)

/-- The initial missing-input count of each operation: its number of
input occurrences that have a producer. -/
def initMissingFn (f : Flow) (oid : Nat) : Nat :=
  ((inputsOf f oid).filter (fun vid => (producerOf f vid).isSome)).length

/-- The initially ready operations (no input with a producer), with
discovery orders assigned in arena order. -/
def initReady (f : Flow) : List (Nat × Nat) :=
  ((f.ops.filter (fun op =>
      op.inputs.all (fun vid => (producerOf f vid).isNone))).map
    (fun o => o.oid)).enum.map (fun p => (p.2, p.1))

/-- The initial state of the Kahn phase. -/
def sortInit (f : Flow) : SortSt :=
  { missing := initMissingFn f, ready := initReady f,
    ctr := (initReady f).length, emitOps := [], emitVars := noProducerVids f }

/-- Run the Kahn phase of Sort to completion. -/
def sortResult (f : Flow) : SortSt :=
  sortLoop f (priorityOf f) f.ops.length (sortInit f)

/-- Position of an operation in the emitted order (used to re-sort the
operation lists of the functions, as the final loop of Sort does through
the per-op `order` field). -/
def orderIndex (emitted : List Nat) (oid : Nat) : Nat :=
  emitted.indexOf oid

/-- Flow::Sort(): reorder the operation and variable arenas in emitted
order (the source `CHECK`s that every op and var was emitted, which
holds for consistent acyclic flows) and re-sort each function's
operation list by the new order. -/
def sortFlow (f : Flow) : Flow :=
  let st := sortResult f
  { f with
    vars := st.emitVars.filterMap (fun vid => f.findVar vid),
    ops := st.emitOps.filterMap (fun oid => f.findOp oid),
    funcs := f.funcs.map (fun fn =>
      { fn with ops := fn.ops.mergeSort (fun a b =>
          orderIndex st.emitOps a ≤ orderIndex st.emitOps b) }) }

/-!
The structural graph invariant.  This is the "consistent Flow" of the
specification: unique ids (pointer identity in the source), every
producer/consumer reference resolves, a variable with a producer is that
producer's output and consumer references match input references with
multiplicity (`AddInput` pushes one consumer entry per input
occurrence), and function membership is symmetric.  Every flow built
through the source's construction API satisfies it, and it is stronger
than the on-demand `IsConsistent` check (which tests membership only,
not multiplicity).
-/

/-- The structural well-formedness invariant of a Flow. -/
def flowWF (f : Flow) : Bool :=
  decide ((f.vars.map (fun v => v.vid)).Nodup) &&
  decide ((f.ops.map (fun o => o.oid)).Nodup) &&
  decide ((f.funcs.map (fun fn => fn.fid)).Nodup) &&
  (f.ops.all fun o =>
    (o.inputs.all fun vid => (f.findVar vid).isSome) &&
    (o.outputs.all fun vid => (f.findVar vid).isSome) &&
    decide (o.outputs.Nodup)) &&
  (f.vars.all fun v =>
    (v.consumers.all fun c => (f.findOp c).isSome) &&
    (match v.producer with
     | some p => (f.findOp p).isSome
     | none => true)) &&
  (f.vars.all fun v => f.ops.all fun o =>
    v.consumers.count o.oid == o.inputs.count v.vid) &&
  (f.vars.all fun v => f.ops.all fun o =>
    (v.producer == some o.oid) == o.outputs.contains v.vid) &&
  (f.ops.all fun o =>
    match o.func with
    | some fid => f.funcs.any fun fn => fn.fid == fid && fn.ops.contains o.oid
    | none => true) &&
  (f.funcs.all fun fn =>
    fn.ops.all fun oid =>
      match f.findOp oid with
      | some o => o.func == some fn.fid
      | none => false) &&
  (f.funcs.all fun fn => decide (fn.ops.Nodup)) &&
  (f.cnxs.all fun c => decide (c.links.Nodup))

/-- A rank function certifying that the producer edges are acyclic. -/
def rankOk (f : Flow) (rank : Nat → Nat) : Bool :=
  f.ops.all fun o => o.inputs.all fun vid =>
    match producerOf f vid with
    | some p => decide (rank p < rank o.oid)
    | none => true

/-- Acyclicity of the operation graph, certified by a rank function that
strictly increases along every producer-to-consumer edge (the standard
finite-graph characterization). -/
def Acyclic (f : Flow) : Prop :=
  ∃ rank : Nat → Nat, rankOk f rank = true

/-!
The binary graph file format (Flow::Save / Flow::Read).  The file is a
byte sequence: 4-byte little-endian (two's complement) integers, 8-byte
little-endian lengths, and length-prefixed raw strings.  The writer
(`FlowFileWriter`) is a total function to bytes; the reader (`Parser`)
consumes a byte list and fails (`none`) where the source `CHECK`-aborts
(truncated input, bad magic/version, unknown type or name, duplicate
producer).
-/

/-- Modelled from the spec: the 4-byte magic constant of the file header
(`kMagic` is declared in flow.h, which is not among the sources; the
writer emits it and the reader checks it for equality, so no claim is
sensitive to the value chosen here). -/
def kMagic : Int := 0x776f6c66

/-- Modelled from the spec: the current file version (`kVersion` in
flow.h).  The spec lists supported versions 3 to 4 and the reader accepts
exactly those. -/
def kVersion : Nat := 4

/-- Encode a C++ `int32` as 4 little-endian bytes (two's complement). -/
def encInt (i : Int) : List Nat :=
  let n := (i.emod 4294967296).toNat
  [n % 256, n / 256 % 256, n / 65536 % 256, n / 16777216 % 256]

/-- Encode a 64-bit length as 8 little-endian bytes. -/
def encLong (n : Nat) : List Nat :=
  [n % 256, n / 256 % 256, n / 65536 % 256, n / 16777216 % 256,
   n / 4294967296 % 256, n / 1099511627776 % 256,
   n / 281474976710656 % 256, n / 72057594037927936 % 256]

/-- Encode a length-prefixed string (`WriteString`). -/
def encStr (s : Str) : List Nat :=
  encInt s.length ++ s

/-- Decode a little-endian byte list. -/
def decodeLE (b : List Nat) : Nat :=
  b.foldr (fun x acc => x + 256 * acc) 0

/-- Parser::Get(len): take `len` bytes, failing on truncated input. -/
def readBytes (n : Nat) (s : List Nat) : Option (List Nat × List Nat) :=
  if n ≤ s.length then some (s.take n, s.drop n) else none

/-- Parser::GetInt(): 4 bytes as a signed 32-bit integer. -/
def readInt (s : List Nat) : Option (Int × List Nat) :=
  match readBytes 4 s with
  | some (b, rest) =>
      let n := decodeLE b
      some (if n < 2147483648 then (n : Int) else (n : Int) - 4294967296, rest)
  | none => none

/-- Parser::GetLong(): 8 bytes as an unsigned 64-bit integer. -/
def readLong (s : List Nat) : Option (Nat × List Nat) :=
  match readBytes 8 s with
  | some (b, rest) => some (decodeLE b, rest)
  | none => none

/-- Parser::GetString(): length-prefixed string.  A negative length is
fatal in the source (`std::string` with a huge size); the model fails. -/
def readStr (s : List Nat) : Option (Str × List Nat) :=
  match readInt s with
  | some (len, rest) =>
      if len < 0 then none else readBytes len.toNat rest
  | none => none

/-- Read `n` consecutive items with the given reader. -/
def readN {α : Type} (rd : List Nat → Option (α × List Nat)) :
    Nat → List Nat → Option (List α × List Nat)
  | 0, s => some ([], s)
  | n + 1, s =>
      match rd s with
      | some (a, rest) =>
          match readN rd n rest with
          | some (as, rest') => some (a :: as, rest')
          | none => none
      | none => none

/-- The name a variable id dereferences to (used by the writer, which
follows the stored `Variable*`). -/
def varNameOf (f : Flow) (vid : Nat) : Str :=
  match f.findVar vid with
  | some v => v.name
  | none => []

/-- The name an operation id dereferences to. -/
def opNameOf (f : Flow) (oid : Nat) : Str :=
  match f.findOp oid with
  | some o => o.name
  | none => []

/-- Save one variable: name, aliases, type (prefixed `&` for reference),
shape, payload size, payload bytes (`size` bytes, written only when the
data pointer is set). -/
def saveVar (v : Variable) : List Nat :=
  encStr v.name ++
  encInt v.aliases.length ++ (v.aliases.map encStr).flatten ++
  encStr ((if v.ref then strBytes "&" else []) ++ typeName v.type) ++
  encInt v.shape.length ++ (v.shape.map encInt).flatten ++
  encLong v.size ++
  (match v.data with
   | some d => d.take v.size
   | none => [])

/-- Save one operation: name, type tag, input names, output names,
attribute pairs. -/
def saveOp (f : Flow) (op : Operation) : List Nat :=
  encStr op.name ++ encStr op.type ++
  encInt op.inputs.length ++
    (op.inputs.map (fun vid => encStr (varNameOf f vid))).flatten ++
  encInt op.outputs.length ++
    (op.outputs.map (fun vid => encStr (varNameOf f vid))).flatten ++
  encInt op.attrs.length ++
    (op.attrs.map (fun a => encStr a.name ++ encStr a.value)).flatten

/-- Save one function: name plus member operation names. -/
def saveFunc (f : Flow) (fn : FlowFunction) : List Nat :=
  encStr fn.name ++ encInt fn.ops.length ++
    (fn.ops.map (fun oid => encStr (opNameOf f oid))).flatten

/-- Save one connector: name plus linked variable names. -/
def saveCnx (f : Flow) (c : Connector) : List Nat :=
  encStr c.name ++ encInt c.links.length ++
    (c.links.map (fun vid => encStr (varNameOf f vid))).flatten

/-- Save one blob: name, type tag, attributes, size, payload. -/
def saveBlob (b : Blob) : List Nat :=
  encStr b.name ++ encStr b.type ++
  encInt b.attrs.length ++
    (b.attrs.map (fun a => encStr a.name ++ encStr a.value)).flatten ++
  encLong b.size ++
  (match b.data with
   | some d => d.take b.size
   | none => [])

/-- Flow::Save at the requested version (the source `CHECK`s
3 ≤ version ≤ kVersion; the theorems carry that hypothesis). -/
def saveFlow (f : Flow) (version : Nat) : List Nat :=
  encInt kMagic ++ encInt (version : Int) ++
  encInt f.vars.length ++ (f.vars.map saveVar).flatten ++
  encInt f.ops.length ++ (f.ops.map (saveOp f)).flatten ++
  encInt f.funcs.length ++ (f.funcs.map (saveFunc f)).flatten ++
  encInt f.cnxs.length ++ (f.cnxs.map (saveCnx f)).flatten ++
  (if version ≥ 4 then
    encInt f.blobs.length ++ (f.blobs.map saveBlob).flatten
  else [])

/-- Flow::Var(name) as run by the reader over the variables created so
far, returning the id. -/
def lookupVarId (vars : List Variable) (name : Str) : Option Nat :=
  match vars.find? (fun v => decide (v.name = name ∨ name ∈ v.aliases)) with
  | some v => some v.vid
  | none => none

/-- Flow::Op(name) as run by the reader, returning the id. -/
def lookupOpId (ops : List Operation) (name : Str) : Option Nat :=
  match ops.find? (fun o => decide (o.name = name)) with
  | some o => some o.oid
  | none => none

/-- std::stoi: skip whitespace, optional sign, at least one decimal
digit (failure throws, which is fatal at load time); trailing
non-digits are ignored, out-of-int-range values throw. -/
def parseDec (s : Str) : Option Int :=
  let isSpace := fun (c : Nat) => c = 32 ∨ c = 9 ∨ c = 10 ∨ c = 11 ∨ c = 12 ∨ c = 13
  let s1 := s.dropWhile (fun c => decide (isSpace c))
  let core := fun (r : Str) (negate : Bool) =>
    let ds := r.takeWhile (fun c => decide (48 ≤ c ∧ c ≤ 57))
    if ds = [] then none
    else
      let v : Int := ds.foldl (fun acc d => acc * 10 + ((d : Int) - 48)) 0
      let v' := if negate then -v else v
      if v' < -2147483648 ∨ v' > 2147483647 then none else some v'
  match s1 with
  | 43 :: r => core r false
  | 45 :: r => core r true
  | r => core r false

/-- Read one variable entry. -/
def readVarEntry (batch : Int) (vid : Nat) (s : List Nat) :
    Option (Variable × List Nat) :=
  match readStr s with
  | none => none
  | some (name, s1) =>
  match readInt s1 with
  | none => none
  | some (numAliases, s2) =>
  match readN readStr numAliases.toNat s2 with
  | none => none
  | some (aliases, s3) =>
  match readStr s3 with
  | none => none
  | some (typeStr, s4) =>
  let parsed : Option (Bool × Nat) :=
    if typeStr = [] then some (false, 0)
    else
      let ref := typeStr.headD 0 = 38
      let tname := if ref then typeStr.drop 1 else typeStr
      let t := typeFromName tname
      if t = 0 ∧ tname ≠ strBytes "void" then none else some (ref, t)
  match parsed with
  | none => none
  | some (ref, ty) =>
  match readInt s4 with
  | none => none
  | some (rank, s5) =>
  match readN readInt rank.toNat s5 with
  | none => none
  | some (dims, s6) =>
  let shape := dims.map (fun d => if d = -1 then batch else d)
  match readLong s6 with
  | none => none
  | some (size, s7) =>
  if size = 0 then
    some ({ vid := vid, name := name, aliases := aliases, type := ty,
            shape := shape, data := none, size := size, isIn := false,
            isOut := false, ref := ref, producer := none, consumers := [] }, s7)
  else
    match readBytes size s7 with
    | none => none
    | some (d, s8) =>
        some ({ vid := vid, name := name, aliases := aliases, type := ty,
                shape := shape, data := some d, size := size, isIn := false,
                isOut := false, ref := ref, producer := none,
                consumers := [] }, s8)

/-- Read the variable section. -/
def readVars (batch : Int) : Nat → Nat → List Nat →
    Option (List Variable × List Nat)
  | 0, _, s => some ([], s)
  | n + 1, vid, s =>
      match readVarEntry batch vid s with
      | none => none
      | some (v, rest) =>
          match readVars batch n (vid + 1) rest with
          | none => none
          | some (vs, rest') => some (v :: vs, rest')

/-- Resolve the input names of an operation being read, registering the
operation as consumer of each resolved variable (AddInput). -/
def resolveInputs (oid : Nat) : List Str → List Variable →
    Option (List Variable × List Nat)
  | [], vars => some (vars, [])
  | n :: rest, vars =>
      match lookupVarId vars n with
      | none => none
      | some vid =>
          let vars' := vars.map (fun v =>
            if v.vid = vid then { v with consumers := v.consumers ++ [oid] } else v)
          match resolveInputs oid rest vars' with
          | none => none
          | some (vars'', vids) => some (vars'', vid :: vids)

/-- Resolve the output names of an operation being read: AddOutput
(fatal when the variable already has a producer) followed by
AddAlias(op name). -/
def resolveOutputs (oid : Nat) (opName : Str) : List Str → List Variable →
    Option (List Variable × List Nat)
  | [], vars => some (vars, [])
  | n :: rest, vars =>
      match lookupVarId vars n with
      | none => none
      | some vid =>
          match vars.find? (fun v => v.vid = vid) with
          | none => none
          | some v =>
              if v.producer.isSome then none
              else
                let vars' := vars.map (fun w =>
                  if w.vid = vid then
                    { w with producer := some oid,
                             aliases := addAlias w.aliases opName }
                  else w)
                match resolveOutputs oid opName rest vars' with
                | none => none
                | some (vars'', vids) => some (vars'', vid :: vids)

/-- Read one attribute pair. -/
def readAttr (s : List Nat) : Option (Attribute × List Nat) :=
  match readStr s with
  | none => none
  | some (name, s1) =>
      match readStr s1 with
      | none => none
      | some (value, s2) => some (⟨name, value⟩, s2)

/-- Apply the attribute pairs of an operation in order (SetAttr), also
tracking the `task` attribute (std::stoi failure is fatal). -/
def processAttrs : List Attribute → Attributes → Int →
    Option (Attributes × Int)
  | [], acc, task => some (acc, task)
  | a :: rest, acc, task =>
      let acc' := attrSet acc a.name a.value
      if a.name = strBytes "task" then
        match parseDec a.value with
        | some t => processAttrs rest acc' t
        | none => none
      else processAttrs rest acc' task

/-- Read one operation entry, threading the variable arena through the
AddInput/AddOutput/AddAlias mutations. -/
def readOpEntry (oid : Nat) (vars : List Variable) (s : List Nat) :
    Option ((List Variable × Operation) × List Nat) :=
  match readStr s with
  | none => none
  | some (name, s1) =>
  match readStr s1 with
  | none => none
  | some (ty, s2) =>
  match readInt s2 with
  | none => none
  | some (numInputs, s3) =>
  match readN readStr numInputs.toNat s3 with
  | none => none
  | some (inputNames, s4) =>
  match resolveInputs oid inputNames vars with
  | none => none
  | some (vars1, inputVids) =>
  match readInt s4 with
  | none => none
  | some (numOutputs, s5) =>
  match readN readStr numOutputs.toNat s5 with
  | none => none
  | some (outputNames, s6) =>
  match resolveOutputs oid name outputNames vars1 with
  | none => none
  | some (vars2, outputVids) =>
  match readInt s6 with
  | none => none
  | some (numAttrs, s7) =>
  match readN readAttr numAttrs.toNat s7 with
  | none => none
  | some (attrPairs, s8) =>
  match processAttrs attrPairs [] 0 with
  | none => none
  | some (attrs, task) =>
      some ((vars2,
             { oid := oid, name := name, type := ty, inputs := inputVids,
               outputs := outputVids, attrs := attrs, task := task,
               func := none }), s8)

/-- Read the operation section. -/
def readOps : Nat → Nat → List Variable → List Nat →
    Option ((List Variable × List Operation) × List Nat)
  | 0, _, vars, s => some ((vars, []), s)
  | n + 1, oid, vars, s =>
      match readOpEntry oid vars s with
      | none => none
      | some ((vars1, op), rest) =>
          match readOps n (oid + 1) vars1 rest with
          | none => none
          | some ((vars2, ops), rest') => some ((vars2, op :: ops), rest')

/-- Resolve the member names of a function being read, claiming each
operation (fatal when an operation already belongs to a function). -/
def resolveFuncOps (fid : Nat) : List Str → List Operation →
    Option (List Operation × List Nat)
  | [], ops => some (ops, [])
  | n :: rest, ops =>
      match lookupOpId ops n with
      | none => none
      | some oid =>
          match ops.find? (fun o => o.oid = oid) with
          | none => none
          | some o =>
              if o.func.isSome then none
              else
                let ops' := ops.map (fun p =>
                  if p.oid = oid then { p with func := some fid } else p)
                match resolveFuncOps fid rest ops' with
                | none => none
                | some (ops'', oids) => some (ops'', oid :: oids)

/-- Read one function entry. -/
def readFuncEntry (fid : Nat) (ops : List Operation) (s : List Nat) :
    Option ((List Operation × FlowFunction) × List Nat) :=
  match readStr s with
  | none => none
  | some (name, s1) =>
  match readInt s1 with
  | none => none
  | some (numOps, s2) =>
  match readN readStr numOps.toNat s2 with
  | none => none
  | some (opNames, s3) =>
  match resolveFuncOps fid opNames ops with
  | none => none
  | some (ops', oids) =>
      some ((ops', { fid := fid, name := name, ops := oids }), s3)

/-- Read the function section. -/
def readFuncs : Nat → Nat → List Operation → List Nat →
    Option ((List Operation × List FlowFunction) × List Nat)
  | 0, _, ops, s => some ((ops, []), s)
  | n + 1, fid, ops, s =>
      match readFuncEntry fid ops s with
      | none => none
      | some ((ops1, fn), rest) =>
          match readFuncs n (fid + 1) ops1 rest with
          | none => none
          | some ((ops2, fns), rest') => some ((ops2, fn :: fns), rest')

/-- Resolve the link names of a connector being read (AddLink
deduplicates). -/
def resolveLinks (vars : List Variable) : List Str → List Nat →
    Option (List Nat)
  | [], acc => some acc
  | n :: rest, acc =>
      match lookupVarId vars n with
      | none => none
      | some vid => resolveLinks vars rest (addIfNew acc vid)

/-- Read one connector entry. -/
def readCnxEntry (vars : List Variable) (s : List Nat) :
    Option (Connector × List Nat) :=
  match readStr s with
  | none => none
  | some (name, s1) =>
  match readInt s1 with
  | none => none
  | some (numLinks, s2) =>
  match readN readStr numLinks.toNat s2 with
  | none => none
  | some (linkNames, s3) =>
      match resolveLinks vars linkNames [] with
      | none => none
      | some links => some ({ name := name, links := links }, s3)

/-- Read the connector section. -/
def readCnxs (vars : List Variable) : Nat → List Nat →
    Option (List Connector × List Nat)
  | 0, s => some ([], s)
  | n + 1, s =>
      match readCnxEntry vars s with
      | none => none
      | some (c, rest) =>
          match readCnxs vars n rest with
          | none => none
          | some (cs, rest') => some (c :: cs, rest')

/-- Read one blob entry. -/
def readBlobEntry (s : List Nat) : Option (Blob × List Nat) :=
  match readStr s with
  | none => none
  | some (name, s1) =>
  match readStr s1 with
  | none => none
  | some (ty, s2) =>
  match readInt s2 with
  | none => none
  | some (numAttrs, s3) =>
  match readN readAttr numAttrs.toNat s3 with
  | none => none
  | some (attrPairs, s4) =>
  let attrs := attrPairs.foldl (fun acc a => attrSet acc a.name a.value) []
  match readLong s4 with
  | none => none
  | some (size, s5) =>
  if size = 0 then
    some ({ name := name, type := ty, attrs := attrs, size := size,
            data := none }, s5)
  else
    match readBytes size s5 with
    | none => none
    | some (d, s6) =>
        some ({ name := name, type := ty, attrs := attrs, size := size,
                data := some d }, s6)

/-- Read the blob section. -/
def readBlobs : Nat → List Nat → Option (List Blob × List Nat)
  | 0, s => some ([], s)
  | n + 1, s =>
      match readBlobEntry s with
      | none => none
      | some (b, rest) =>
          match readBlobs n rest with
          | none => none
          | some (bs, rest') => some (b :: bs, rest')

/-- Flow::Read: parse a flow file image.  Trailing bytes are ignored, as
in the source. -/
def readFlow (batch : Int) (s : List Nat) : Option Flow :=
  match readInt s with
  | none => none
  | some (magic, s1) =>
  if magic ≠ kMagic then none else
  match readInt s1 with
  | none => none
  | some (version, s2) =>
  if version < 3 ∨ version > 4 then none else
  match readInt s2 with
  | none => none
  | some (numVars, s3) =>
  match readVars batch numVars.toNat 0 s3 with
  | none => none
  | some (vars0, s4) =>
  match readInt s4 with
  | none => none
  | some (numOps, s5) =>
  match readOps numOps.toNat 0 vars0 s5 with
  | none => none
  | some ((vars1, ops0), s6) =>
  match readInt s6 with
  | none => none
  | some (numFuncs, s7) =>
  match readFuncs numFuncs.toNat 0 ops0 s7 with
  | none => none
  | some ((ops1, funcs), s8) =>
  match readInt s8 with
  | none => none
  | some (numCnxs, s9) =>
  match readCnxs vars1 numCnxs.toNat s9 with
  | none => none
  | some (cnxs, s10) =>
  if version ≥ 4 then
    match readInt s10 with
    | none => none
    | some (numBlobs, s11) =>
    match readBlobs numBlobs.toNat s11 with
    | none => none
    | some (blobs, _) =>
        some { vars := vars1, ops := ops1, funcs := funcs, cnxs := cnxs,
               blobs := blobs }
  else
    some { vars := vars1, ops := ops1, funcs := funcs, cnxs := cnxs,
           blobs := [] }

/-- The file-visible fields of a variable: id, name, aliases, type,
shape, payload, size, reference flag (everything Save writes and Read
restores; the producer/consumer back-references and the in/out analysis
flags are not stored in the file). -/
def varSig (v : Variable) :
    Nat × Str × List Str × Nat × List Int × Option (List Nat) × Nat × Bool :=
  (v.vid, v.name, v.aliases, v.type, v.shape, v.data, v.size, v.ref)

/-- The lookup-relevant fields of an operation: id and name. -/
def opSig (o : Operation) : Nat × Str := (o.oid, o.name)

/-- The file-visible fields of an operation: id, name, type tag, input
ids, output ids, attributes, task (the function back-reference is
restored by the function section, not the operation section). -/
def opView (o : Operation) :
    Nat × Str × Str × List Nat × List Nat × Attributes × Int :=
  (o.oid, o.name, o.type, o.inputs, o.outputs, o.attrs, o.task)

/-- The variable record Read initially creates for a stored variable:
the file-visible fields, with cleared back-references and flags. -/
def varShell (v : Variable) : Variable :=
  { v with isIn := false, isOut := false, producer := none,
           consumers := [] }

/-- An operation as the operation section creates it: the function
back-reference is still unset. -/
def opNoFunc (o : Operation) : Operation := { o with func := none }

/-- The alias list a variable id dereferences to. -/
def varAliasesOf (f : Flow) (vid : Nat) : List Str :=
  match f.findVar vid with
  | some v => v.aliases
  | none => []

/-- A variable the file format represents exactly: bounded lengths, a
type tag whose name parses back to it, nonnegative bounded dimensions
(no -1 batch placeholder), and a payload of exactly `size` bytes when
present. -/
abbrev closedVar (v : Variable) : Prop :=
  v.name.length < 2147483648 ∧
  v.aliases.length < 2147483648 ∧
  (∀ a ∈ v.aliases, a.length < 2147483648) ∧
  typeName v.type ≠ [] ∧
  (typeName v.type).headD 0 ≠ 38 ∧
  typeFromName (typeName v.type) = v.type ∧
  ¬(v.type = 0 ∧ typeName v.type ≠ strBytes "void") ∧
  ((if v.ref then strBytes "&" else []) ++ typeName v.type).length <
    2147483648 ∧
  v.shape.length < 2147483648 ∧
  (∀ d ∈ v.shape, 0 ≤ d ∧ d < 2147483648) ∧
  v.size < 18446744073709551616 ∧
  ((v.data = none ∧ v.size = 0) ∨
    (v.data ≠ none ∧ v.size = (v.data.getD []).length ∧ 0 < v.size))

/-- An operation the file format represents exactly within its flow:
bounded lengths, every input and output name resolving (by Flow::Var's
name-or-alias lookup) back to the referenced variable, every output
variable already carrying the operation's name among its aliases (so the
reader's AddAlias is a no-op), unique attribute names, and a task
attribute consistent with the stored task id. -/
abbrev closedOp (f : Flow) (o : Operation) : Prop :=
  o.name.length < 2147483648 ∧
  o.type.length < 2147483648 ∧
  o.inputs.length < 2147483648 ∧
  o.outputs.length < 2147483648 ∧
  o.attrs.length < 2147483648 ∧
  (∀ vid ∈ o.inputs, lookupVarId f.vars (varNameOf f vid) = some vid) ∧
  (∀ vid ∈ o.outputs, lookupVarId f.vars (varNameOf f vid) = some vid) ∧
  (∀ vid ∈ o.outputs, o.name ∈ varAliasesOf f vid) ∧
  ((o.attrs.map (fun a => a.name)).Nodup) ∧
  (∀ a ∈ o.attrs, a.name.length < 2147483648 ∧
    a.value.length < 2147483648) ∧
  (∀ a ∈ o.attrs, a.name = strBytes "task" → parseDec a.value = some o.task) ∧
  ((∀ a ∈ o.attrs, ¬(a.name = strBytes "task")) → o.task = 0)

/-- A function the file format represents exactly within its flow. -/
abbrev closedFunc (f : Flow) (fn : FlowFunction) : Prop :=
  fn.name.length < 2147483648 ∧
  fn.ops.length < 2147483648 ∧
  (∀ oid ∈ fn.ops, lookupOpId f.ops (opNameOf f oid) = some oid)

/-- A connector the file format represents exactly within its flow. -/
abbrev closedCnx (f : Flow) (c : Connector) : Prop :=
  c.name.length < 2147483648 ∧
  c.links.length < 2147483648 ∧
  c.links.Nodup ∧
  (∀ vid ∈ c.links, lookupVarId f.vars (varNameOf f vid) = some vid)

/-- A blob the file format represents exactly. -/
abbrev closedBlob (b : Blob) : Prop :=
  b.name.length < 2147483648 ∧
  b.type.length < 2147483648 ∧
  b.attrs.length < 2147483648 ∧
  (∀ a ∈ b.attrs, a.name.length < 2147483648 ∧
    a.value.length < 2147483648) ∧
  ((b.attrs.map (fun a => a.name)).Nodup) ∧
  b.size < 18446744073709551616 ∧
  ((b.data = none ∧ b.size = 0) ∨
    (b.data ≠ none ∧ b.size = (b.data.getD []).length ∧ 0 < b.size))

/-- A flow the file format represents exactly: arena ids are positional
(as the reader assigns them), every component is closed, output and
function membership are globally unambiguous, and the section counts fit
in an int32. -/
abbrev closedFlow (f : Flow) : Prop :=
  f.vars.map (fun v => v.vid) = List.range f.vars.length ∧
  f.ops.map (fun o => o.oid) = List.range f.ops.length ∧
  f.funcs.map (fun fn => fn.fid) = List.range f.funcs.length ∧
  (∀ v ∈ f.vars, closedVar v) ∧
  (∀ o ∈ f.ops, closedOp f o) ∧
  ((f.ops.flatMap (fun o => o.outputs)).Nodup) ∧
  (∀ fn ∈ f.funcs, closedFunc f fn) ∧
  ((f.funcs.flatMap (fun fn => fn.ops)).Nodup) ∧
  (∀ c ∈ f.cnxs, closedCnx f c) ∧
  (∀ b ∈ f.blobs, closedBlob b) ∧
  f.vars.length < 2147483648 ∧
  f.ops.length < 2147483648 ∧
  f.funcs.length < 2147483648 ∧
  f.cnxs.length < 2147483648 ∧
  f.blobs.length < 2147483648

/-!
Declarative reachability relations for the Sort priority phases, used to
characterize the worklist closures.
-/

/-- Membership in the pre-parallel set, declaratively: the main-task
producers directly feeding an input of a parallel operation, expanded
backward through producer chains (with no task restriction beyond the
first link, as in the source's expansion pass). -/
inductive PreReach (f : Flow) : Nat → Prop where
  | direct (o : Operation) (vid p : Nat) :
      o ∈ f.ops → o.task ≠ 0 → vid ∈ o.inputs → producerOf f vid = some p →
      taskOf f p = 0 → PreReach f p
  | extend (q vid p : Nat) :
      PreReach f q → vid ∈ inputsOf f q → producerOf f vid = some p →
      PreReach f p

/-- Membership in the post-parallel set, declaratively: the main-task
consumers of an output of a parallel operation, expanded forward through
main-task consumer chains. -/
inductive PostReach (f : Flow) : Nat → Prop where
  | direct (o : Operation) (vid c : Nat) :
      o ∈ f.ops → o.task ≠ 0 → vid ∈ o.outputs → c ∈ consumersOf f vid →
      taskOf f c = 0 → PostReach f c
  | extend (q vid c : Nat) :
      PostReach f q → vid ∈ outputsOf f q → c ∈ consumersOf f vid →
      taskOf f c = 0 → PostReach f c

/-- Operation `p` directly feeds operation `q`: some input of `q` is
produced by `p`. -/
def FeedsDirect (f : Flow) (p q : Nat) : Prop :=
  ∃ vid ∈ inputsOf f q, producerOf f vid = some p

/-- Strict ancestry through producer chains. -/
def Ancestor (f : Flow) : Nat → Nat → Prop :=
  Relation.TransGen (FeedsDirect f)

/-!
Concrete flows used by the witnesses and counterexamples.
-/

/-- A three-operation chain m0 (main) → p1 (task 1) → m2 (main): the
standard pre-parallel / parallel / post-parallel shape. -/
def exChain : Flow :=
  { vars := [
      { vid := 0, name := strBytes "a", aliases := [], type := 1, shape := [],
        data := none, size := 0, isIn := false, isOut := false, ref := false,
        producer := some 0, consumers := [1] },
      { vid := 1, name := strBytes "b", aliases := [], type := 1, shape := [],
        data := none, size := 0, isIn := false, isOut := false, ref := false,
        producer := some 1, consumers := [2] }],
    ops := [
      { oid := 0, name := strBytes "m0", type := strBytes "Op", inputs := [],
        outputs := [0], attrs := [], task := 0, func := none },
      { oid := 1, name := strBytes "p1", type := strBytes "Op", inputs := [0],
        outputs := [1], attrs := [], task := 1, func := none },
      { oid := 2, name := strBytes "m2", type := strBytes "Op", inputs := [1],
        outputs := [], attrs := [], task := 0, func := none }],
    funcs := [], cnxs := [], blobs := [] }

/-- A chain A (task 1) → m (main) → P (task 1): the pre-parallel
expansion pulls the parallel operation A into the priority-4 set. -/
def exPar : Flow :=
  { vars := [
      { vid := 0, name := strBytes "u", aliases := [], type := 1, shape := [],
        data := none, size := 0, isIn := false, isOut := false, ref := false,
        producer := some 0, consumers := [1] },
      { vid := 1, name := strBytes "v", aliases := [], type := 1, shape := [],
        data := none, size := 0, isIn := false, isOut := false, ref := false,
        producer := some 1, consumers := [2] }],
    ops := [
      { oid := 0, name := strBytes "A", type := strBytes "Op", inputs := [],
        outputs := [0], attrs := [], task := 1, func := none },
      { oid := 1, name := strBytes "m", type := strBytes "Op", inputs := [0],
        outputs := [1], attrs := [], task := 0, func := none },
      { oid := 2, name := strBytes "P", type := strBytes "Op", inputs := [1],
        outputs := [], attrs := [], task := 1, func := none }],
    funcs := [], cnxs := [], blobs := [] }

/-- A flow with an identity-like operation e : x → y whose output is
consumed by g, with y linked in a connector (exercise for Eliminate). -/
def exElim : Flow :=
  { vars := [
      { vid := 0, name := strBytes "x", aliases := [], type := 1, shape := [2],
        data := none, size := 0, isIn := true, isOut := false, ref := false,
        producer := none, consumers := [5] },
      { vid := 1, name := strBytes "y", aliases := [strBytes "y2"], type := 1,
        shape := [2], data := none, size := 0, isIn := false, isOut := true,
        ref := false, producer := some 5, consumers := [6] },
      { vid := 2, name := strBytes "z", aliases := [], type := 1, shape := [2],
        data := none, size := 0, isIn := false, isOut := true, ref := false,
        producer := some 6, consumers := [] }],
    ops := [
      { oid := 5, name := strBytes "e", type := strBytes "Identity",
        inputs := [0], outputs := [1], attrs := [], task := 0, func := none },
      { oid := 6, name := strBytes "g", type := strBytes "Neg",
        inputs := [1], outputs := [2], attrs := [], task := 0, func := none }],
    funcs := [], cnxs := [{ name := strBytes "c", links := [1] }], blobs := [] }

/-- A flow with two fusable operations a : x → t and b : t → y where t
is a pure intermediate (exercise for Fuse). -/
def exFuse : Flow :=
  { vars := [
      { vid := 0, name := strBytes "x", aliases := [], type := 1, shape := [2],
        data := none, size := 0, isIn := true, isOut := false, ref := false,
        producer := none, consumers := [0] },
      { vid := 1, name := strBytes "t", aliases := [], type := 1, shape := [2],
        data := none, size := 0, isIn := false, isOut := false, ref := false,
        producer := some 0, consumers := [1] },
      { vid := 2, name := strBytes "y", aliases := [], type := 1, shape := [2],
        data := none, size := 0, isIn := false, isOut := true, ref := false,
        producer := some 1, consumers := [] }],
    ops := [
      { oid := 0, name := strBytes "a", type := strBytes "MatMul",
        inputs := [0], outputs := [1], attrs := [], task := 0, func := some 0 },
      { oid := 1, name := strBytes "b", type := strBytes "Add",
        inputs := [1], outputs := [2],
        attrs := [⟨strBytes "alpha", strBytes "1"⟩], task := 0,
        func := some 0 }],
    funcs := [{ fid := 0, name := strBytes "main", ops := [0, 1] }],
    cnxs := [], blobs := [] }

/-- A minimal flow with an unproduced variable and one operation, for
the AddOutput witness. -/
def exAdd : Flow :=
  { vars := [
      { vid := 0, name := strBytes "w", aliases := [], type := 1, shape := [],
        data := none, size := 0, isIn := false, isOut := false, ref := false,
        producer := none, consumers := [] }],
    ops := [
      { oid := 0, name := strBytes "h", type := strBytes "Const",
        inputs := [], outputs := [], attrs := [], task := 0, func := none }],
    funcs := [], cnxs := [], blobs := [] }

/-- A flow whose single operation has an input with unresolved type, for
the InferTypes witness (the operation is skipped). -/
def exInfer : Flow :=
  { vars := [
      { vid := 0, name := strBytes "p", aliases := [], type := 0, shape := [2],
        data := none, size := 0, isIn := true, isOut := false, ref := false,
        producer := none, consumers := [0] },
      { vid := 1, name := strBytes "q", aliases := [], type := 0, shape := [2],
        data := none, size := 0, isIn := false, isOut := true, ref := false,
        producer := some 0, consumers := [] }],
    ops := [
      { oid := 0, name := strBytes "n", type := strBytes "Neg", inputs := [0],
        outputs := [1], attrs := [], task := 0, func := none }],
    funcs := [], cnxs := [], blobs := [] }

/-- A producer/output flow whose output variable does not carry its
producer's name among its aliases: save-then-read adds the alias, so the
round-trip is not the identity on it. -/
def exRT : Flow :=
  { vars := [
      { vid := 0, name := strBytes "x", aliases := [], type := 1, shape := [2],
        data := none, size := 0, isIn := false, isOut := false, ref := false,
        producer := none, consumers := [0] },
      { vid := 1, name := strBytes "y", aliases := [], type := 1, shape := [2],
        data := none, size := 0, isIn := false, isOut := false, ref := false,
        producer := some 0, consumers := [] }],
    ops := [
      { oid := 0, name := strBytes "f", type := strBytes "Neg", inputs := [0],
        outputs := [1], attrs := [], task := 0, func := none }],
    funcs := [], cnxs := [], blobs := [] }

/-- A closed flow exercising every file section (aliases, reference
type, constant payload, task attribute, function, connector, blob), for
the round-trip witness. -/
def exRT2 : Flow :=
  { vars := [
      { vid := 0, name := strBytes "x", aliases := [], type := 1, shape := [2],
        data := none, size := 0, isIn := false, isOut := false, ref := false,
        producer := none, consumers := [0] },
      { vid := 1, name := strBytes "y", aliases := [strBytes "f"], type := 1,
        shape := [2], data := some [7, 8, 9, 10, 11, 12, 13, 14], size := 8,
        isIn := false, isOut := false, ref := true, producer := some 0,
        consumers := [] }],
    ops := [
      { oid := 0, name := strBytes "f", type := strBytes "Neg", inputs := [0],
        outputs := [1], attrs := [⟨strBytes "task", strBytes "2"⟩], task := 2,
        func := some 0 }],
    funcs := [{ fid := 0, name := strBytes "main", ops := [0] }],
    cnxs := [{ name := strBytes "c", links := [0] }],
    blobs := [{ name := strBytes "lex", type := strBytes "dict", attrs := [],
                size := 3, data := some [1, 2, 3] }] }

/-!
Specification vocabulary for the Sort proofs.
-/

/-- The operation ids of a flow, in arena order. -/
def opIds (f : Flow) : List Nat := f.ops.map (fun o => o.oid)

/-- The number of input occurrences of an operation whose producer has
not been emitted yet (what the `missing` counter of Sort tracks). -/
def countMissing (f : Flow) (emitted : List Nat) (oid : Nat) : Nat :=
  ((inputsOf f oid).filter (fun vid =>
    match producerOf f vid with
    | some p => !(emitted.contains p)
    | none => false)).length

/-- The invariant of the Kahn phase of Sort: missing counters track the
unemitted producers, emitted and ready operations are distinct known
operations, ready operations have all producers emitted, the emitted
prefix is topologically ordered, every operation whose producers are all
emitted has been emitted or is ready, and the emitted variables are the
producerless variables followed by the outputs of the emitted
operations. -/
structure SortInv (f : Flow) (st : SortSt) : Prop where
  missing_eq : ∀ oid ∈ opIds f, st.missing oid = countMissing f st.emitOps oid
  nodup : (st.emitOps ++ st.ready.map Prod.fst).Nodup
  emit_sub : ∀ oid ∈ st.emitOps, oid ∈ opIds f
  ready_sub : ∀ oid ∈ st.ready.map Prod.fst, oid ∈ opIds f
  ready_producers : ∀ pr ∈ st.ready, ∀ vid ∈ inputsOf f pr.1, ∀ p,
      producerOf f vid = some p → p ∈ st.emitOps
  emit_producers : ∀ oid ∈ st.emitOps, ∀ vid ∈ inputsOf f oid, ∀ p,
      producerOf f vid = some p → p ∈ st.emitOps ∧
      st.emitOps.indexOf p < st.emitOps.indexOf oid
  zero_handled : ∀ oid ∈ opIds f, countMissing f st.emitOps oid = 0 →
      oid ∈ st.emitOps ∨ oid ∈ st.ready.map Prod.fst
  vars_eq : st.emitVars = noProducerVids f ++ st.emitOps.flatMap (outputsOf f)

/-- The structural well-formedness invariant of a Flow, as a proposition
field by field (the Bool `flowWF` evaluated; the equivalence is proved
below). -/
structure FlowWFP (f : Flow) : Prop where
  vars_nodup : (f.vars.map (fun v => v.vid)).Nodup
  ops_nodup : (f.ops.map (fun o => o.oid)).Nodup
  funcs_nodup : (f.funcs.map (fun fn => fn.fid)).Nodup
  ins_resolve : ∀ o ∈ f.ops, ∀ vid ∈ o.inputs, (f.findVar vid).isSome = true
  outs_resolve : ∀ o ∈ f.ops, ∀ vid ∈ o.outputs, (f.findVar vid).isSome = true
  outs_nodup : ∀ o ∈ f.ops, o.outputs.Nodup
  cons_resolve : ∀ v ∈ f.vars, ∀ c ∈ v.consumers, (f.findOp c).isSome = true
  prod_resolve : ∀ v ∈ f.vars, ∀ p, v.producer = some p →
      (f.findOp p).isSome = true
  count_sym : ∀ v ∈ f.vars, ∀ o ∈ f.ops,
      v.consumers.count o.oid = o.inputs.count v.vid
  prod_iff : ∀ v ∈ f.vars, ∀ o ∈ f.ops,
      (v.producer = some o.oid ↔ v.vid ∈ o.outputs)
  func_sym : ∀ o ∈ f.ops, ∀ fid, o.func = some fid →
      ∃ fn ∈ f.funcs, fn.fid = fid ∧ o.oid ∈ fn.ops
  func_resolve : ∀ fn ∈ f.funcs, ∀ oid ∈ fn.ops,
      ∃ o, f.findOp oid = some o ∧ o.func = some fn.fid
  func_ops_nodup : ∀ fn ∈ f.funcs, fn.ops.Nodup
  cnx_nodup : ∀ c ∈ f.cnxs, c.links.Nodup

/-!
General lemmas about the arena lookups and updates.
-/

theorem find?_map_invar {α : Type} (l : List α) (p : α → Bool) (h : α → α)
    (hc : ∀ a, p (h a) = p a) :
    (l.map h).find? p = (l.find? p).map h := by
  induction l with
  | nil => rfl
  | cons a t ih =>
      simp only [List.map_cons, List.find?_cons, hc a]
      cases hpa : p a
      · simpa [hpa] using ih
      · simp [hpa]

theorem findVar_updateVar_self (f : Flow) (vid : Nat) (g : Variable → Variable)
    (hg : ∀ v, (g v).vid = v.vid) :
    (updateVar f vid g).findVar vid = (f.findVar vid).map g := by
  simp only [updateVar, Flow.findVar]
  rw [find?_map_invar]
  · cases hf : f.vars.find? (fun v => decide (v.vid = vid)) with
    | none => rfl
    | some v =>
        have hv : v.vid = vid := by simpa using List.find?_some hf
        simp [hv]
  · intro a
    by_cases ha : a.vid = vid
    · simp [ha, hg a]
    · simp [ha]

theorem findVar_updateVar_ne (f : Flow) (vid w : Nat) (g : Variable → Variable)
    (hg : ∀ v, (g v).vid = v.vid) (hne : w ≠ vid) :
    (updateVar f vid g).findVar w = f.findVar w := by
  simp only [updateVar, Flow.findVar]
  rw [find?_map_invar]
  · cases hf : f.vars.find? (fun v => decide (v.vid = w)) with
    | none => rfl
    | some v =>
        have hv : v.vid = w := by simpa using List.find?_some hf
        have hvv : ¬ v.vid = vid := by rw [hv]; exact hne
        simp [hvv]
  · intro a
    by_cases ha : a.vid = vid
    · simp [ha, hg a]
    · simp [ha]

theorem findVar_updateOp (f : Flow) (oid : Nat) (g : Operation → Operation)
    (w : Nat) : (updateOp f oid g).findVar w = f.findVar w := rfl

theorem findOp_updateVar (f : Flow) (vid : Nat) (g : Variable → Variable)
    (w : Nat) : (updateVar f vid g).findOp w = f.findOp w := rfl

theorem findOp_updateOp_self (f : Flow) (oid : Nat) (g : Operation → Operation)
    (hg : ∀ o, (g o).oid = o.oid) :
    (updateOp f oid g).findOp oid = (f.findOp oid).map g := by
  simp only [updateOp, Flow.findOp]
  rw [find?_map_invar]
  · cases hf : f.ops.find? (fun o => decide (o.oid = oid)) with
    | none => rfl
    | some o =>
        have ho : o.oid = oid := by simpa using List.find?_some hf
        simp [ho]
  · intro a
    by_cases ha : a.oid = oid
    · simp [ha, hg a]
    · simp [ha]

theorem findOp_updateOp_ne (f : Flow) (oid w : Nat) (g : Operation → Operation)
    (hg : ∀ o, (g o).oid = o.oid) (hne : w ≠ oid) :
    (updateOp f oid g).findOp w = f.findOp w := by
  simp only [updateOp, Flow.findOp]
  rw [find?_map_invar]
  · cases hf : f.ops.find? (fun o => decide (o.oid = w)) with
    | none => rfl
    | some o =>
        have ho : o.oid = w := by simpa using List.find?_some hf
        have hoo : ¬ o.oid = oid := by rw [ho]; exact hne
        simp [hoo]
  · intro a
    by_cases ha : a.oid = oid
    · simp [ha, hg a]
    · simp [ha]

theorem mem_addAlias (al : List Str) (a : Str) : a ∈ addAlias al a := by
  unfold addAlias
  by_cases h : a ∈ al
  · simp [h]
  · simp [h]

theorem mem_addAlias_of_mem (al : List Str) (a b : Str) (h : b ∈ al) :
    b ∈ addAlias al a := by
  unfold addAlias
  by_cases ha : a ∈ al
  · simpa [ha]
  · simp [ha, List.mem_append, h]

theorem mem_addAliasList_of_mem (l : List Str) (al : List Str) (b : Str)
    (h : b ∈ al) : b ∈ addAliasList al l := by
  induction l generalizing al with
  | nil => simpa [addAliasList]
  | cons a t ih =>
      show b ∈ addAliasList (addAlias al a) t
      exact ih _ (mem_addAlias_of_mem al a b h)

theorem mem_addAliasList (l : List Str) (al : List Str) (b : Str)
    (h : b ∈ l) : b ∈ addAliasList al l := by
  induction l generalizing al with
  | nil => cases h
  | cons a t ih =>
      rcases List.mem_cons.mp h with rfl | hb
      · exact mem_addAliasList_of_mem t (addAlias al b) b (mem_addAlias al b)
      · exact ih _ hb

/-!
Claim C6.  The broadcast-compatibility check of `Shape::IsCompatible`
compares the decremented loop index `d2` with 1 where the intended
comparison is the dimension size: the code both rejects shapes the
specified semantics accepts ([5] vs [1]) and accepts shapes it rejects
([9,4] vs [2,2,3,4], whose second-to-last aligned pair is 9 vs 3, waved
through because the index equals 1).
-/

/-- C6: `Shape::IsCompatible` diverges from the specified broadcast
semantics in both directions; evaluating the code at the failing inputs.
The pair ([5], [1]) must be compatible under the spec (size 1
broadcasts) but the code returns false; the pair ([9,4], [2,2,3,4])
must be incompatible (9 vs 3) but the code returns true. -/
theorem c6_is_compatible_divergence :
    isCompatible [5] [1] = false ∧ isCompatibleSpec [5] [1] = true ∧
    isCompatible [9, 4] [2, 2, 3, 4] = true ∧
    isCompatibleSpec [9, 4] [2, 2, 3, 4] = false := by
  refine ⟨rfl, rfl, rfl, rfl⟩

/-!
Claim C7.  `Operation::AddOutput` enforces at most one producer per
variable: it succeeds exactly when the variable has no producer, in
which case it records the operation as the producer and appends the
variable to the operation's outputs; a second producer is a fatal error.
-/

/-- C7: AddOutput succeeds iff the variable has no producer; on success
the variable's producer becomes the operation and the variable is
appended to the operation's output list; on a variable that already has
a producer it is a fatal error (`none`). -/
theorem c7_add_output (f : Flow) (oid vid : Nat) (v : Variable)
    (hv : f.findVar vid = some v) :
    ((addOutput f oid vid).isSome ↔ v.producer = none) ∧
    (∀ f', addOutput f oid vid = some f' →
      producerOf f' vid = some oid ∧
      ∀ o, f.findOp oid = some o →
        f'.findOp oid = some { o with outputs := o.outputs ++ [vid] }) ∧
    (v.producer ≠ none → addOutput f oid vid = none) := by
  have hbody : addOutput f oid vid =
      (if v.producer = none then
        some (updateOp (updateVar f vid (fun w => { w with producer := some oid }))
                oid (fun o => { o with outputs := o.outputs ++ [vid] }))
      else none) := by
    unfold addOutput
    rw [hv]
  constructor
  · constructor
    · intro hs
      by_contra hp
      rw [hbody, if_neg hp] at hs
      simp at hs
    · intro hp
      rw [hbody, if_pos hp]
      simp
  constructor
  · intro f' hf'
    by_cases hp : v.producer = none
    · rw [hbody, if_pos hp] at hf'
      injection hf' with hq
      subst hq
      constructor
      · unfold producerOf
        rw [findVar_updateOp, findVar_updateVar_self, hv]
        · rfl
        · intro w
          rfl
      · intro o ho
        rw [findOp_updateOp_self, findOp_updateVar, ho]
        · rfl
        · intro p
          rfl
    · rw [hbody, if_neg hp] at hf'
      cases hf'
  · intro hp
    rw [hbody, if_neg hp]

/-- C7 witness: in `exAdd`, variable 0 has no producer, so AddOutput
succeeds; after the call the producer is recorded. -/
theorem c7_add_output_witness :
    (exAdd.findVar 0).isSome = true ∧ (addOutput exAdd 0 0).isSome = true := by
  constructor
  · rfl
  · exact (c7_add_output exAdd 0 0
      { vid := 0, name := strBytes "w", aliases := [], type := 1, shape := [],
        data := none, size := 0, isIn := false, isOut := false, ref := false,
        producer := none, consumers := [] } rfl).1.mpr rfl

/-!
Claim C9.  The attribute mapping keeps at most one entry per key:
`Set` on a present key overwrites the value in place, `Set` on an
absent key appends one entry, and `Get` afterwards returns the value of
the most recent `Set` (or the empty string / the supplied default when
the key was never set).
-/

theorem attrGet_cons (a : Attribute) (t : Attributes) (n : Str) :
    attrGet (a :: t) n = if a.name = n then a.value else attrGet t n := by
  unfold attrGet
  by_cases h : a.name = n
  · rw [List.find?_cons_of_pos]
    · simp [h]
    · simp [h]
  · rw [List.find?_cons_of_neg]
    · simp [h]
    · simp [h]

theorem attrGetBool_cons (a : Attribute) (t : Attributes) (n : Str) (d : Bool) :
    attrGetBool (a :: t) n d =
      if a.name = n then
        decide (a.value = strBytes "1" ∨ a.value = strBytes "T" ∨
                a.value = strBytes "true")
      else attrGetBool t n d := by
  unfold attrGetBool
  by_cases h : a.name = n
  · rw [List.find?_cons_of_pos]
    · simp [h]
    · simp [h]
  · rw [List.find?_cons_of_neg]
    · simp [h]
    · simp [h]

theorem attrHas_cons (a : Attribute) (t : Attributes) (n : Str) :
    attrHas (a :: t) n = (decide (a.name = n) || attrHas t n) := by
  unfold attrHas
  simp [List.any_cons]

theorem attrSet_cons (a : Attribute) (t : Attributes) (n v : Str) :
    attrSet (a :: t) n v =
      if a.name = n then ⟨a.name, v⟩ :: t else a :: attrSet t n v := rfl

theorem attrSet_keys (attrs : Attributes) (name value : Str) :
    (attrSet attrs name value).map Attribute.name =
      if attrHas attrs name then attrs.map Attribute.name
      else attrs.map Attribute.name ++ [name] := by
  induction attrs with
  | nil => simp [attrSet, attrHas]
  | cons a t ih =>
      rw [attrSet_cons, attrHas_cons]
      by_cases ha : a.name = name
      · simp [ha]
      · simp only [if_neg ha, List.map_cons, ih]
        by_cases ht : attrHas t name
        · simp [ha, ht]
        · simp only [Bool.not_eq_true] at ht
          simp [ha, ht]

theorem attrGet_attrSet_self (attrs : Attributes) (name value : Str) :
    attrGet (attrSet attrs name value) name = value := by
  induction attrs with
  | nil => simp [attrSet, attrGet_cons]
  | cons a t ih =>
      rw [attrSet_cons]
      by_cases ha : a.name = name
      · simp [ha, attrGet_cons]
      · simp [ha, attrGet_cons, ih]

theorem attrGet_attrSet_other (attrs : Attributes) (name value other : Str)
    (hne : other ≠ name) :
    attrGet (attrSet attrs name value) other = attrGet attrs other := by
  induction attrs with
  | nil =>
      have : ¬ (name = other) := fun h => hne h.symm
      simp [attrSet, attrGet_cons, attrGet, this]
  | cons a t ih =>
      rw [attrSet_cons]
      have hno : ¬ name = other := fun h => hne h.symm
      by_cases ha : a.name = name
      · have hao : ¬ a.name = other := fun h => hne (h.symm.trans ha)
        simp [ha, attrGet_cons, hao, hno]
      · by_cases hao : a.name = other
        · simp [ha, attrGet_cons, hao, hne]
        · simp [ha, attrGet_cons, hao, ih]

theorem attrSet_length_of_has (attrs : Attributes) (name value : Str)
    (h : attrHas attrs name = true) :
    (attrSet attrs name value).length = attrs.length := by
  induction attrs with
  | nil => cases h
  | cons a t ih =>
      rw [attrSet_cons]
      by_cases ha : a.name = name
      · simp [ha]
      · rw [attrHas_cons] at h
        have ht : attrHas t name = true := by
          have hd : decide (a.name = name) = false := by simp [ha]
          rw [hd] at h
          simpa using h
        simp [ha, ih ht]

theorem attrSet_append_of_not_has (attrs : Attributes) (name value : Str)
    (h : attrHas attrs name = false) :
    attrSet attrs name value = attrs ++ [⟨name, value⟩] := by
  induction attrs with
  | nil => rfl
  | cons a t ih =>
      rw [attrHas_cons, Bool.or_eq_false_iff] at h
      have ha : ¬ a.name = name := by
        intro hh
        simp [hh] at h
      rw [attrSet_cons, if_neg ha, ih h.2]
      simp

theorem attrGet_of_not_has (attrs : Attributes) (name : Str)
    (h : attrHas attrs name = false) :
    attrGet attrs name = [] ∧ ∀ d, attrGetBool attrs name d = d := by
  have hfind : attrs.find? (fun a => decide (a.name = name)) = none := by
    rw [List.find?_eq_none]
    intro a ha
    simp only [attrHas] at h
    have h2 := List.any_eq_false.mp h a ha
    simpa using h2
  exact ⟨by simp [attrGet, hfind], fun d => by simp [attrGetBool, hfind]⟩

theorem attrHas_iff (attrs : Attributes) (n : Str) :
    attrHas attrs n = true ↔ n ∈ attrs.map Attribute.name := by
  unfold attrHas
  rw [List.any_eq_true]
  constructor
  · rintro ⟨a, ha, he⟩
    exact List.mem_map.mpr ⟨a, ha, by simpa using he⟩
  · intro hn
    rcases List.mem_map.mp hn with ⟨a, ha, he⟩
    exact ⟨a, ha, by simpa using he⟩

theorem attrSet_keys_nodup (attrs : Attributes) (n v : Str)
    (h : (attrs.map Attribute.name).Nodup) :
    ((attrSet attrs n v).map Attribute.name).Nodup := by
  rw [attrSet_keys]
  by_cases hh : attrHas attrs n
  · simpa [hh]
  · simp only [hh, Bool.false_eq_true, if_false]
    rw [List.nodup_append]
    refine ⟨h, List.nodup_singleton n, ?_⟩
    intro a ha hb
    have han : a = n := by simpa using hb
    subst han
    have hnm : a ∉ attrs.map Attribute.name := by
      intro hmem
      exact hh ((attrHas_iff attrs a).mpr hmem)
    exact hnm ha

theorem foldl_attrSet_keys_nodup (sets : List (Str × Str)) (attrs : Attributes)
    (h : (attrs.map Attribute.name).Nodup) :
    (((sets.foldl (fun m p => attrSet m p.1 p.2) attrs)).map Attribute.name).Nodup := by
  induction sets generalizing attrs with
  | nil => exact h
  | cons p rest ih => exact ih _ (attrSet_keys_nodup attrs p.1 p.2 h)

theorem foldl_attrSet_get (sets : List (Str × Str)) (attrs : Attributes)
    (name : Str) :
    attrGet (sets.foldl (fun m p => attrSet m p.1 p.2) attrs) name =
      (match sets.reverse.find? (fun p => decide (p.1 = name)) with
       | some p => p.2
       | none => attrGet attrs name) := by
  induction sets generalizing attrs with
  | nil => rfl
  | cons p rest ih =>
      simp only [List.foldl_cons, List.reverse_cons]
      rw [ih, List.find?_append]
      cases hf : rest.reverse.find? (fun q => decide (q.1 = name)) with
      | some q => rfl
      | none =>
          by_cases hp : p.1 = name
          · have : ([p].find? (fun q => decide (q.1 = name))) = some p := by
              simp [List.find?_cons_of_pos, hp]
            simp only [Option.none_orElse, this]
            rw [← hp]
            exact attrGet_attrSet_self attrs p.1 p.2
          · have : ([p].find? (fun q => decide (q.1 = name))) = none := by
              simp [hp]
            simp only [Option.none_orElse, this]
            exact attrGet_attrSet_other attrs p.1 p.2 name
              (fun hq => hp hq.symm)

/-- C9: the attribute mapping keeps at most one entry per key: Set on an
existing key overwrites in place without adding an entry, Set on a new
key appends exactly one entry, and Get returns the value of the most
recent Set for the name — across any sequence of Set calls — or the
empty string / supplied default when the name was never set. -/
theorem c9_attributes (attrs : Attributes) (name value : Str)
    (hnd : (attrs.map Attribute.name).Nodup) :
    ((attrSet attrs name value).map Attribute.name).Nodup ∧
    attrGet (attrSet attrs name value) name = value ∧
    (∀ other, other ≠ name →
      attrGet (attrSet attrs name value) other = attrGet attrs other) ∧
    (attrHas attrs name = true →
      (attrSet attrs name value).length = attrs.length) ∧
    (attrHas attrs name = false →
      attrSet attrs name value = attrs ++ [⟨name, value⟩]) ∧
    (attrHas attrs name = false →
      attrGet attrs name = [] ∧ ∀ d, attrGetBool attrs name d = d) ∧
    (∀ sets : List (Str × Str),
      ((sets.foldl (fun m p => attrSet m p.1 p.2) attrs).map Attribute.name).Nodup ∧
      attrGet (sets.foldl (fun m p => attrSet m p.1 p.2) attrs) name =
        (match sets.reverse.find? (fun p => decide (p.1 = name)) with
         | some p => p.2
         | none => attrGet attrs name)) := by
  refine ⟨attrSet_keys_nodup attrs name value hnd,
          attrGet_attrSet_self attrs name value,
          fun other ho => attrGet_attrSet_other attrs name value other ho,
          fun h => attrSet_length_of_has attrs name value h,
          fun h => attrSet_append_of_not_has attrs name value h,
          fun h => attrGet_of_not_has attrs name h,
          fun sets => ⟨foldl_attrSet_keys_nodup sets attrs hnd,
                       foldl_attrSet_get sets attrs name⟩⟩

/-- C9 witness: applying the claim at the empty mapping with a concrete
Set sequence. -/
theorem c9_attributes_witness :
    (([] : Attributes).map Attribute.name).Nodup ∧
    attrGet (attrSet [] (strBytes "a") (strBytes "1")) (strBytes "a")
      = strBytes "1" := by
  constructor
  · exact List.nodup_nil
  · exact (c9_attributes [] (strBytes "a") (strBytes "1") List.nodup_nil).2.1

/-!
Lemmas about deletion and the Eliminate chain.
-/

theorem findVar_deleteOperation (f : Flow) (oid w : Nat) :
    (deleteOperation f oid).findVar w = f.findVar w := rfl

theorem ops_deleteOperation (f : Flow) (oid : Nat) :
    (deleteOperation f oid).ops = f.ops.eraseP (fun o => decide (o.oid = oid)) := rfl

theorem cnxs_deleteOperation (f : Flow) (oid : Nat) :
    (deleteOperation f oid).cnxs = f.cnxs := rfl

theorem vars_deleteOperation (f : Flow) (oid : Nat) :
    (deleteOperation f oid).vars = f.vars := rfl

theorem find?_eraseP {α : Type} (l : List α) (p q : α → Bool)
    (hpq : ∀ a, q a = true → p a = false) :
    (l.eraseP q).find? p = l.find? p := by
  induction l with
  | nil => rfl
  | cons a t ih =>
      by_cases hq : q a = true
      · rw [List.eraseP_cons_of_pos hq]
        have hp := hpq a hq
        simp [List.find?_cons, hp]
      · rw [List.eraseP_cons_of_neg (by simpa using hq)]
        by_cases hp : p a = true
        · simp [List.find?_cons, hp]
        · have hp' : p a = false := by simpa using hp
          simp [List.find?_cons, hp', ih]

theorem findVar_deleteVariable_ne (f : Flow) (vid w : Nat) (hne : w ≠ vid) :
    (deleteVariable f vid).findVar w = f.findVar w := by
  unfold deleteVariable Flow.findVar
  refine find?_eraseP f.vars _ _ (fun a ha => ?_)
  have hv : a.vid = vid := by simpa using ha
  have : ¬ a.vid = w := by
    rw [hv]
    exact fun hh => hne hh.symm
  simp [this]

theorem eliminate_eq_core (f : Flow) (oid x y : Nat) (op : Operation)
    (yv : Variable) (hop : f.findOp oid = some op) (hin : op.inputs = [x])
    (hout : op.outputs = [y]) (hyv : f.findVar y = some yv) :
    eliminate f oid = eliminateCore f oid x y yv := by
  unfold eliminate
  simp only [hop, hin, hout, hyv]

theorem findVar_substCnxLinks (f : Flow) (y x w : Nat) :
    (substCnxLinks f y x).findVar w = f.findVar w := rfl

theorem findVar_substOpInputs (f : Flow) (y x w : Nat) :
    (substOpInputs f y x).findVar w = f.findVar w := rfl

theorem findVar_eliminateCore_input (f : Flow) (oid x y : Nat) (yv : Variable)
    (hxy : x ≠ y) :
    (eliminateCore f oid x y yv).findVar x =
      (f.findVar x).map (fun v =>
        { v with
          isIn := v.isIn || yv.isIn,
          isOut := v.isOut || yv.isOut,
          ref := v.ref || yv.ref,
          consumers := (v.consumers.erase oid) ++ yv.consumers,
          aliases := addAliasList v.aliases (yv.name :: yv.aliases) }) := by
  unfold eliminateCore
  rw [findVar_deleteOperation, findVar_deleteVariable_ne _ _ _ hxy,
      findVar_substCnxLinks, findVar_updateVar_self, findVar_updateVar_self,
      findVar_updateVar_self, findVar_substOpInputs, findVar_updateVar_self]
  · cases f.findVar x with
    | none => rfl
    | some v => rfl
  · intro v
    rfl
  · intro v
    rfl
  · intro v
    rfl
  · intro v
    rfl

theorem vars_substOpInputs (f : Flow) (y x : Nat) :
    (substOpInputs f y x).vars = f.vars := rfl

theorem vars_substCnxLinks (f : Flow) (y x : Nat) :
    (substCnxLinks f y x).vars = f.vars := rfl

theorem ops_eliminateCore (f : Flow) (oid x y : Nat) (yv : Variable) :
    (eliminateCore f oid x y yv).ops =
      (f.ops.map (fun t => { t with inputs := t.inputs.map (fun i =>
          if i = y then x else i) })).eraseP (fun o => decide (o.oid = oid)) := rfl

theorem cnxs_eliminateCore (f : Flow) (oid x y : Nat) (yv : Variable) :
    (eliminateCore f oid x y yv).cnxs =
      f.cnxs.map (fun c => cnxReplaceLink c y x) := rfl

theorem vars_eliminateCore_spec (f : Flow) (oid x y : Nat) (yv : Variable) :
    ∃ L : List Variable,
      (eliminateCore f oid x y yv).vars = L.eraseP (fun v => decide (v.vid = y)) ∧
      L.map Variable.vid = f.vars.map Variable.vid := by
  refine ⟨_, rfl, ?_⟩
  simp only [vars_substOpInputs, vars_substCnxLinks, updateVar, List.map_map]
  apply List.map_congr_left
  intro v _
  by_cases h : v.vid = x <;> simp [h]

theorem eraseP_key_not_mem {α : Type} (key : α → Nat) (l : List α) (k : Nat)
    (hnd : (l.map key).Nodup) :
    ∀ a ∈ l.eraseP (fun a => decide (key a = k)), key a ≠ k := by
  induction l with
  | nil => intro a ha; cases ha
  | cons b t ih =>
      intro a ha
      rw [List.map_cons, List.nodup_cons] at hnd
      by_cases hb : key b = k
      · rw [List.eraseP_cons_of_pos (by simpa using hb)] at ha
        intro hak
        apply hnd.1
        rw [hb, ← hak]
        exact List.mem_map_of_mem key ha
      · rw [List.eraseP_cons_of_neg (by simpa using hb)] at ha
        rcases List.mem_cons.mp ha with rfl | hat
        · exact hb
        · exact ih hnd.2 a hat

theorem links_cnxRemoveLink (c : Connector) (vid : Nat) :
    (cnxRemoveLink c vid).links = c.links.erase vid := rfl

theorem links_cnxAddLink (c : Connector) (vid : Nat) :
    (cnxAddLink c vid).links =
      if vid ∈ c.links then c.links else c.links ++ [vid] := by
  unfold cnxAddLink
  by_cases h : vid ∈ c.links <;> simp [h]

theorem links_cnxReplaceLink (c : Connector) (a b : Nat) :
    (cnxReplaceLink c a b).links =
      if a ∈ c.links then
        (if b ∈ c.links.erase a then c.links.erase a
         else c.links.erase a ++ [b])
      else c.links := by
  unfold cnxReplaceLink
  by_cases h : a ∈ c.links
  · rw [if_pos h, if_pos h, links_cnxAddLink, links_cnxRemoveLink]
  · rw [if_neg h, if_neg h]

theorem not_mem_cnxReplaceLink (c : Connector) (y x : Nat)
    (hnd : c.links.Nodup) (hxy : x ≠ y) :
    y ∉ (cnxReplaceLink c y x).links := by
  rw [links_cnxReplaceLink]
  by_cases h : y ∈ c.links
  · rw [if_pos h]
    by_cases hx : x ∈ c.links.erase y
    · rw [if_pos hx]
      exact hnd.not_mem_erase
    · rw [if_neg hx]
      intro hmem
      rcases List.mem_append.mp hmem with h1 | h2
      · exact hnd.not_mem_erase h1
      · have h2' : y = x := by simpa using h2
        exact hxy h2'.symm
  · rw [if_neg h]
    exact h

/-!
Claim C5 (Flow::Eliminate).
-/

/-- C5: after Eliminate of a single-input/single-output identity-like
operation with input x and output y, every operation input equal to y
has been rewritten to x (and the operation itself deleted), y is gone
from the variable arena and from every connector (replaced by x), the
in/out/ref flags of y are merged onto x, y's consumers are appended to
x's consumer list, and y's name and aliases become aliases of x. -/
theorem c5_eliminate (f : Flow) (oid x y : Nat) (op : Operation)
    (xv yv : Variable)
    (hop : f.findOp oid = some op) (hin : op.inputs = [x])
    (hout : op.outputs = [y]) (hxy : x ≠ y)
    (hxv : f.findVar x = some xv) (hyv : f.findVar y = some yv)
    (hvids : (f.vars.map Variable.vid).Nodup)
    (hoids : (f.ops.map Operation.oid).Nodup)
    (hcnx : ∀ c ∈ f.cnxs, c.links.Nodup)
    (_htype : xv.type ≠ 0 → yv.type ≠ 0 → xv.type = yv.type)
    (_hshape : shapeDefined xv.shape = true → shapeDefined yv.shape = true →
      xv.shape = yv.shape) :
    (eliminate f oid).ops =
      (f.ops.map (fun t => { t with inputs := t.inputs.map (fun i =>
          if i = y then x else i) })).eraseP (fun o => decide (o.oid = oid)) ∧
    (∀ o' ∈ (eliminate f oid).ops, o'.oid ≠ oid ∧ y ∉ o'.inputs) ∧
    (∀ v ∈ (eliminate f oid).vars, v.vid ≠ y) ∧
    ((eliminate f oid).findVar x = some
      { xv with
        isIn := xv.isIn || yv.isIn,
        isOut := xv.isOut || yv.isOut,
        ref := xv.ref || yv.ref,
        consumers := (xv.consumers.erase oid) ++ yv.consumers,
        aliases := addAliasList xv.aliases (yv.name :: yv.aliases) }) ∧
    ((eliminate f oid).cnxs = f.cnxs.map (fun c => cnxReplaceLink c y x)) ∧
    (∀ c' ∈ (eliminate f oid).cnxs, y ∉ c'.links) := by
  rw [eliminate_eq_core f oid x y op yv hop hin hout hyv]
  refine ⟨ops_eliminateCore f oid x y yv, ?_, ?_, ?_,
          cnxs_eliminateCore f oid x y yv, ?_⟩
  · intro o' ho'
    rw [ops_eliminateCore] at ho'
    constructor
    · apply eraseP_key_not_mem Operation.oid _ oid _ o' ho'
      rw [List.map_map]
      have : (Operation.oid ∘ fun t : Operation =>
          { t with inputs := t.inputs.map (fun i => if i = y then x else i) })
          = Operation.oid := by
        funext t
        rfl
      rw [this]
      exact hoids
    · have hmem := List.Sublist.subset (List.eraseP_sublist _) ho'
      rcases List.mem_map.mp hmem with ⟨t, _, rfl⟩
      intro hy
      rcases List.mem_map.mp hy with ⟨i, _, hi⟩
      by_cases hiy : i = y
      · rw [if_pos hiy] at hi
        exact hxy hi
      · rw [if_neg hiy] at hi
        exact hiy hi
  · intro v hv
    rcases vars_eliminateCore_spec f oid x y yv with ⟨L, hL, hLv⟩
    rw [hL] at hv
    exact eraseP_key_not_mem Variable.vid L y (by rw [hLv]; exact hvids) v hv
  · rw [findVar_eliminateCore_input f oid x y yv hxy, hxv]
    rfl
  · intro c' hc'
    rw [cnxs_eliminateCore] at hc'
    rcases List.mem_map.mp hc' with ⟨c, hc, rfl⟩
    exact not_mem_cnxReplaceLink c y x (hcnx c hc) hxy

/-- C5 witness: eliminating the identity operation of `exElim`. -/
theorem c5_eliminate_witness :
    (∀ v ∈ (eliminate exElim 5).vars, v.vid ≠ 1) ∧
    (∀ c' ∈ (eliminate exElim 5).cnxs, 1 ∉ c'.links) := by
  have h := c5_eliminate exElim 5 0 1
    { oid := 5, name := strBytes "e", type := strBytes "Identity",
      inputs := [0], outputs := [1], attrs := [], task := 0, func := none }
    { vid := 0, name := strBytes "x", aliases := [], type := 1, shape := [2],
      data := none, size := 0, isIn := true, isOut := false, ref := false,
      producer := none, consumers := [5] }
    { vid := 1, name := strBytes "y", aliases := [strBytes "y2"], type := 1,
      shape := [2], data := none, size := 0, isIn := false, isOut := true,
      ref := false, producer := some 5, consumers := [6] }
    rfl rfl rfl (by decide) rfl rfl (by decide) (by decide)
    (by decide) (fun h1 h2 => rfl) (fun h1 h2 => rfl)
  exact ⟨h.2.2.1, h.2.2.2.2.2⟩

/-!
Claim C10 (Flow::Var resolves aliases).
-/

/-- C10: Flow::Var(name) returns the first variable (in arena order)
whose name or alias list matches, and null only when nothing matches;
consequently a variable absorbed by Eliminate — whose name became an
alias of the surviving input — is still retrievable under its old
name. -/
theorem c10_var_lookup (f : Flow) (name : Str) :
    (Flow.Var f name = none →
      ∀ v ∈ f.vars, ¬(v.name = name ∨ name ∈ v.aliases)) ∧
    (∀ v, Flow.Var f name = some v →
      v ∈ f.vars ∧ (v.name = name ∨ name ∈ v.aliases)) ∧
    (∀ l1 w l2, f.vars = l1 ++ w :: l2 → (w.name = name ∨ name ∈ w.aliases) →
      (∀ u ∈ l1, ¬(u.name = name ∨ name ∈ u.aliases)) →
      Flow.Var f name = some w) ∧
    (∀ oid op x y xv yv, f.findOp oid = some op → op.inputs = [x] →
      op.outputs = [y] → f.findVar x = some xv → f.findVar y = some yv →
      x ≠ y → (Flow.Var (eliminate f oid) yv.name).isSome = true) := by
  refine ⟨?_, ?_, ?_, ?_⟩
  · intro hn v hv
    have := List.find?_eq_none.mp hn v hv
    simpa using this
  · intro v hv
    exact ⟨List.mem_of_find?_eq_some hv, by simpa using List.find?_some hv⟩
  · intro l1 w l2 hsplit hw hl1
    unfold Flow.Var
    rw [hsplit, List.find?_append]
    have h1 : l1.find? (fun v => decide (v.name = name ∨ name ∈ v.aliases)) = none := by
      rw [List.find?_eq_none]
      intro u hu
      simpa using hl1 u hu
    rw [h1, List.find?_cons_of_pos _ (by simpa using hw)]
    rfl
  · intro oid op x y xv yv hop hin hout hxv hyv hxy
    rw [eliminate_eq_core f oid x y op yv hop hin hout hyv]
    have hfv := findVar_eliminateCore_input f oid x y yv hxy
    rw [hxv] at hfv
    have hmem := List.mem_of_find?_eq_some hfv
    have halias : yv.name ∈ addAliasList xv.aliases (yv.name :: yv.aliases) :=
      mem_addAliasList _ _ _ (List.mem_cons_self yv.name yv.aliases)
    unfold Flow.Var
    rw [List.find?_isSome]
    exact ⟨_, hmem, by
      simp only [decide_eq_true_eq]
      exact Or.inr halias⟩

/-- C10 witness: after eliminating the identity operation of `exElim`,
the absorbed variable's old name "y" still resolves. -/
theorem c10_var_lookup_witness :
    (Flow.Var (eliminate exElim 5) (strBytes "y")).isSome = true := by
  exact (c10_var_lookup exElim (strBytes "y")).2.2.2 5
    { oid := 5, name := strBytes "e", type := strBytes "Identity",
      inputs := [0], outputs := [1], attrs := [], task := 0, func := none }
    0 1
    { vid := 0, name := strBytes "x", aliases := [], type := 1, shape := [2],
      data := none, size := 0, isIn := true, isOut := false, ref := false,
      producer := none, consumers := [5] }
    { vid := 1, name := strBytes "y", aliases := [strBytes "y2"], type := 1,
      shape := [2], data := none, size := 0, isIn := false, isOut := true,
      ref := false, producer := some 5, consumers := [6] }
    rfl rfl rfl rfl rfl (by decide)

/-!
Claim C8 (Flow::InferTypes).
-/

theorem inferSteps_length (typers : List TyperFn) (f : Flow)
    (l : List Operation) : (inferSteps typers f l).2.length = l.length := by
  induction l generalizing f with
  | nil => rfl
  | cons o rest ih =>
      unfold inferSteps
      simp [ih]

/-- C8: InferTypes visits every operation; an operation with an
unresolved input is skipped with nothing modified; the returned flag is
true exactly when no operation was skipped and none had outputs still
unresolved after the typers (tried in reverse registration order) ran;
it never aborts (the model is a total function). -/
theorem c8_infer_types (typers : List TyperFn) (f : Flow) :
    ((inferSteps typers f f.ops).2.length = f.ops.length) ∧
    ((inferTypes typers f).2 = true ↔
      ∀ p ∈ (inferSteps typers f f.ops).2, p = (false, false)) ∧
    (∀ g oid, (inferStep typers g oid).2.1 = true →
      (inferStep typers g oid).1 = g) ∧
    (∀ g oid op, g.findOp oid = some op →
      ((inferStep typers g oid).2.1 = true ↔
        op.inputs.any (varUnresolved g) = true)) ∧
    (∀ g oid op, g.findOp oid = some op →
      op.inputs.any (varUnresolved g) = false →
      ((inferStep typers g oid).2.2 = true ↔
        op.outputs.any (varUnresolved (inferStep typers g oid).1) = true)) := by
  refine ⟨inferSteps_length typers f f.ops, ?_, ?_, ?_, ?_⟩
  · unfold inferTypes
    simp only [Bool.not_eq_true', Bool.or_eq_false_iff, decide_eq_false_iff_not,
      not_lt, Nat.le_zero]
    constructor
    · intro h p hp
      have h1 := List.countP_eq_zero.mp h.1 p hp
      have h2 := List.countP_eq_zero.mp h.2 p hp
      cases p with
      | mk a b =>
          simp only at h1 h2
          simp [Bool.not_eq_true] at h1 h2
          rw [h1, h2]
    · intro h
      constructor
      · rw [List.countP_eq_zero]
        intro p hp
        rw [h p hp]
        simp
      · rw [List.countP_eq_zero]
        intro p hp
        rw [h p hp]
        simp
  · intro g oid
    unfold inferStep
    cases hop : g.findOp oid with
    | none =>
        intro h
        cases h
    | some op =>
        by_cases hm : op.inputs.any (varUnresolved g) = true
        · intro _
          simp [hm]
        · by_cases ho : op.outputs.any (varUnresolved g) = true
          · simp [hm, ho]
          · simp [hm, ho]
  · intro g oid op hop
    unfold inferStep
    rw [hop]
    by_cases hm : op.inputs.any (varUnresolved g) = true
    · simp [hm]
    · by_cases ho : op.outputs.any (varUnresolved g) = true
      · simp [hm, ho]
      · simp [hm, ho]
  · intro g oid op hop hin
    unfold inferStep
    rw [hop]
    simp only [hin]
    by_cases ho : op.outputs.any (varUnresolved g) = true
    · simp [ho]
    · simp [ho]

/-- C8 witness: with no registered typers, the operation of `exInfer`
has an unresolved input, so it is skipped, nothing is modified, and
InferTypes returns false. -/
theorem c8_infer_types_witness :
    (inferStep ([] : List TyperFn) exInfer 0).1 = exInfer ∧
    (inferTypes ([] : List TyperFn) exInfer).2 = false := by
  constructor
  · exact (c8_infer_types [] exInfer).2.2.1 exInfer 0 (by decide)
  · have h := (c8_infer_types [] exInfer).2.1
    by_contra hcontra
    rw [Bool.not_eq_false] at hcontra
    have := h.mp hcontra ((inferSteps [] exInfer exInfer.ops).2.headI
      ) (by decide)
    revert this
    decide

/-!
Extraction lemmas for the structural invariant `flowWF`.
-/

theorem wf_parts (f : Flow) (h : flowWF f = true) :
    (f.vars.map (fun v => v.vid)).Nodup ∧
    (f.ops.map (fun o => o.oid)).Nodup ∧
    (∀ o ∈ f.ops, (∀ vid ∈ o.inputs, (f.findVar vid).isSome) ∧
      (∀ vid ∈ o.outputs, (f.findVar vid).isSome) ∧ o.outputs.Nodup) ∧
    (∀ v ∈ f.vars, (∀ c ∈ v.consumers, (f.findOp c).isSome) ∧
      (∀ p, v.producer = some p → (f.findOp p).isSome)) ∧
    (∀ v ∈ f.vars, ∀ o ∈ f.ops, v.consumers.count o.oid = o.inputs.count v.vid) ∧
    (∀ v ∈ f.vars, ∀ o ∈ f.ops, (v.producer = some o.oid ↔ v.vid ∈ o.outputs)) ∧
    (∀ c ∈ f.cnxs, c.links.Nodup) := by
  unfold flowWF at h
  simp only [Bool.and_eq_true, decide_eq_true_eq, List.all_eq_true] at h
  obtain ⟨⟨⟨⟨⟨⟨⟨⟨⟨⟨h1, h2⟩, h3⟩, h4⟩, h5⟩, h6⟩, h7⟩, h8⟩, h9⟩, h10⟩, h11⟩ := h
  refine ⟨h1, h2, ?_, ?_, ?_, ?_, ?_⟩
  · intro o ho
    have := h4 o ho
    simp only [Bool.and_eq_true, List.all_eq_true, decide_eq_true_eq] at this
    exact ⟨fun vid hv => this.1.1 vid hv, fun vid hv => this.1.2 vid hv, this.2⟩
  · intro v hv
    have := h5 v hv
    simp only [Bool.and_eq_true, List.all_eq_true] at this
    refine ⟨fun c hc => this.1 c hc, fun p hp => ?_⟩
    have h2' := this.2
    rw [hp] at h2'
    exact h2'
  · intro v hv o ho
    have := h6 v hv o ho
    simpa using this
  · intro v hv o ho
    have := h7 v hv o ho
    constructor
    · intro hp
      have : (v.producer == some o.oid) = true := by simp [hp]
      rw [this] at *
      have := h7 v hv o ho
      simp [hp] at this
      simpa using this
    · intro hm
      have hc : o.outputs.contains v.vid = true := by
        simpa using hm
      rw [hc] at this
      simpa using this
  · intro c hc
    exact h11 c hc

theorem find?_key_of_mem {α : Type} (key : α → Nat) (l : List α)
    (hnd : (l.map key).Nodup) (a : α) (ha : a ∈ l) :
    l.find? (fun b => decide (key b = key a)) = some a := by
  induction l with
  | nil => cases ha
  | cons b t ih =>
      rw [List.map_cons, List.nodup_cons] at hnd
      rcases List.mem_cons.mp ha with rfl | hat
      · rw [List.find?_cons_of_pos _ (by simp)]
      · by_cases hb : key b = key a
        · exact absurd (hb ▸ List.mem_map_of_mem key hat) hnd.1
        · rw [List.find?_cons_of_neg _ (by simpa using hb)]
          exact ih hnd.2 hat

theorem findOp_of_mem (f : Flow) (hnd : (f.ops.map (fun o => o.oid)).Nodup)
    (o : Operation) (ho : o ∈ f.ops) : f.findOp o.oid = some o := by
  have h := find?_key_of_mem (fun o : Operation => o.oid) f.ops hnd o ho
  exact h

theorem findOp_mem (f : Flow) (oid : Nat) (o : Operation)
    (h : f.findOp oid = some o) : o ∈ f.ops ∧ o.oid = oid :=
  ⟨List.mem_of_find?_eq_some h, by simpa using List.find?_some h⟩

theorem findVar_of_mem (f : Flow) (hnd : (f.vars.map (fun v => v.vid)).Nodup)
    (v : Variable) (hv : v ∈ f.vars) : f.findVar v.vid = some v := by
  have h := find?_key_of_mem (fun v : Variable => v.vid) f.vars hnd v hv
  exact h

theorem findVar_mem (f : Flow) (vid : Nat) (v : Variable)
    (h : f.findVar vid = some v) : v ∈ f.vars ∧ v.vid = vid :=
  ⟨List.mem_of_find?_eq_some h, by simpa using List.find?_some h⟩

theorem findOp_isSome_iff (f : Flow) (oid : Nat) :
    (f.findOp oid).isSome = true ↔ oid ∈ opIds f := by
  unfold Flow.findOp opIds
  rw [List.find?_isSome]
  constructor
  · rintro ⟨o, ho, hp⟩
    have : o.oid = oid := by simpa using hp
    exact this ▸ List.mem_map_of_mem _ ho
  · intro h
    rcases List.mem_map.mp h with ⟨o, ho, rfl⟩
    exact ⟨o, ho, by simp⟩

theorem count_flatMap (l : List Nat) (g : Nat → List Nat) (x : Nat) :
    (l.flatMap g).count x = (l.map (fun a => (g a).count x)).sum := by
  induction l with
  | nil => rfl
  | cons a t ih =>
      simp only [List.flatMap_cons, List.map_cons, List.sum_cons,
        List.count_append, ih]

theorem contains_iff (l : List Nat) (a : Nat) :
    (l.contains a) = decide (a ∈ l) :=
  List.elem_eq_mem a l

theorem countP_cons_key (l : List Nat) (o : Nat) (t : List Nat) (ho : o ∉ t) :
    l.countP (fun a => (o :: t).contains a) =
      l.count o + l.countP (fun a => t.contains a) := by
  induction l with
  | nil => rfl
  | cons a r ih =>
      rw [List.countP_cons, List.countP_cons, List.count_cons]
      by_cases ha : a = o
      · subst ha
        have h1 : ((a :: t).contains a) = true := by simp
        have h2 : (t.contains a) = false := by simpa using ho
        rw [h1, h2]
        simp only [if_true, Bool.false_eq_true, if_false, beq_self_eq_true]
        omega
      · have hoa : (o == a) = false := by
          simp only [beq_eq_false_iff_ne, ne_eq]
          exact fun h => ha h.symm
        have h1 : ((o :: t).contains a) = (t.contains a) := by
          simp [List.contains_cons, hoa, ha]
        rw [h1]
        have h2 : (a == o) = false := by simpa using ha
        rw [h2]
        simp only [Bool.false_eq_true, if_false]
        omega

theorem countP_mem_eq_sum (l : List Nat) (outs : List Nat)
    (hnd : outs.Nodup) :
    (outs.map (fun o => l.count o)).sum =
      l.countP (fun a => outs.contains a) := by
  induction outs with
  | nil =>
      have h0 : ∀ a ∈ l, ¬ (((([] : List Nat)).contains a) = true) := by
        intro a _
        simp
      rw [show (List.map (fun o => l.count o) ([] : List Nat)).sum = 0 from rfl]
      exact (List.countP_eq_zero.mpr h0).symm
  | cons o t ih =>
      rw [List.nodup_cons] at hnd
      rw [List.map_cons, List.sum_cons, ih hnd.2, countP_cons_key l o t hnd.1]

theorem stream_count (f : Flow) (hwf : flowWF f = true) (m : Operation)
    (hm : m ∈ f.ops) (x : Operation) (hx : x ∈ f.ops) :
    (m.outputs.flatMap (consumersOf f)).count x.oid =
      x.inputs.countP (fun vid => decide (producerOf f vid = some m.oid)) := by
  obtain ⟨hvnd, hond, hops, hvars, hcnt, hprod, _⟩ := wf_parts f hwf
  rw [count_flatMap]
  have hpt : ∀ vid ∈ m.outputs,
      (fun a => (consumersOf f a).count x.oid) vid =
      (fun a => x.inputs.count a) vid := by
    intro vid hvid
    have hsome := (hops m hm).2.1 vid hvid
    rcases Option.isSome_iff_exists.mp hsome with ⟨v, hv⟩
    show (consumersOf f vid).count x.oid = x.inputs.count vid
    unfold consumersOf
    rw [hv]
    have hvmem := (findVar_mem f vid v hv).1
    have hvvid := (findVar_mem f vid v hv).2
    rw [← hvvid]
    exact hcnt v hvmem x hx
  rw [List.map_congr_left hpt,
      countP_mem_eq_sum x.inputs m.outputs (hops m hm).2.2]
  apply List.countP_congr
  intro vid hvid
  have hsome := (hops x hx).1 vid hvid
  rcases Option.isSome_iff_exists.mp hsome with ⟨v, hv⟩
  have hvmem := (findVar_mem f vid v hv).1
  have hvvid := (findVar_mem f vid v hv).2
  have hpiff := hprod v hvmem m hm
  rw [hvvid] at hpiff
  have hpo : producerOf f vid = v.producer := by
    unfold producerOf
    rw [hv]
  constructor
  · intro hc
    have : vid ∈ m.outputs := by simpa using hc
    simp only [decide_eq_true_eq]
    rw [hpo]
    exact hpiff.mpr this
  · intro hd
    have : producerOf f vid = some m.oid := by simpa using hd
    rw [hpo] at this
    simpa using hpiff.mp this

theorem countMissing_append (f : Flow) (emitted : List Nat) (moid : Nat)
    (hm : moid ∉ emitted) (x : Nat) :
    countMissing f (emitted ++ [moid]) x =
      countMissing f emitted x -
        (inputsOf f x).countP (fun vid => decide (producerOf f vid = some moid)) ∧
    (inputsOf f x).countP (fun vid => decide (producerOf f vid = some moid)) ≤
      countMissing f emitted x := by
  unfold countMissing
  rw [← List.countP_eq_length_filter, ← List.countP_eq_length_filter]
  induction inputsOf f x with
  | nil => exact ⟨rfl, Nat.le_refl 0⟩
  | cons vid rest ih =>
      obtain ⟨ih1, ih2⟩ := ih
      rw [List.countP_cons, List.countP_cons, List.countP_cons]
      cases hp : producerOf f vid with
      | none =>
          simp only [hp]
          simp only [decide_eq_true_eq, reduceCtorEq, if_false,
            Bool.false_eq_true, Nat.add_zero]
          exact ⟨by omega, by omega⟩
      | some p =>
          simp only [hp]
          by_cases hpm : p = moid
          · subst hpm
            have hA : (((emitted ++ [p] : List Nat)).contains p) = true := by
              rw [contains_iff]
              simp
            have hB : ((emitted).contains p) = false := by
              rw [contains_iff]
              simpa using hm
            have hC : (decide ((some p : Option Nat) = some p)) = true := by
              simp
            simp only [hA, hB, hC, Bool.not_true, Bool.not_false,
              Bool.false_eq_true, if_false, if_true, Nat.add_zero,
              Option.some.injEq, decide_True, decide_eq_true_eq]
            exact ⟨by omega, by omega⟩
          · have h1 : (((emitted ++ [moid] : List Nat)).contains p)
                = (emitted.contains p) := by
              rw [contains_iff, contains_iff]
              simp [List.mem_append, hpm]
            have h3 : (decide ((some p : Option Nat) = some moid)) = false := by
              simp [hpm]
            simp only [h1, h3, Bool.false_eq_true, if_false, Nat.add_zero]
            by_cases hc : p ∈ emitted
            · have hcc : (emitted.contains p) = true := by
                rw [contains_iff]
                simpa using hc
              simp only [hcc, Bool.not_true, Bool.false_eq_true, if_false,
                Nat.add_zero]
              exact ⟨ih1, by omega⟩
            · have hcc : (emitted.contains p) = false := by
                rw [contains_iff]
                simpa using hc
              simp only [hcc, Bool.not_false, if_true]
              exact ⟨by omega, by omega⟩

/-!
Lemmas about the readiness-propagation step of Sort.
-/

theorem consumeStep_missing (st : SortSt) (c x : Nat) :
    (consumeStep st c).missing x =
      if x = c then st.missing c - 1 else st.missing x := by
  unfold consumeStep
  by_cases h : st.missing c - 1 = 0 <;> simp [h]

theorem consumeStep_ready (st : SortSt) (c : Nat) :
    (consumeStep st c).ready = st.ready ++
      (if st.missing c - 1 = 0 then [(c, st.ctr)] else []) := by
  unfold consumeStep
  by_cases h : st.missing c - 1 = 0 <;> simp [h]

theorem consumeStep_emitOps (st : SortSt) (c : Nat) :
    (consumeStep st c).emitOps = st.emitOps := by
  unfold consumeStep
  by_cases h : st.missing c - 1 = 0 <;> simp [h]

theorem consumeStep_emitVars (st : SortSt) (c : Nat) :
    (consumeStep st c).emitVars = st.emitVars := by
  unfold consumeStep
  by_cases h : st.missing c - 1 = 0 <;> simp [h]

theorem processConsumers_emitOps (cs : List Nat) (st : SortSt) :
    (processConsumers cs st).emitOps = st.emitOps := by
  induction cs generalizing st with
  | nil => rfl
  | cons c rest ih =>
      show (processConsumers rest (consumeStep st c)).emitOps = _
      rw [ih, consumeStep_emitOps]

theorem processConsumers_emitVars (cs : List Nat) (st : SortSt) :
    (processConsumers cs st).emitVars = st.emitVars := by
  induction cs generalizing st with
  | nil => rfl
  | cons c rest ih =>
      show (processConsumers rest (consumeStep st c)).emitVars = _
      rw [ih, consumeStep_emitVars]

theorem processConsumers_missing (cs : List Nat) (st : SortSt) (x : Nat) :
    (processConsumers cs st).missing x = st.missing x - cs.count x := by
  induction cs generalizing st with
  | nil => rfl
  | cons c rest ih =>
      show (processConsumers rest (consumeStep st c)).missing x = _
      rw [ih, consumeStep_missing, List.count_cons]
      by_cases hx : x = c
      · subst hx
        simp only [if_pos rfl, beq_self_eq_true, if_true]
        omega
      · have hbx : (c == x) = false := by simpa using Ne.symm hx
        rw [if_neg hx, hbx]
        simp only [Bool.false_eq_true, if_false, Nat.add_zero]

theorem processConsumers_ready (cs : List Nat) (st : SortSt)
    (hle : ∀ x, cs.count x ≤ st.missing x) :
    ∃ pushes : List (Nat × Nat),
      (processConsumers cs st).ready = st.ready ++ pushes ∧
      (pushes.map Prod.fst).Nodup ∧
      ∀ x, (x ∈ pushes.map Prod.fst ↔
        (x ∈ cs ∧ st.missing x = cs.count x ∧ 0 < st.missing x)) := by
  induction cs generalizing st with
  | nil =>
      refine ⟨[], by simp [processConsumers], by simp, ?_⟩
      intro x
      simp
  | cons c rest ih =>
      have hc1 : 1 ≤ st.missing c := by
        have := hle c
        rw [List.count_cons] at this
        simp only [beq_self_eq_true, if_true] at this
        omega
      have hcount_c := hle c
      rw [List.count_cons] at hcount_c
      simp only [beq_self_eq_true, if_true] at hcount_c
      show ∃ pushes, (processConsumers rest (consumeStep st c)).ready = _ ∧ _
      by_cases hz : st.missing c - 1 = 0
      · -- the decrement reaches zero: c is pushed now
        have hm1 : st.missing c = 1 := by omega
        have hrc : rest.count c = 0 := by omega
        have hle' : ∀ x, rest.count x ≤ (consumeStep st c).missing x := by
          intro x
          rw [consumeStep_missing]
          by_cases hx : x = c
          · subst hx
            rw [if_pos rfl]
            omega
          · rw [if_neg hx]
            have := hle x
            rw [List.count_cons] at this
            have hbx : (c == x) = false := by simpa using Ne.symm hx
            rw [hbx] at this
            simp only [Bool.false_eq_true, if_false, Nat.add_zero] at this
            exact this
        obtain ⟨pr, hpr, hnd, hchar⟩ := ih (consumeStep st c) hle'
        refine ⟨(c, st.ctr) :: pr, ?_, ?_, ?_⟩
        · rw [hpr, consumeStep_ready, if_pos hz]
          simp
        · rw [List.map_cons, List.nodup_cons]
          refine ⟨?_, hnd⟩
          intro hcp
          have hcc := (hchar c).mp hcp
          rw [consumeStep_missing, if_pos rfl, hz] at hcc
          exact absurd hcc.2.2 (by omega)
        · intro x
          rw [List.map_cons, List.mem_cons]
          constructor
          · rintro (rfl | hx)
            · refine ⟨List.mem_cons_self _ _, ?_, by omega⟩
              rw [List.count_cons]
              simp only [beq_self_eq_true, if_true]
              omega
            · have hcc := (hchar x).mp hx
              have hxc : x ≠ c := by
                intro hxx
                subst hxx
                rw [consumeStep_missing, if_pos rfl, hz] at hcc
                exact absurd hcc.2.2 (by omega)
              rw [consumeStep_missing, if_neg hxc] at hcc
              refine ⟨List.mem_cons_of_mem _ hcc.1, ?_, hcc.2.2⟩
              rw [List.count_cons]
              have hbx : (c == x) = false := by simpa using Ne.symm hxc
              rw [hbx]
              simp only [Bool.false_eq_true, if_false, Nat.add_zero]
              exact hcc.2.1
          · rintro ⟨hmem, hcnt, hpos⟩
            by_cases hx : x = c
            · exact Or.inl hx
            · right
              apply (hchar x).mpr
              rcases List.mem_cons.mp hmem with rfl | hmr
              · exact absurd rfl hx
              · rw [consumeStep_missing, if_neg hx]
                rw [List.count_cons] at hcnt
                have hbx : (c == x) = false := by simpa using Ne.symm hx
                rw [hbx] at hcnt
                simp only [Bool.false_eq_true, if_false, Nat.add_zero] at hcnt
                exact ⟨hmr, hcnt, hpos⟩
      · -- the counter stays positive: no push for c here
        have hle' : ∀ x, rest.count x ≤ (consumeStep st c).missing x := by
          intro x
          rw [consumeStep_missing]
          by_cases hx : x = c
          · subst hx
            rw [if_pos rfl]
            omega
          · rw [if_neg hx]
            have := hle x
            rw [List.count_cons] at this
            have hbx : (c == x) = false := by simpa using Ne.symm hx
            rw [hbx] at this
            simp only [Bool.false_eq_true, if_false, Nat.add_zero] at this
            exact this
        obtain ⟨pr, hpr, hnd, hchar⟩ := ih (consumeStep st c) hle'
        refine ⟨pr, ?_, hnd, ?_⟩
        · rw [hpr, consumeStep_ready, if_neg hz]
          simp
        · intro x
          rw [hchar x]
          by_cases hx : x = c
          · subst hx
            rw [consumeStep_missing, if_pos rfl]
            constructor
            · rintro ⟨hmr, hcnt, hpos⟩
              refine ⟨List.mem_cons_self _ _, ?_, by omega⟩
              rw [List.count_cons]
              simp only [beq_self_eq_true, if_true]
              omega
            · rintro ⟨hmem, hcnt, hpos⟩
              rw [List.count_cons] at hcnt
              simp only [beq_self_eq_true, if_true] at hcnt
              have hposr : 0 < rest.count x := by omega
              have hmr : x ∈ rest := List.count_pos_iff.mp hposr
              exact ⟨hmr, by omega, by omega⟩
          · rw [consumeStep_missing, if_neg hx]
            rw [List.count_cons]
            have hbx : (c == x) = false := by simpa using Ne.symm hx
            rw [hbx]
            simp only [Bool.false_eq_true, if_false, Nat.add_zero]
            constructor
            · rintro ⟨hmr, hcnt, hpos⟩
              exact ⟨List.mem_cons_of_mem _ hmr, hcnt, hpos⟩
            · rintro ⟨hmem, hcnt, hpos⟩
              rcases List.mem_cons.mp hmem with rfl | hmr
              · exact absurd rfl hx
              · exact ⟨hmr, hcnt, hpos⟩

theorem consumeStep_setEmitVars (st : SortSt) (E : List Nat) (c : Nat) :
    consumeStep { st with emitVars := E } c =
      { consumeStep st c with emitVars := E } := by
  unfold consumeStep
  by_cases h : st.missing c - 1 = 0 <;> simp [h]

theorem processConsumers_setEmitVars (cs : List Nat) (st : SortSt)
    (E : List Nat) :
    processConsumers cs { st with emitVars := E } =
      { processConsumers cs st with emitVars := E } := by
  induction cs generalizing st with
  | nil => rfl
  | cons c rest ih =>
      show processConsumers rest (consumeStep { st with emitVars := E } c) = _
      rw [consumeStep_setEmitVars, ih]
      rfl

theorem processConsumers_append (a b : List Nat) (st : SortSt) :
    processConsumers (a ++ b) st = processConsumers b (processConsumers a st) := by
  unfold processConsumers
  rw [List.foldl_append]

theorem foldl_emitOutput_spec (f : Flow) (outs : List Nat) (st : SortSt) :
    outs.foldl (emitOutput f) st =
      { processConsumers (outs.flatMap (consumersOf f)) st with
        emitVars := st.emitVars ++ outs } := by
  induction outs generalizing st with
  | nil => simp [processConsumers]
  | cons vid rest ih =>
      show rest.foldl (emitOutput f) (emitOutput f st vid) = _
      have hstep : emitOutput f st vid =
          { processConsumers (consumersOf f vid) st with
            emitVars := st.emitVars ++ [vid] } := by
        unfold emitOutput
        rw [processConsumers_setEmitVars]
      rw [hstep, ih, processConsumers_setEmitVars, List.flatMap_cons,
        processConsumers_append]
      simp

theorem popMin_none_iff (pri : Nat → Nat) (ready : List (Nat × Nat)) :
    popMin pri ready = none ↔ ready = [] := by
  cases ready <;> simp [popMin]

theorem foldl_choice_mem {α : Type} (g : α → α → α)
    (hg : ∀ b y, g b y = b ∨ g b y = y) (x : α) (l : List α) :
    l.foldl g x ∈ x :: l := by
  induction l generalizing x with
  | nil => simp
  | cons y ys ih =>
      show List.foldl g (g x y) ys ∈ x :: y :: ys
      have hin := ih (g x y)
      rcases hg x y with h | h <;> rw [h] at hin ⊢ <;>
        rcases List.mem_cons.mp hin with h2 | h2
      · exact List.mem_cons.mpr (Or.inl h2)
      · exact List.mem_cons.mpr (Or.inr (List.mem_cons_of_mem _ h2))
      · rw [h2]
        exact List.mem_cons.mpr (Or.inr (List.mem_cons_self _ _))
      · exact List.mem_cons.mpr (Or.inr (List.mem_cons_of_mem _ h2))

theorem popMin_spec (pri : Nat → Nat) (ready : List (Nat × Nat))
    (m : Nat × Nat) (rest : List (Nat × Nat))
    (h : popMin pri ready = some (m, rest)) :
    m ∈ ready ∧ rest = ready.erase m := by
  cases ready with
  | nil => cases h
  | cons x xs =>
      unfold popMin at h
      injection h with h1
      have hpair := Prod.mk.injEq _ _ _ _ ▸ h1
      have hm : (xs.foldl (fun b y =>
          if lexLt (pri y.1) y.2 (pri b.1) b.2 then y else b) x) = m := by
        have := congrArg Prod.fst h1
        simpa using this
      have hr : (x :: xs).erase (xs.foldl (fun b y =>
          if lexLt (pri y.1) y.2 (pri b.1) b.2 then y else b) x) = rest := by
        have := congrArg Prod.snd h1
        simpa using this
      constructor
      · rw [← hm]
        exact foldl_choice_mem _ (fun b y => by
          by_cases hc : lexLt (pri y.1) y.2 (pri b.1) b.2 = true
          · exact Or.inr (by simp [hc])
          · exact Or.inl (by simp [hc])) x xs
      · rw [← hr, hm]

theorem countMissing_zero_iff (f : Flow) (E : List Nat) (x : Nat) :
    countMissing f E x = 0 ↔
      ∀ vid ∈ inputsOf f x, ∀ p, producerOf f vid = some p → p ∈ E := by
  unfold countMissing
  rw [List.length_eq_zero, List.filter_eq_nil_iff]
  constructor
  · intro h vid hvid p hp
    have hv := h vid hvid
    rw [hp] at hv
    by_contra hpe
    apply hv
    show (!(E.contains p)) = true
    rw [contains_iff]
    simpa using hpe
  · intro h vid hvid
    cases hp : producerOf f vid with
    | none => simp
    | some p =>
        have hpe := h vid hvid p hp
        show ¬(!(E.contains p)) = true
        rw [contains_iff]
        simpa using hpe

theorem producer_mem_opIds (f : Flow) (hwf : flowWF f = true) (vid p : Nat)
    (hp : producerOf f vid = some p) : p ∈ opIds f := by
  obtain ⟨_, _, _, hvars, _, _, _⟩ := wf_parts f hwf
  unfold producerOf at hp
  cases hv : f.findVar vid with
  | none => rw [hv] at hp; cases hp
  | some v =>
      rw [hv] at hp
      have hvm := (findVar_mem f vid v hv).1
      exact (findOp_isSome_iff f p).mp ((hvars v hvm).2 p hp)

theorem consumers_mem_opIds (f : Flow) (hwf : flowWF f = true) (vid x : Nat)
    (hx : x ∈ consumersOf f vid) : x ∈ opIds f := by
  obtain ⟨_, _, _, hvars, _, _, _⟩ := wf_parts f hwf
  unfold consumersOf at hx
  cases hv : f.findVar vid with
  | none => rw [hv] at hx; cases hx
  | some v =>
      rw [hv] at hx
      have hvm := (findVar_mem f vid v hv).1
      exact (findOp_isSome_iff f x).mp ((hvars v hvm).1 x hx)

theorem stream_mem_opIds (f : Flow) (hwf : flowWF f = true) (moid x : Nat)
    (hx : x ∈ (outputsOf f moid).flatMap (consumersOf f)) : x ∈ opIds f := by
  rcases List.mem_flatMap.mp hx with ⟨vid, _, hxc⟩
  exact consumers_mem_opIds f hwf vid x hxc

theorem stream_count_oid (f : Flow) (hwf : flowWF f = true) (moid xoid : Nat)
    (hm : moid ∈ opIds f) (hx : xoid ∈ opIds f) :
    ((outputsOf f moid).flatMap (consumersOf f)).count xoid =
      (inputsOf f xoid).countP
        (fun vid => decide (producerOf f vid = some moid)) := by
  rcases Option.isSome_iff_exists.mp ((findOp_isSome_iff f moid).mpr hm)
    with ⟨mo, hmo⟩
  rcases Option.isSome_iff_exists.mp ((findOp_isSome_iff f xoid).mpr hx)
    with ⟨xo, hxo⟩
  have hmm := findOp_mem f moid mo hmo
  have hxm := findOp_mem f xoid xo hxo
  have houts : outputsOf f moid = mo.outputs := by
    unfold outputsOf
    rw [hmo]
  have hins : inputsOf f xoid = xo.inputs := by
    unfold inputsOf
    rw [hxo]
  rw [houts, hins]
  have hsc := stream_count f hwf mo hmm.1 xo hxm.1
  rw [hmm.2, hxm.2] at hsc
  exact hsc

theorem emit_missing_zero (f : Flow) (st : SortSt) (hinv : SortInv f st)
    (oid : Nat) (ho : oid ∈ st.emitOps) :
    countMissing f st.emitOps oid = 0 := by
  apply (countMissing_zero_iff f st.emitOps oid).mpr
  intro vid hvid p hp
  exact (hinv.emit_producers oid ho vid hvid p hp).1

theorem ready_missing_zero (f : Flow) (st : SortSt) (hinv : SortInv f st)
    (oid : Nat) (ho : oid ∈ st.ready.map Prod.fst) :
    countMissing f st.emitOps oid = 0 := by
  rcases List.mem_map.mp ho with ⟨pr, hpr, rfl⟩
  apply (countMissing_zero_iff f st.emitOps pr.1).mpr
  intro vid hvid p hp
  exact hinv.ready_producers pr hpr vid hvid p hp

theorem rankOk_lt (f : Flow) (rank : Nat → Nat) (hrk : rankOk f rank = true)
    (oid : Nat) (hoid : oid ∈ opIds f) (vid : Nat) (hvid : vid ∈ inputsOf f oid)
    (p : Nat) (hp : producerOf f vid = some p) : rank p < rank oid := by
  rcases Option.isSome_iff_exists.mp ((findOp_isSome_iff f oid).mpr hoid)
    with ⟨o, ho⟩
  have hom := findOp_mem f oid o ho
  have hins : inputsOf f oid = o.inputs := by
    unfold inputsOf
    rw [ho]
  rw [hins] at hvid
  unfold rankOk at hrk
  rw [List.all_eq_true] at hrk
  have h1 := hrk o hom.1
  rw [List.all_eq_true] at h1
  have h2 := h1 vid hvid
  rw [hp] at h2
  rw [← hom.2]
  simpa using h2

theorem perm_cons_erase_pair (a : Nat × Nat) (l : List (Nat × Nat))
    (h : a ∈ l) : l.Perm (a :: l.erase a) := by
  induction l with
  | nil => cases h
  | cons b t ih =>
      rw [List.erase_cons]
      by_cases hb : b = a
      · subst hb
        simp
      · have hba : (b == a) = false := by simpa using hb
        rw [hba]
        simp only [Bool.false_eq_true, if_false]
        have hat : a ∈ t := by
          rcases List.mem_cons.mp h with h1 | h1
          · exact absurd h1.symm hb
          · exact h1
        exact ((ih hat).cons b).trans (List.Perm.swap a b _)

theorem sortStep_inv (f : Flow) (pri : Nat → Nat) (hwf : flowWF f = true)
    (st : SortSt) (hinv : SortInv f st) (m : Nat × Nat)
    (rest : List (Nat × Nat)) (hpop : popMin pri st.ready = some (m, rest)) :
    SortInv f ((outputsOf f m.1).foldl (emitOutput f)
        { st with ready := rest, emitOps := st.emitOps ++ [m.1] }) ∧
      ((outputsOf f m.1).foldl (emitOutput f)
        { st with ready := rest, emitOps := st.emitOps ++ [m.1] }).emitOps =
        st.emitOps ++ [m.1] := by
  obtain ⟨hmem, hrest⟩ := popMin_spec pri st.ready m rest hpop
  have hperm : st.ready.Perm (m :: rest) := by
    rw [hrest]
    exact perm_cons_erase_pair m st.ready hmem
  have hmfst : m.1 ∈ st.ready.map Prod.fst := List.mem_map_of_mem _ hmem
  have hmop : m.1 ∈ opIds f := hinv.ready_sub _ hmfst
  have hmnotA : m.1 ∉ st.emitOps := by
    intro hc
    exact List.disjoint_of_nodup_append hinv.nodup hc hmfst
  set cs := (outputsOf f m.1).flatMap (consumersOf f) with hcsdef
  have hcs_count : ∀ x ∈ opIds f, cs.count x =
      (inputsOf f x).countP
        (fun vid => decide (producerOf f vid = some m.1)) :=
    fun x hx => stream_count_oid f hwf m.1 x hmop hx
  have hcs_mem : ∀ x ∈ cs, x ∈ opIds f :=
    fun x hx => stream_mem_opIds f hwf m.1 x hx
  have hle : ∀ x, cs.count x ≤ st.missing x := by
    intro x
    by_cases hx : x ∈ opIds f
    · rw [hcs_count x hx, hinv.missing_eq x hx]
      exact (countMissing_append f st.emitOps m.1 hmnotA x).2
    · rw [List.count_eq_zero.mpr (fun hc => hx (hcs_mem x hc))]
      omega
  obtain ⟨pushes, hpready, hpnd, hpchar⟩ :=
    processConsumers_ready cs
      { st with ready := rest, emitOps := st.emitOps ++ [m.1] } hle
  set st' := (outputsOf f m.1).foldl (emitOutput f)
    { st with ready := rest, emitOps := st.emitOps ++ [m.1] } with hst'
  have hstF : st' = { processConsumers cs
      { st with ready := rest, emitOps := st.emitOps ++ [m.1] } with
      emitVars := st.emitVars ++ outputsOf f m.1 } := by
    rw [hst']
    exact foldl_emitOutput_spec f (outputsOf f m.1) _
  have hops2 : st'.emitOps = st.emitOps ++ [m.1] := by
    rw [hstF]
    show (processConsumers cs _).emitOps = _
    rw [processConsumers_emitOps]
  have hmiss2 : ∀ x, st'.missing x = st.missing x - cs.count x := by
    intro x
    rw [hstF]
    show (processConsumers cs _).missing x = _
    rw [processConsumers_missing]
  have hready2 : st'.ready = rest ++ pushes := by
    rw [hstF]
    show (processConsumers cs _).ready = _
    rw [hpready]
  have hvars2 : st'.emitVars = st.emitVars ++ outputsOf f m.1 := by
    rw [hstF]
  have hzero_ready : ∀ x ∈ st.ready.map Prod.fst, x ∈ opIds f →
      st.missing x = 0 := by
    intro x hx hxid
    rw [hinv.missing_eq x hxid]
    exact ready_missing_zero f st hinv x hx
  have hzero_emit : ∀ x ∈ st.emitOps, x ∈ opIds f → st.missing x = 0 := by
    intro x hx hxid
    rw [hinv.missing_eq x hxid]
    exact emit_missing_zero f st hinv x hx
  have hrest_ready : ∀ x ∈ rest.map Prod.fst, x ∈ st.ready.map Prod.fst := by
    intro x hx
    rcases List.mem_map.mp hx with ⟨pr, hpr, rfl⟩
    rw [hrest] at hpr
    exact List.mem_map_of_mem _ (List.mem_of_mem_erase hpr)
  have hpush_not : ∀ x ∈ pushes.map Prod.fst,
      x ∈ opIds f ∧ x ∉ st.emitOps ∧ x ∉ st.ready.map Prod.fst := by
    intro x hx
    obtain ⟨hxcs, hxeq, hxpos⟩ := (hpchar x).mp hx
    have hxeq2 : st.missing x = cs.count x := hxeq
    have hxpos2 : 0 < st.missing x := hxpos
    have hxid : x ∈ opIds f := hcs_mem x hxcs
    refine ⟨hxid, ?_, ?_⟩
    · intro hc
      have := hzero_emit x hc hxid
      omega
    · intro hc
      have := hzero_ready x hc hxid
      omega
  refine ⟨⟨?_, ?_, ?_, ?_, ?_, ?_, ?_, ?_⟩, hops2⟩
  · -- missing counters track the enlarged emitted set
    intro oid hoid
    rw [hmiss2 oid, hops2, hinv.missing_eq oid hoid, hcs_count oid hoid]
    exact ((countMissing_append f st.emitOps m.1 hmnotA oid).1).symm
  · -- no duplicates among emitted and ready operations
    rw [hops2, hready2, List.map_append]
    have hnd1 : (st.emitOps ++ (m.1 :: rest.map Prod.fst)).Nodup :=
      (List.Perm.append_left _ (hperm.map Prod.fst)).nodup hinv.nodup
    rw [← List.append_assoc]
    apply List.nodup_append.mpr
    refine ⟨?_, hpnd, ?_⟩
    · rw [List.append_assoc]
      exact hnd1
    · intro x hx hxp
      obtain ⟨hxid, hxA, hxR⟩ := hpush_not x hxp
      rcases List.mem_append.mp hx with hx1 | hx2
      · rcases List.mem_append.mp hx1 with hxA2 | hxm
        · exact hxA hxA2
        · have hxe : x = m.1 := by simpa using hxm
          rw [hxe] at hxR
          exact hxR hmfst
      · exact hxR (hrest_ready x hx2)
  · -- emitted operations are operations of the flow
    intro oid ho
    rw [hops2] at ho
    rcases List.mem_append.mp ho with h1 | h2
    · exact hinv.emit_sub oid h1
    · have : oid = m.1 := by simpa using h2
      rw [this]
      exact hmop
  · -- ready operations are operations of the flow
    intro oid ho
    rw [hready2, List.map_append] at ho
    rcases List.mem_append.mp ho with h1 | h2
    · exact hinv.ready_sub oid (hrest_ready oid h1)
    · exact hcs_mem oid ((hpchar oid).mp h2).1
  · -- ready operations have all producers emitted
    intro pr hpr vid hvid p hp
    rw [hready2] at hpr
    rw [hops2]
    rcases List.mem_append.mp hpr with h1 | h2
    · have hprr : pr ∈ st.ready := by
        rw [hrest] at h1
        exact List.mem_of_mem_erase h1
      exact List.mem_append_left _ (hinv.ready_producers pr hprr vid hvid p hp)
    · obtain ⟨hxcs, hxeq, hxpos⟩ := (hpchar pr.1).mp (List.mem_map_of_mem _ h2)
      have hxid := hcs_mem pr.1 hxcs
      have hxeq2 : st.missing pr.1 = cs.count pr.1 := hxeq
      obtain ⟨hca1, hca2⟩ := countMissing_append f st.emitOps m.1 hmnotA pr.1
      have hme := hinv.missing_eq pr.1 hxid
      have hcc := hcs_count pr.1 hxid
      have hcm0 : countMissing f (st.emitOps ++ [m.1]) pr.1 = 0 := by omega
      exact (countMissing_zero_iff f _ pr.1).mp hcm0 vid hvid p hp
  · -- the emitted list stays topologically ordered
    intro oid ho vid hvid p hp
    rw [hops2] at ho ⊢
    rcases List.mem_append.mp ho with h1 | h2
    · obtain ⟨hpA, hlt⟩ := hinv.emit_producers oid h1 vid hvid p hp
      refine ⟨List.mem_append_left _ hpA, ?_⟩
      rw [List.indexOf_append_of_mem hpA, List.indexOf_append_of_mem h1]
      exact hlt
    · have hoe : oid = m.1 := by simpa using h2
      subst hoe
      have hpA := hinv.ready_producers m hmem vid hvid p hp
      refine ⟨List.mem_append_left _ hpA, ?_⟩
      rw [List.indexOf_append_of_mem hpA,
        List.indexOf_append_of_not_mem hmnotA]
      have := List.indexOf_lt_length.mpr hpA
      omega
  · -- every operation with all producers emitted is handled
    intro oid hoid hz
    rw [hops2] at hz ⊢
    rw [hready2, List.map_append]
    by_cases h0 : countMissing f st.emitOps oid = 0
    · rcases hinv.zero_handled oid hoid h0 with hA | hR
      · exact Or.inl (List.mem_append_left _ hA)
      · have hmr : oid ∈ (m :: rest).map Prod.fst :=
          ((hperm.map Prod.fst).mem_iff).mp hR
        rcases List.mem_cons.mp hmr with he | hr
        · refine Or.inl (List.mem_append_right _ ?_)
          rw [he]
          exact List.mem_cons_self _ _
        · exact Or.inr (List.mem_append_left _ hr)
    · obtain ⟨hca1, hca2⟩ := countMissing_append f st.emitOps m.1 hmnotA oid
      have hme := hinv.missing_eq oid hoid
      have hcc := hcs_count oid hoid
      have hcspos : 0 < cs.count oid := by omega
      have hoincs : oid ∈ cs := List.count_pos_iff.mp hcspos
      refine Or.inr (List.mem_append_right _ ((hpchar oid).mpr
        ⟨hoincs, ?_, ?_⟩))
      · show st.missing oid = cs.count oid
        omega
      · show 0 < st.missing oid
        omega
  · -- the emitted variables follow the emitted operations
    rw [hvars2, hops2, hinv.vars_eq]
    simp [List.flatMap_append, List.append_assoc]

theorem sortLoop_inv (f : Flow) (pri : Nat → Nat) (hwf : flowWF f = true)
    (fuel : Nat) : ∀ st : SortSt, SortInv f st →
    SortInv f (sortLoop f pri fuel st) ∧
      ((sortLoop f pri fuel st).ready = [] ∨
        st.emitOps.length + fuel ≤ (sortLoop f pri fuel st).emitOps.length) ∧
      ∃ tail, (sortLoop f pri fuel st).emitOps = st.emitOps ++ tail := by
  induction fuel with
  | zero =>
      intro st hinv
      have h0 : sortLoop f pri 0 st = st := rfl
      rw [h0]
      exact ⟨hinv, Or.inr (by omega), ⟨[], by simp⟩⟩
  | succ fuel ih =>
      intro st hinv
      cases hpop : popMin pri st.ready with
      | none =>
          have hready : st.ready = [] := (popMin_none_iff pri st.ready).mp hpop
          have hstep : sortLoop f pri (fuel + 1) st = st := by
            show (match popMin pri st.ready with
              | none => st
              | some (m, rest) =>
                  sortLoop f pri fuel ((outputsOf f m.1).foldl (emitOutput f)
                    { st with ready := rest,
                              emitOps := st.emitOps ++ [m.1] })) = st
            rw [hpop]
          rw [hstep]
          exact ⟨hinv, Or.inl hready, ⟨[], by simp⟩⟩
      | some pr =>
          obtain ⟨m, rest⟩ := pr
          have hstep : sortLoop f pri (fuel + 1) st =
              sortLoop f pri fuel ((outputsOf f m.1).foldl (emitOutput f)
                { st with ready := rest, emitOps := st.emitOps ++ [m.1] }) := by
            show (match popMin pri st.ready with
              | none => st
              | some (m, rest) =>
                  sortLoop f pri fuel ((outputsOf f m.1).foldl (emitOutput f)
                    { st with ready := rest,
                              emitOps := st.emitOps ++ [m.1] })) = _
            rw [hpop]
          rw [hstep]
          obtain ⟨hinv2, hops2⟩ := sortStep_inv f pri hwf st hinv m rest hpop
          obtain ⟨hI, hII, tail, hIII⟩ := ih _ hinv2
          refine ⟨hI, ?_, ?_⟩
          · rcases hII with h | h
            · exact Or.inl h
            · right
              rw [hops2] at h
              simp only [List.length_append, List.length_singleton] at h
              omega
          · refine ⟨[m.1] ++ tail, ?_⟩
            rw [hIII, hops2, List.append_assoc]

theorem sortInit_inv (f : Flow) (hwf : flowWF f = true) :
    SortInv f (sortInit f) := by
  obtain ⟨hvnd, hond, hops, hvars, hcnt, hprod, _⟩ := wf_parts f hwf
  have hmap : (initReady f).map Prod.fst =
      (f.ops.filter (fun op =>
        op.inputs.all (fun vid => (producerOf f vid).isNone))).map
          (fun o => o.oid) := by
    unfold initReady
    rw [List.map_map]
    have hcomp : (Prod.fst ∘ fun p : Nat × Nat => (p.2, p.1)) =
        (Prod.snd : Nat × Nat → Nat) := rfl
    rw [hcomp, List.enum_map_snd]
  refine ⟨?_, ?_, ?_, ?_, ?_, ?_, ?_, ?_⟩
  · -- the initial missing counters count inputs with a producer
    intro oid _
    show initMissingFn f oid = countMissing f [] oid
    unfold initMissingFn countMissing
    congr 1
    apply List.filter_congr
    intro vid _
    cases hp : producerOf f vid <;> simp [hp]
  · -- the initial ready queue has no duplicates
    show (([] : List Nat) ++ (initReady f).map Prod.fst).Nodup
    rw [List.nil_append, hmap]
    exact hond.sublist ((List.filter_sublist _).map _)
  · intro oid ho
    exact absurd ho (List.not_mem_nil oid)
  · -- initially ready operations are operations of the flow
    intro oid ho
    have ho2 : oid ∈ (initReady f).map Prod.fst := ho
    rw [hmap] at ho2
    rcases List.mem_map.mp ho2 with ⟨o, hof, rfl⟩
    exact List.mem_map_of_mem _ (List.mem_of_mem_filter hof)
  · -- initially ready operations have no produced input
    intro pr hpr vid hvid p hp
    have h1 : pr.1 ∈ (initReady f).map Prod.fst :=
      List.mem_map_of_mem _ hpr
    rw [hmap] at h1
    rcases List.mem_map.mp h1 with ⟨o, hof, hoid⟩
    obtain ⟨hom, hall⟩ := List.mem_filter.mp hof
    have hins : inputsOf f pr.1 = o.inputs := by
      unfold inputsOf
      rw [← hoid, findOp_of_mem f hond o hom]
    rw [hins] at hvid
    rw [List.all_eq_true] at hall
    have := hall vid hvid
    rw [hp] at this
    simp at this
  · intro oid ho
    exact absurd ho (List.not_mem_nil oid)
  · -- an operation with no produced input starts ready
    intro oid hoid hz
    have hz2 : countMissing f [] oid = 0 := hz
    rcases List.mem_map.mp hoid with ⟨o, hom, rfl⟩
    have hins : inputsOf f o.oid = o.inputs := by
      unfold inputsOf
      rw [findOp_of_mem f hond o hom]
    have hall : o.inputs.all (fun vid => (producerOf f vid).isNone) = true := by
      rw [List.all_eq_true]
      intro vid hvid
      cases hp : producerOf f vid with
      | none => simp
      | some p =>
          have := (countMissing_zero_iff f [] o.oid).mp hz2 vid
            (by rw [hins]; exact hvid) p hp
          exact absurd this (List.not_mem_nil p)
    refine Or.inr ?_
    show o.oid ∈ (initReady f).map Prod.fst
    rw [hmap]
    exact List.mem_map_of_mem _ (List.mem_filter.mpr ⟨hom, hall⟩)
  · show noProducerVids f =
      noProducerVids f ++ ([] : List Nat).flatMap (outputsOf f)
    simp

theorem sort_all_emitted (f : Flow) (hwf : flowWF f = true) (rank : Nat → Nat)
    (hrk : rankOk f rank = true) (st : SortSt) (hinv : SortInv f st)
    (hready : st.ready = []) : ∀ oid ∈ opIds f, oid ∈ st.emitOps := by
  have main : ∀ n oid, oid ∈ opIds f → rank oid < n → oid ∈ st.emitOps := by
    intro n
    induction n with
    | zero =>
        intro oid _ h
        omega
    | succ n ih =>
        intro oid hoid hlt
        have hz : countMissing f st.emitOps oid = 0 := by
          apply (countMissing_zero_iff f st.emitOps oid).mpr
          intro vid hvid p hp
          have hpo : p ∈ opIds f := producer_mem_opIds f hwf vid p hp
          have hr := rankOk_lt f rank hrk oid hoid vid hvid p hp
          exact ih p hpo (by omega)
        rcases hinv.zero_handled oid hoid hz with h | h
        · exact h
        · rw [hready] at h
          simp at h
  intro oid hoid
  exact main (rank oid + 1) oid hoid (by omega)

theorem sortResult_spec (f : Flow) (hwf : flowWF f = true) (hacy : Acyclic f) :
    SortInv f (sortResult f) ∧ (sortResult f).emitOps.Perm (opIds f) := by
  obtain ⟨rank, hrk⟩ := hacy
  obtain ⟨hI, hII, tail, _⟩ :=
    sortLoop_inv f (priorityOf f) hwf f.ops.length (sortInit f)
      (sortInit_inv f hwf)
  have hIr : SortInv f (sortResult f) := hI
  have hnodup : (sortResult f).emitOps.Nodup := (List.nodup_append.mp hIr.nodup).1
  have hsub : (sortResult f).emitOps ⊆ opIds f :=
    fun oid ho => hIr.emit_sub oid ho
  have hsp : (sortResult f).emitOps.Subperm (opIds f) :=
    List.subperm_of_subset hnodup hsub
  refine ⟨hIr, ?_⟩
  have hII2 : (sortResult f).ready = [] ∨
      (sortInit f).emitOps.length + f.ops.length ≤
        (sortResult f).emitOps.length := hII
  rcases hII2 with hrdy | hlen
  · have hall := sort_all_emitted f hwf rank hrk (sortResult f) hIr hrdy
    have hond : (opIds f).Nodup := (wf_parts f hwf).2.1
    have hsp2 : (opIds f).Subperm (sortResult f).emitOps :=
      List.subperm_of_subset hond (fun oid ho => hall oid ho)
    exact hsp.perm_of_length_le hsp2.length_le
  · have hlen2 : (opIds f).length ≤ (sortResult f).emitOps.length := by
      have hz : (sortInit f).emitOps.length = 0 := rfl
      have ho : (opIds f).length = f.ops.length := List.length_map _ _
      omega
    exact hsp.perm_of_length_le hlen2

theorem filterMap_all_resolve {α : Type} (g : Nat → Option α) (key : α → Nat)
    (l : List Nat) (h : ∀ a ∈ l, ∃ b, g a = some b ∧ key b = a) :
    (l.filterMap g).map key = l ∧
      ∀ b ∈ l.filterMap g, ∃ a ∈ l, g a = some b := by
  induction l with
  | nil => exact ⟨rfl, by simp⟩
  | cons a t ih =>
      obtain ⟨b, hb, hkb⟩ := h a (List.mem_cons_self _ _)
      obtain ⟨ih1, ih2⟩ := ih (fun x hx => h x (List.mem_cons_of_mem _ hx))
      rw [List.filterMap_cons, hb]
      constructor
      · rw [List.map_cons, ih1, hkb]
      · intro c hc
        rcases List.mem_cons.mp hc with rfl | hct
        · exact ⟨a, List.mem_cons_self _ _, hb⟩
        · obtain ⟨x, hx, hgx⟩ := ih2 c hct
          exact ⟨x, List.mem_cons_of_mem _ hx, hgx⟩

/-- C2: For every structurally consistent Flow whose operation graph is
acyclic, Sort() reorders the operations into a topological order — the
reordered operation arena is a permutation of the original operations,
and every input's producer appears at a strictly smaller index than its
consumer — and emits the variables in a matching order: the variable
arena lists the producerless variables first and then the outputs of
each operation in scheduling order, every original variable is kept, and
every input of an operation either has no producer (and sits in the
leading block) or is an output of an operation scheduled strictly
earlier. -/
theorem c2_sort_topological (f : Flow) (hwf : flowWF f = true)
    (hacy : Acyclic f) :
    ((sortFlow f).ops.map (fun o => o.oid)).Perm (opIds f) ∧
    (sortFlow f).vars.map (fun v => v.vid) =
      noProducerVids f ++
        ((sortFlow f).ops.map (fun o => o.oid)).flatMap (outputsOf f) ∧
    (∀ v ∈ f.vars, v ∈ (sortFlow f).vars) ∧
    (∀ o ∈ (sortFlow f).ops, ∀ vid ∈ o.inputs, ∀ p,
      producerOf f vid = some p →
      p ∈ (sortFlow f).ops.map (fun q => q.oid) ∧
      ((sortFlow f).ops.map (fun q => q.oid)).indexOf p <
        ((sortFlow f).ops.map (fun q => q.oid)).indexOf o.oid) ∧
    (∀ o ∈ (sortFlow f).ops, ∀ vid ∈ o.inputs,
      vid ∈ noProducerVids f ∨ ∃ o' ∈ (sortFlow f).ops,
        vid ∈ o'.outputs ∧
        ((sortFlow f).ops.map (fun q => q.oid)).indexOf o'.oid <
          ((sortFlow f).ops.map (fun q => q.oid)).indexOf o.oid) := by
  obtain ⟨hvnd, hond, hops, hvars, hcnt, hprod, _⟩ := wf_parts f hwf
  obtain ⟨hinv, hpermE⟩ := sortResult_spec f hwf hacy
  -- resolve the reordered operation arena
  have hopsres : ∀ oid ∈ (sortResult f).emitOps,
      ∃ o, f.findOp oid = some o ∧ o.oid = oid := by
    intro oid ho
    have hid := hinv.emit_sub oid ho
    rcases Option.isSome_iff_exists.mp ((findOp_isSome_iff f oid).mpr hid)
      with ⟨o, hfo⟩
    exact ⟨o, hfo, (findOp_mem f oid o hfo).2⟩
  obtain ⟨hopmap, hopmem⟩ := filterMap_all_resolve
    (fun oid => f.findOp oid) (fun o => o.oid) (sortResult f).emitOps hopsres
  have hopmap2 : (sortFlow f).ops.map (fun o => o.oid) =
      (sortResult f).emitOps := hopmap
  have hopf : ∀ o ∈ (sortFlow f).ops, o ∈ f.ops := by
    intro o ho
    obtain ⟨oid, _, hfo⟩ := hopmem o ho
    exact (findOp_mem f oid o hfo).1
  -- resolve the reordered variable arena
  have hvarsres : ∀ vid ∈ (sortResult f).emitVars,
      ∃ v, f.findVar vid = some v ∧ v.vid = vid := by
    intro vid hv
    rw [hinv.vars_eq] at hv
    rcases List.mem_append.mp hv with h1 | h2
    · unfold noProducerVids at h1
      rcases List.mem_map.mp h1 with ⟨v, hvf, rfl⟩
      exact ⟨v, findVar_of_mem f hvnd v (List.mem_of_mem_filter hvf), rfl⟩
    · rcases List.mem_flatMap.mp h2 with ⟨oid, hoid, hvout⟩
      have hoidid := hinv.emit_sub oid hoid
      rcases Option.isSome_iff_exists.mp ((findOp_isSome_iff f oid).mpr hoidid)
        with ⟨o, hfo⟩
      have houts : outputsOf f oid = o.outputs := by
        unfold outputsOf
        rw [hfo]
      rw [houts] at hvout
      have hsome := (hops o (findOp_mem f oid o hfo).1).2.1 vid hvout
      rcases Option.isSome_iff_exists.mp hsome with ⟨v, hfv⟩
      exact ⟨v, hfv, (findVar_mem f vid v hfv).2⟩
  obtain ⟨hvarmap, _⟩ := filterMap_all_resolve
    (fun vid => f.findVar vid) (fun v => v.vid) (sortResult f).emitVars hvarsres
  have hvarmap2 : (sortFlow f).vars.map (fun v => v.vid) =
      (sortResult f).emitVars := hvarmap
  -- named access to the emitted operation order
  have hperm1 : ((sortFlow f).ops.map (fun o => o.oid)).Perm (opIds f) := by
    rw [hopmap2]
    exact hpermE
  -- the producer-precedence property over the reordered arena
  have hprec : ∀ o ∈ (sortFlow f).ops, ∀ vid ∈ o.inputs, ∀ p,
      producerOf f vid = some p →
      p ∈ (sortFlow f).ops.map (fun q => q.oid) ∧
      ((sortFlow f).ops.map (fun q => q.oid)).indexOf p <
        ((sortFlow f).ops.map (fun q => q.oid)).indexOf o.oid := by
    intro o ho vid hvid p hp
    have hoE : o.oid ∈ (sortResult f).emitOps := by
      rw [← hopmap2]
      exact List.mem_map_of_mem _ ho
    have hins : inputsOf f o.oid = o.inputs := by
      unfold inputsOf
      rw [findOp_of_mem f hond o (hopf o ho)]
    have := hinv.emit_producers o.oid hoE vid (by rw [hins]; exact hvid) p hp
    rw [hopmap2]
    exact this
  refine ⟨hperm1, ?_, ?_, hprec, ?_⟩
  · -- the variable arena follows the scheduling order
    rw [hvarmap2, hinv.vars_eq, hopmap2]
  · -- every original variable is kept
    intro v hv
    have hvidE : v.vid ∈ (sortResult f).emitVars := by
      rw [hinv.vars_eq]
      cases hpv : v.producer with
      | none =>
          apply List.mem_append_left
          unfold noProducerVids
          apply List.mem_map_of_mem
          apply List.mem_filter.mpr
          exact ⟨hv, by simp [hpv]⟩
      | some p =>
          apply List.mem_append_right
          have hsome := (hvars v hv).2 p hpv
          rcases Option.isSome_iff_exists.mp hsome with ⟨o, hfo⟩
          have hom := findOp_mem f p o hfo
          have hpid : p ∈ opIds f := (findOp_isSome_iff f p).mp hsome
          have hpE : p ∈ (sortResult f).emitOps := hpermE.mem_iff.mpr hpid
          apply List.mem_flatMap.mpr
          refine ⟨p, hpE, ?_⟩
          have houts : outputsOf f p = o.outputs := by
            unfold outputsOf
            rw [hfo]
          rw [houts]
          apply (hprod v hv o hom.1).mp
          rw [hom.2]
          exact hpv
    apply List.mem_filterMap.mpr
    exact ⟨v.vid, hvidE, findVar_of_mem f hvnd v hv⟩
  · -- every input is produced earlier or has no producer
    intro o ho vid hvid
    have hof := hopf o ho
    have hsome := (hops o hof).1 vid hvid
    rcases Option.isSome_iff_exists.mp hsome with ⟨v, hfv⟩
    have hvm := findVar_mem f vid v hfv
    have hpo : producerOf f vid = v.producer := by
      unfold producerOf
      rw [hfv]
    cases hpv : v.producer with
    | none =>
        left
        unfold noProducerVids
        rw [← hvm.2]
        apply List.mem_map_of_mem
        apply List.mem_filter.mpr
        exact ⟨hvm.1, by simp [hpv]⟩
    | some p =>
        right
        have hp : producerOf f vid = some p := by rw [hpo, hpv]
        obtain ⟨hpmem, hplt⟩ := hprec o ho vid hvid p hp
        rcases List.mem_map.mp hpmem with ⟨o2, ho2, ho2id⟩
        refine ⟨o2, ho2, ?_, ?_⟩
        · rw [← hvm.2]
          apply (hprod v hvm.1 o2 (hopf o2 ho2)).mp
          rw [hpv, ho2id]
        · rw [ho2id]
          exact hplt

theorem addIfNew_mem (acc : List Nat) (a x : Nat) :
    x ∈ addIfNew acc a ↔ x ∈ acc ∨ x = a := by
  unfold addIfNew
  by_cases h : a ∈ acc
  · rw [if_pos h]
    constructor
    · exact Or.inl
    · rintro (hx | rfl)
      · exact hx
      · exact h
  · rw [if_neg h]
    simp

theorem addIfNew_extend (acc : List Nat) (a : Nat) :
    ∃ t, addIfNew acc a = acc ++ t := by
  unfold addIfNew
  by_cases h : a ∈ acc
  · exact ⟨[], by simp [h]⟩
  · exact ⟨[a], by simp [h]⟩

theorem addIfNew_nodup (acc : List Nat) (a : Nat) (h : acc.Nodup) :
    (addIfNew acc a).Nodup := by
  unfold addIfNew
  by_cases ha : a ∈ acc
  · rw [if_pos ha]
    exact h
  · rw [if_neg ha]
    apply List.nodup_append.mpr
    refine ⟨h, List.nodup_singleton a, ?_⟩
    intro x hx hxa
    have : x = a := by simpa using hxa
    rw [this] at hx
    exact ha hx

theorem foldl_extend {α : Type} (g : List Nat → α → List Nat)
    (hg : ∀ acc a, ∃ t, g acc a = acc ++ t) :
    ∀ (l : List α) (acc), ∃ t, l.foldl g acc = acc ++ t := by
  intro l
  induction l with
  | nil => exact fun acc => ⟨[], by simp⟩
  | cons a r ih =>
      intro acc
      obtain ⟨t1, h1⟩ := hg acc a
      obtain ⟨t2, h2⟩ := ih (g acc a)
      exact ⟨t1 ++ t2, by rw [List.foldl_cons, h2, h1, List.append_assoc]⟩

theorem foldl_preserves {α : Type} (g : List Nat → α → List Nat)
    (P : List Nat → Prop) (h : ∀ acc a, P acc → P (g acc a)) :
    ∀ (l : List α) (acc), P acc → P (l.foldl g acc) := by
  intro l
  induction l with
  | nil => exact fun acc hp => hp
  | cons a r ih =>
      intro acc hp
      rw [List.foldl_cons]
      exact ih (g acc a) (h acc a hp)

theorem foldl_char {α : Type} (g : List Nat → α → List Nat)
    (adds : α → Nat → Prop)
    (hchar : ∀ acc a x, x ∈ g acc a ↔ x ∈ acc ∨ adds a x) :
    ∀ (l : List α) (acc x), x ∈ l.foldl g acc ↔
      x ∈ acc ∨ ∃ a ∈ l, adds a x := by
  intro l
  induction l with
  | nil =>
      intro acc x
      simp
  | cons a r ih =>
      intro acc x
      rw [List.foldl_cons, ih]
      constructor
      · rintro (h | ⟨w, hw, hx⟩)
        · rcases (hchar acc a x).mp h with h2 | h2
          · exact Or.inl h2
          · exact Or.inr ⟨a, List.mem_cons_self _ _, h2⟩
        · exact Or.inr ⟨w, List.mem_cons_of_mem _ hw, hx⟩
      · rintro (h | ⟨w, hw, hx⟩)
        · exact Or.inl ((hchar acc a x).mpr (Or.inl h))
        · rcases List.mem_cons.mp hw with he | hw2
          · exact Or.inl ((hchar acc a x).mpr (Or.inr (he ▸ hx)))
          · exact Or.inr ⟨w, hw2, hx⟩

theorem prodStep_char (f : Flow) (acc : List Nat) (vid x : Nat) :
    x ∈ (match producerOf f vid with
          | some p => addIfNew acc p
          | none => acc) ↔
      x ∈ acc ∨ producerOf f vid = some x := by
  cases hp : producerOf f vid with
  | none =>
      simp
  | some p =>
      rw [addIfNew_mem]
      constructor
      · rintro (h | rfl)
        · exact Or.inl h
        · exact Or.inr rfl
      · rintro (h | h)
        · exact Or.inl h
        · injection h with h2
          exact Or.inr h2.symm

theorem prodTaskStep_char (f : Flow) (acc : List Nat) (vid x : Nat) :
    x ∈ (match producerOf f vid with
          | some p => if taskOf f p = 0 then addIfNew acc p else acc
          | none => acc) ↔
      x ∈ acc ∨ (producerOf f vid = some x ∧ taskOf f x = 0) := by
  cases hp : producerOf f vid with
  | none =>
      simp
  | some p =>
      dsimp only
      by_cases ht : taskOf f p = 0
      · rw [if_pos ht, addIfNew_mem]
        constructor
        · rintro (h | rfl)
          · exact Or.inl h
          · exact Or.inr ⟨rfl, ht⟩
        · rintro (h | ⟨h1, _⟩)
          · exact Or.inl h
          · injection h1 with h2
            exact Or.inr h2.symm
      · rw [if_neg ht]
        constructor
        · exact Or.inl
        · rintro (h | ⟨h1, h2⟩)
          · exact h
          · injection h1 with h3
            rw [← h3] at h2
            exact absurd h2 ht

theorem consTaskStep_char (f : Flow) (acc : List Nat) (c x : Nat) :
    x ∈ (if taskOf f c = 0 then addIfNew acc c else acc) ↔
      x ∈ acc ∨ (c = x ∧ taskOf f x = 0) := by
  by_cases ht : taskOf f c = 0
  · rw [if_pos ht, addIfNew_mem]
    constructor
    · rintro (h | rfl)
      · exact Or.inl h
      · exact Or.inr ⟨rfl, ht⟩
    · rintro (h | ⟨rfl, _⟩)
      · exact Or.inl h
      · exact Or.inr rfl
  · rw [if_neg ht]
    constructor
    · exact Or.inl
    · rintro (h | ⟨rfl, h2⟩)
      · exact h
      · exact absurd h2 ht

theorem consFold_char (f : Flow) (cs : List Nat) (acc : List Nat) (x : Nat) :
    x ∈ cs.foldl (fun acc3 c =>
        if taskOf f c = 0 then addIfNew acc3 c else acc3) acc ↔
      x ∈ acc ∨ (x ∈ cs ∧ taskOf f x = 0) := by
  rw [foldl_char (fun acc3 c => if taskOf f c = 0 then addIfNew acc3 c else acc3)
    (fun c x => c = x ∧ taskOf f x = 0)
    (fun acc c x => consTaskStep_char f acc c x) cs acc x]
  constructor
  · rintro (h | ⟨c, hc, rfl, ht⟩)
    · exact Or.inl h
    · exact Or.inr ⟨hc, ht⟩
  · rintro (h | ⟨hc, ht⟩)
    · exact Or.inl h
    · exact Or.inr ⟨x, hc, rfl, ht⟩

theorem outFold_char (f : Flow) (outs : List Nat) (acc : List Nat) (x : Nat) :
    x ∈ outs.foldl (fun acc2 vid =>
        (consumersOf f vid).foldl (fun acc3 c =>
          if taskOf f c = 0 then addIfNew acc3 c else acc3) acc2) acc ↔
      x ∈ acc ∨ ∃ vid ∈ outs, x ∈ consumersOf f vid ∧ taskOf f x = 0 :=
  foldl_char _ (fun vid x => x ∈ consumersOf f vid ∧ taskOf f x = 0)
    (fun acc vid x => consFold_char f (consumersOf f vid) acc x) outs acc x

theorem inFold_char (f : Flow) (ins : List Nat) (acc : List Nat) (x : Nat) :
    x ∈ ins.foldl (fun acc2 vid =>
        match producerOf f vid with
        | some p => addIfNew acc2 p
        | none => acc2) acc ↔
      x ∈ acc ∨ ∃ vid ∈ ins, producerOf f vid = some x :=
  foldl_char _ (fun vid x => producerOf f vid = some x)
    (fun acc vid x => prodStep_char f acc vid x) ins acc x

theorem preStep_char (f : Flow) (s : List Nat) (x : Nat) :
    x ∈ preStep f s ↔
      x ∈ s ∨ ∃ q ∈ s, ∃ vid ∈ inputsOf f q, producerOf f vid = some x := by
  unfold preStep
  rw [foldl_char _
    (fun q x => ∃ vid ∈ inputsOf f q, producerOf f vid = some x)
    (fun acc q x => inFold_char f (inputsOf f q) acc x) s s x]

theorem postStep_char (f : Flow) (s : List Nat) (x : Nat) :
    x ∈ postStep f s ↔
      x ∈ s ∨ ∃ q ∈ s, ∃ vid ∈ outputsOf f q,
        x ∈ consumersOf f vid ∧ taskOf f x = 0 := by
  unfold postStep
  rw [foldl_char _
    (fun q x => ∃ vid ∈ outputsOf f q, x ∈ consumersOf f vid ∧ taskOf f x = 0)
    (fun acc q x => outFold_char f (outputsOf f q) acc x) s s x]

theorem directPreList_char (f : Flow) (x : Nat) :
    x ∈ directPreList f ↔
      ∃ o ∈ f.ops, o.task ≠ 0 ∧ ∃ vid ∈ o.inputs,
        producerOf f vid = some x ∧ taskOf f x = 0 := by
  unfold directPreList
  rw [foldl_char (fun acc (op : Operation) =>
      if op.task ≠ 0 then
        op.inputs.foldl (fun acc2 vid =>
          match producerOf f vid with
          | some p => if taskOf f p = 0 then addIfNew acc2 p else acc2
          | none => acc2) acc
      else acc)
    (fun op x => op.task ≠ 0 ∧ ∃ vid ∈ op.inputs,
      producerOf f vid = some x ∧ taskOf f x = 0)
    ?_ f.ops [] x]
  · simp
  · intro acc op y
    dsimp only
    by_cases ht : op.task ≠ 0
    · rw [if_pos ht]
      rw [foldl_char _
        (fun vid y => producerOf f vid = some y ∧ taskOf f y = 0)
        (fun acc2 vid y => prodTaskStep_char f acc2 vid y) op.inputs acc y]
      constructor
      · rintro (h | h)
        · exact Or.inl h
        · exact Or.inr ⟨ht, h⟩
      · rintro (h | ⟨_, h⟩)
        · exact Or.inl h
        · exact Or.inr h
    · rw [if_neg ht]
      constructor
      · exact Or.inl
      · rintro (h | ⟨h1, _⟩)
        · exact h
        · exact absurd h1 ht

theorem directPostList_char (f : Flow) (x : Nat) :
    x ∈ directPostList f ↔
      ∃ o ∈ f.ops, o.task ≠ 0 ∧ ∃ vid ∈ o.outputs,
        x ∈ consumersOf f vid ∧ taskOf f x = 0 := by
  unfold directPostList
  rw [foldl_char (fun acc (op : Operation) =>
      if op.task ≠ 0 then
        op.outputs.foldl (fun acc2 vid =>
          (consumersOf f vid).foldl (fun acc3 c =>
            if taskOf f c = 0 then addIfNew acc3 c else acc3) acc2) acc
      else acc)
    (fun op x => op.task ≠ 0 ∧ ∃ vid ∈ op.outputs,
      x ∈ consumersOf f vid ∧ taskOf f x = 0)
    ?_ f.ops [] x]
  · simp
  · intro acc op y
    dsimp only
    by_cases ht : op.task ≠ 0
    · rw [if_pos ht]
      rw [outFold_char f op.outputs acc y]
      constructor
      · rintro (h | h)
        · exact Or.inl h
        · exact Or.inr ⟨ht, h⟩
      · rintro (h | ⟨_, h⟩)
        · exact Or.inl h
        · exact Or.inr h
    · rw [if_neg ht]
      constructor
      · exact Or.inl
      · rintro (h | ⟨h1, _⟩)
        · exact h
        · exact absurd h1 ht

theorem prodStep_extend (f : Flow) (acc : List Nat) (vid : Nat) :
    ∃ t, (match producerOf f vid with
          | some p => addIfNew acc p
          | none => acc) = acc ++ t := by
  cases hp : producerOf f vid with
  | none => exact ⟨[], by simp⟩
  | some p => exact addIfNew_extend acc p

theorem prodTaskStep_extend (f : Flow) (acc : List Nat) (vid : Nat) :
    ∃ t, (match producerOf f vid with
          | some p => if taskOf f p = 0 then addIfNew acc p else acc
          | none => acc) = acc ++ t := by
  cases hp : producerOf f vid with
  | none => exact ⟨[], by simp⟩
  | some p =>
      dsimp only
      by_cases ht : taskOf f p = 0
      · rw [if_pos ht]
        exact addIfNew_extend acc p
      · rw [if_neg ht]
        exact ⟨[], by simp⟩

theorem consTaskStep_extend (f : Flow) (acc : List Nat) (c : Nat) :
    ∃ t, (if taskOf f c = 0 then addIfNew acc c else acc) = acc ++ t := by
  by_cases ht : taskOf f c = 0
  · rw [if_pos ht]
    exact addIfNew_extend acc c
  · rw [if_neg ht]
    exact ⟨[], by simp⟩

theorem preStep_extend (f : Flow) (s : List Nat) :
    ∃ t, preStep f s = s ++ t :=
  foldl_extend _ (fun acc oid => foldl_extend _
    (fun acc2 vid => prodStep_extend f acc2 vid) (inputsOf f oid) acc) s s

theorem postStep_extend (f : Flow) (s : List Nat) :
    ∃ t, postStep f s = s ++ t :=
  foldl_extend _ (fun acc oid => foldl_extend _
    (fun acc2 vid => foldl_extend _
      (fun acc3 c => consTaskStep_extend f acc3 c) (consumersOf f vid) acc2)
    (outputsOf f oid) acc) s s

theorem prodStep_nodup (f : Flow) (acc : List Nat) (vid : Nat)
    (h : acc.Nodup) :
    (match producerOf f vid with
      | some p => addIfNew acc p
      | none => acc).Nodup := by
  cases hp : producerOf f vid with
  | none => exact h
  | some p => exact addIfNew_nodup acc p h

theorem prodTaskStep_nodup (f : Flow) (acc : List Nat) (vid : Nat)
    (h : acc.Nodup) :
    (match producerOf f vid with
      | some p => if taskOf f p = 0 then addIfNew acc p else acc
      | none => acc).Nodup := by
  cases hp : producerOf f vid with
  | none => exact h
  | some p =>
      dsimp only
      by_cases ht : taskOf f p = 0
      · rw [if_pos ht]
        exact addIfNew_nodup acc p h
      · rw [if_neg ht]
        exact h

theorem consTaskStep_nodup (f : Flow) (acc : List Nat) (c : Nat)
    (h : acc.Nodup) :
    (if taskOf f c = 0 then addIfNew acc c else acc).Nodup := by
  by_cases ht : taskOf f c = 0
  · rw [if_pos ht]
    exact addIfNew_nodup acc c h
  · rw [if_neg ht]
    exact h

theorem preStep_nodup (f : Flow) (s : List Nat) (hs : s.Nodup) :
    (preStep f s).Nodup :=
  foldl_preserves _ (fun l => l.Nodup)
    (fun acc oid h => foldl_preserves _ (fun l => l.Nodup)
      (fun acc2 vid h2 => prodStep_nodup f acc2 vid h2)
      (inputsOf f oid) acc h) s s hs

theorem postStep_nodup (f : Flow) (s : List Nat) (hs : s.Nodup) :
    (postStep f s).Nodup :=
  foldl_preserves _ (fun l => l.Nodup)
    (fun acc oid h => foldl_preserves _ (fun l => l.Nodup)
      (fun acc2 vid h2 => foldl_preserves _ (fun l => l.Nodup)
        (fun acc3 c h3 => consTaskStep_nodup f acc3 c h3)
        (consumersOf f vid) acc2 h2)
      (outputsOf f oid) acc h) s s hs

theorem directPreList_nodup (f : Flow) : (directPreList f).Nodup := by
  unfold directPreList
  apply foldl_preserves _ (fun l => l.Nodup)
  · intro acc op h
    dsimp only
    by_cases ht : op.task ≠ 0
    · rw [if_pos ht]
      apply foldl_preserves _ (fun l => l.Nodup)
      · intro acc2 vid h2
        exact prodTaskStep_nodup f acc2 vid h2
      · exact h
    · rw [if_neg ht]
      exact h
  · exact List.nodup_nil

theorem directPostList_nodup (f : Flow) : (directPostList f).Nodup := by
  unfold directPostList
  apply foldl_preserves _ (fun l => l.Nodup)
  · intro acc op h
    dsimp only
    by_cases ht : op.task ≠ 0
    · rw [if_pos ht]
      apply foldl_preserves _ (fun l => l.Nodup)
      · intro acc2 vid h2
        apply foldl_preserves _ (fun l => l.Nodup)
        · intro acc3 c h3
          exact consTaskStep_nodup f acc3 c h3
        · exact h2
      · exact h
    · rw [if_neg ht]
      exact h
  · exact List.nodup_nil

theorem preStep_pool (f : Flow) (hwf : flowWF f = true) (s : List Nat)
    (hs : ∀ x ∈ s, x ∈ opIds f) : ∀ x ∈ preStep f s, x ∈ opIds f := by
  intro x hx
  rcases (preStep_char f s x).mp hx with h | ⟨q, _, vid, _, hp⟩
  · exact hs x h
  · exact producer_mem_opIds f hwf vid x hp

theorem postStep_pool (f : Flow) (hwf : flowWF f = true) (s : List Nat)
    (hs : ∀ x ∈ s, x ∈ opIds f) : ∀ x ∈ postStep f s, x ∈ opIds f := by
  intro x hx
  rcases (postStep_char f s x).mp hx with h | ⟨q, _, vid, _, hc, _⟩
  · exact hs x h
  · exact consumers_mem_opIds f hwf vid x hc

theorem directPreList_pool (f : Flow) (hwf : flowWF f = true) :
    ∀ x ∈ directPreList f, x ∈ opIds f := by
  intro x hx
  rcases (directPreList_char f x).mp hx with ⟨o, _, _, vid, _, hp, _⟩
  exact producer_mem_opIds f hwf vid x hp

theorem directPostList_pool (f : Flow) (hwf : flowWF f = true) :
    ∀ x ∈ directPostList f, x ∈ opIds f := by
  intro x hx
  rcases (directPostList_char f x).mp hx with ⟨o, _, _, vid, _, hc, _⟩
  exact consumers_mem_opIds f hwf vid x hc

theorem iterClosure_extends (step : List Nat → List Nat)
    (hext : ∀ s, ∃ t, step s = s ++ t) :
    ∀ (n : Nat) (s : List Nat), ∃ t, iterClosure step n s = s ++ t := by
  intro n
  induction n with
  | zero => exact fun s => ⟨[], by simp [iterClosure]⟩
  | succ n ih =>
      intro s
      obtain ⟨t1, h1⟩ := hext s
      obtain ⟨t2, h2⟩ := ih (step s)
      refine ⟨t1 ++ t2, ?_⟩
      show iterClosure step n (step s) = _
      rw [h2, h1, List.append_assoc]

theorem iterClosure_preserves (step : List Nat → List Nat)
    (P : List Nat → Prop) (h : ∀ s, P s → P (step s)) :
    ∀ (n : Nat) (s : List Nat), P s → P (iterClosure step n s) := by
  intro n
  induction n with
  | zero => exact fun s hp => hp
  | succ n ih =>
      intro s hp
      show P (iterClosure step n (step s))
      exact ih (step s) (h s hp)

theorem iterClosure_of_fix (step : List Nat → List Nat) :
    ∀ (n : Nat) (s : List Nat), step s = s → iterClosure step n s = s := by
  intro n
  induction n with
  | zero => intro s _; rfl
  | succ n ih =>
      intro s h
      show iterClosure step n (step s) = s
      rw [h]
      exact ih s h

theorem iter_reaches_fix (step : List Nat → List Nat)
    (hext : ∀ s, ∃ t, step s = s ++ t)
    (hnd : ∀ s, s.Nodup → (step s).Nodup)
    (pool : List Nat)
    (hpool : ∀ s, (∀ x ∈ s, x ∈ pool) → ∀ x ∈ step s, x ∈ pool) :
    ∀ (fuel : Nat) (s : List Nat), s.Nodup → (∀ x ∈ s, x ∈ pool) →
      pool.length < fuel + s.length →
      step (iterClosure step fuel s) = iterClosure step fuel s := by
  intro fuel
  induction fuel with
  | zero =>
      intro s hs hsub hlen
      have hle : s.length ≤ pool.length :=
        (List.subperm_of_subset hs (fun x hx => hsub x hx)).length_le
      exact absurd hlen (by omega)
  | succ fuel ih =>
      intro s hs hsub hlen
      obtain ⟨t, hts⟩ := hext s
      cases t with
      | nil =>
          rw [List.append_nil] at hts
          have hfix := iterClosure_of_fix step (fuel + 1) s hts
          rw [hfix]
          exact hts
      | cons a t2 =>
          show step (iterClosure step fuel (step s)) =
            iterClosure step fuel (step s)
          apply ih (step s) (hnd s hs) (hpool s hsub)
          rw [hts]
          simp only [List.length_append, List.length_cons]
          omega

theorem preClosure_fix (f : Flow) (hwf : flowWF f = true) :
    preStep f (preClosure f) = preClosure f := by
  have hlen : (opIds f).length <
      closureFuel f + (directPreList f).length := by
    have h1 : (opIds f).length = f.ops.length := List.length_map _ _
    unfold closureFuel
    omega
  exact iter_reaches_fix (preStep f) (preStep_extend f) (preStep_nodup f)
    (opIds f) (preStep_pool f hwf) (closureFuel f) (directPreList f)
    (directPreList_nodup f) (directPreList_pool f hwf) hlen

theorem postClosure_fix (f : Flow) (hwf : flowWF f = true) :
    postStep f (postClosure f) = postClosure f := by
  have hlen : (opIds f).length <
      closureFuel f + (directPostList f).length := by
    have h1 : (opIds f).length = f.ops.length := List.length_map _ _
    unfold closureFuel
    omega
  exact iter_reaches_fix (postStep f) (postStep_extend f) (postStep_nodup f)
    (opIds f) (postStep_pool f hwf) (closureFuel f) (directPostList f)
    (directPostList_nodup f) (directPostList_pool f hwf) hlen

theorem preClosure_iff (f : Flow) (hwf : flowWF f = true) (x : Nat) :
    x ∈ preClosure f ↔ PreReach f x := by
  constructor
  · intro hx
    have hbase : ∀ y ∈ directPreList f, PreReach f y := by
      intro y hy
      rcases (directPreList_char f y).mp hy with ⟨o, ho, ht, vid, hvid, hp, htz⟩
      exact PreReach.direct o vid y ho ht hvid hp htz
    have hind : ∀ s, (∀ y ∈ s, PreReach f y) →
        ∀ y ∈ preStep f s, PreReach f y := by
      intro s hs y hy
      rcases (preStep_char f s y).mp hy with h | ⟨q, hq, vid, hvid, hp⟩
      · exact hs y h
      · exact PreReach.extend q vid y (hs q hq) hvid hp
    exact iterClosure_preserves (preStep f) (fun s => ∀ y ∈ s, PreReach f y)
      hind (closureFuel f) (directPreList f) hbase x hx
  · intro hx
    induction hx with
    | direct o vid p ho ht hvid hp htz =>
        have hbase : p ∈ directPreList f :=
          (directPreList_char f p).mpr ⟨o, ho, ht, vid, hvid, hp, htz⟩
        obtain ⟨t, hts⟩ := iterClosure_extends (preStep f) (preStep_extend f)
          (closureFuel f) (directPreList f)
        show p ∈ preClosure f
        unfold preClosure
        rw [hts]
        exact List.mem_append_left _ hbase
    | extend q vid p hq hvid hp ih =>
        rw [← preClosure_fix f hwf]
        exact (preStep_char f (preClosure f) p).mpr
          (Or.inr ⟨q, ih, vid, hvid, hp⟩)

theorem postClosure_iff (f : Flow) (hwf : flowWF f = true) (x : Nat) :
    x ∈ postClosure f ↔ PostReach f x := by
  constructor
  · intro hx
    have hbase : ∀ y ∈ directPostList f, PostReach f y := by
      intro y hy
      rcases (directPostList_char f y).mp hy with ⟨o, ho, ht, vid, hvid, hc, htz⟩
      exact PostReach.direct o vid y ho ht hvid hc htz
    have hind : ∀ s, (∀ y ∈ s, PostReach f y) →
        ∀ y ∈ postStep f s, PostReach f y := by
      intro s hs y hy
      rcases (postStep_char f s y).mp hy with h | ⟨q, hq, vid, hvid, hc, htz⟩
      · exact hs y h
      · exact PostReach.extend q vid y (hs q hq) hvid hc htz
    exact iterClosure_preserves (postStep f) (fun s => ∀ y ∈ s, PostReach f y)
      hind (closureFuel f) (directPostList f) hbase x hx
  · intro hx
    induction hx with
    | direct o vid c ho ht hvid hc htz =>
        have hbase : c ∈ directPostList f :=
          (directPostList_char f c).mpr ⟨o, ho, ht, vid, hvid, hc, htz⟩
        obtain ⟨t, hts⟩ := iterClosure_extends (postStep f) (postStep_extend f)
          (closureFuel f) (directPostList f)
        show c ∈ postClosure f
        unfold postClosure
        rw [hts]
        exact List.mem_append_left _ hbase
    | extend q vid c hq hvid hc htz ih =>
        rw [← postClosure_fix f hwf]
        exact (postStep_char f (postClosure f) c).mpr
          (Or.inr ⟨q, ih, vid, hvid, hc, htz⟩)

theorem sortFlow_ops_emitted (f : Flow) (hwf : flowWF f = true)
    (hacy : Acyclic f) :
    (sortFlow f).ops.map (fun o => o.oid) = (sortResult f).emitOps := by
  obtain ⟨hinv, _⟩ := sortResult_spec f hwf hacy
  have hopsres : ∀ oid ∈ (sortResult f).emitOps,
      ∃ o, f.findOp oid = some o ∧ o.oid = oid := by
    intro oid ho
    have hid := hinv.emit_sub oid ho
    rcases Option.isSome_iff_exists.mp ((findOp_isSome_iff f oid).mpr hid)
      with ⟨o, hfo⟩
    exact ⟨o, hfo, (findOp_mem f oid o hfo).2⟩
  exact (filterMap_all_resolve (fun oid => f.findOp oid) (fun o => o.oid)
    (sortResult f).emitOps hopsres).1

theorem ancestor_scheduled_before (f : Flow) (hwf : flowWF f = true)
    (hacy : Acyclic f) (a b : Nat) (hanc : Ancestor f a b)
    (hb : b ∈ opIds f) :
    a ∈ opIds f ∧
      ((sortFlow f).ops.map (fun o => o.oid)).indexOf a <
        ((sortFlow f).ops.map (fun o => o.oid)).indexOf b := by
  obtain ⟨hinv, hperm⟩ := sortResult_spec f hwf hacy
  rw [sortFlow_ops_emitted f hwf hacy]
  have hstep : ∀ x y, FeedsDirect f x y → y ∈ opIds f →
      x ∈ opIds f ∧
      (sortResult f).emitOps.indexOf x < (sortResult f).emitOps.indexOf y := by
    intro x y hfd hy
    obtain ⟨vid, hvid, hp⟩ := hfd
    have hyE : y ∈ (sortResult f).emitOps := hperm.mem_iff.mpr hy
    obtain ⟨hxE, hlt⟩ := hinv.emit_producers y hyE vid hvid x hp
    exact ⟨hinv.emit_sub x hxE, hlt⟩
  have main : ∀ c, Ancestor f a c → c ∈ opIds f →
      a ∈ opIds f ∧ (sortResult f).emitOps.indexOf a <
        (sortResult f).emitOps.indexOf c := by
    intro c hanc2
    induction hanc2 with
    | single h =>
        intro hcid
        exact hstep a _ h hcid
    | tail hpath hlast ih =>
        intro hcid
        obtain ⟨hbid, hlt2⟩ := hstep _ _ hlast hcid
        obtain ⟨haid, hlt1⟩ := ih hbid
        exact ⟨haid, Nat.lt_trans hlt1 hlt2⟩
  exact main b hanc hb

/-- C3: The claim's priority table is refuted by the parallel chain flow
A (task 1) → m (main) → P (task 1): the claim assigns priority 2 to
every operation with nonzero task id, but the backward expansion of the
pre-parallel set has no task filter, so the parallel operation A (id 0,
task 1), which transitively feeds the parallel operation P through the
main-task producer m, ends in the pre-parallel set with priority 4. -/
theorem c3_priorities_counterexample :
    flowWF exPar = true ∧ taskOf exPar 0 = 1 ∧
      0 ∈ preClosure exPar ∧ 0 ∉ postClosure exPar ∧
      priorityOf exPar 0 = 4 ∧ priorityOf exPar 0 ≠ 2 := by
  decide

/-- C3 (amended): For every structurally consistent Flow, the worklist
sets of Sort coincide with the declarative transitive closures — the
pre-parallel set holds exactly the operations reaching a parallel
operation's input through a main-task first link and then arbitrary
producer links (so it may capture parallel operations too, unlike the
claim), and the post-parallel set holds exactly the main-task operations
transitively consuming a parallel operation's output; operations in
exactly one of the two sets get that set's priority (4 pre-parallel,
1 post-parallel), operations in neither get 2 when parallel and the
default 3 otherwise (an operation in both sets keeps the last priority
write of the source, which depends on arena and worklist iteration
order, so no value is asserted for it); and, for an acyclic flow, every
ancestor of an operation through producer chains is scheduled strictly
before it (hence main-task ancestors of a parallel operation come
before it and main-task descendants after it). -/
theorem c3_priorities_amended (f : Flow) (hwf : flowWF f = true)
    (hacy : Acyclic f) :
    (∀ oid, (oid ∈ preClosure f ↔ PreReach f oid) ∧
      (oid ∈ postClosure f ↔ PostReach f oid)) ∧
    (∀ oid, (PreReach f oid → ¬PostReach f oid → priorityOf f oid = 4) ∧
      (¬PreReach f oid → PostReach f oid → priorityOf f oid = 1) ∧
      (¬PreReach f oid → ¬PostReach f oid → taskOf f oid ≠ 0 →
        priorityOf f oid = 2) ∧
      (¬PreReach f oid → ¬PostReach f oid → taskOf f oid = 0 →
        priorityOf f oid = 3)) ∧
    (∀ a b, Ancestor f a b → b ∈ opIds f →
      a ∈ opIds f ∧
        ((sortFlow f).ops.map (fun o => o.oid)).indexOf a <
          ((sortFlow f).ops.map (fun o => o.oid)).indexOf b) := by
  refine ⟨?_, ?_, ?_⟩
  · exact fun oid => ⟨preClosure_iff f hwf oid, postClosure_iff f hwf oid⟩
  · intro oid
    refine ⟨?_, ?_, ?_, ?_⟩
    · intro h _
      unfold priorityOf
      rw [if_pos ((preClosure_iff f hwf oid).mpr h)]
    · intro hnp h
      unfold priorityOf
      rw [if_neg (fun hc => hnp ((preClosure_iff f hwf oid).mp hc)),
        if_pos ((postClosure_iff f hwf oid).mpr h)]
    · intro hnp hnq ht
      unfold priorityOf
      rw [if_neg (fun hc => hnp ((preClosure_iff f hwf oid).mp hc)),
        if_neg (fun hc => hnq ((postClosure_iff f hwf oid).mp hc)),
        if_pos ht]
    · intro hnp hnq ht
      unfold priorityOf
      rw [if_neg (fun hc => hnp ((preClosure_iff f hwf oid).mp hc)),
        if_neg (fun hc => hnq ((postClosure_iff f hwf oid).mp hc)),
        if_neg (fun hc => hc ht)]
  · exact fun a b hanc hb => ancestor_scheduled_before f hwf hacy a b hanc hb

/-- The amended priority theorem applies to the concrete three-stage
chain flow: the main-task producer feeding its parallel operation is
pre-parallel reachable, so it is assigned priority 4, and the producer
is scheduled strictly before its consumer. -/
theorem c3_priorities_amended_witness :
    flowWF exChain = true ∧ Acyclic exChain ∧
      0 ∈ opIds exChain ∧
      ((sortFlow exChain).ops.map (fun o => o.oid)).indexOf 0 <
        ((sortFlow exChain).ops.map (fun o => o.oid)).indexOf 1 := by
  refine ⟨by decide, ⟨fun oid => oid, by decide⟩, ?_⟩
  exact (c3_priorities_amended exChain (by decide)
      ⟨fun oid => oid, by decide⟩).2.2 0 1
    (Relation.TransGen.single ⟨0, by decide, by decide⟩) (by decide)

theorem flowWF_iff (f : Flow) : flowWF f = true ↔ FlowWFP f := by
  unfold flowWF
  simp only [Bool.and_eq_true, decide_eq_true_eq, List.all_eq_true]
  constructor
  · rintro ⟨⟨⟨⟨⟨⟨⟨⟨⟨⟨h1, h2⟩, h3⟩, h4⟩, h5⟩, h6⟩, h7⟩, h8⟩, h9⟩, h10⟩, h11⟩
    refine ⟨h1, h2, h3, ?_, ?_, ?_, ?_, ?_, ?_, ?_, ?_, ?_, h10, h11⟩
    · intro o ho vid hv
      have h := h4 o ho
      simp only [Bool.and_eq_true, List.all_eq_true, decide_eq_true_eq] at h
      exact h.1.1 vid hv
    · intro o ho vid hv
      have h := h4 o ho
      simp only [Bool.and_eq_true, List.all_eq_true, decide_eq_true_eq] at h
      exact h.1.2 vid hv
    · intro o ho
      have h := h4 o ho
      simp only [Bool.and_eq_true, List.all_eq_true, decide_eq_true_eq] at h
      exact h.2
    · intro v hv c hc
      have h := h5 v hv
      simp only [Bool.and_eq_true, List.all_eq_true] at h
      exact h.1 c hc
    · intro v hv p hp
      have h := h5 v hv
      simp only [Bool.and_eq_true, List.all_eq_true] at h
      have h2' := h.2
      rw [hp] at h2'
      exact h2'
    · intro v hv o ho
      exact eq_of_beq (h6 v hv o ho)
    · intro v hv o ho
      have h2 : (v.producer == some o.oid) = o.outputs.contains v.vid :=
        eq_of_beq (h7 v hv o ho)
      constructor
      · intro hp
        have hb : (v.producer == some o.oid) = true := by
          rw [hp]
          exact beq_self_eq_true _
        rw [hb] at h2
        have hc : o.outputs.contains v.vid = true := h2.symm
        rw [contains_iff] at hc
        simpa using hc
      · intro hm
        have hc : o.outputs.contains v.vid = true := by
          rw [contains_iff]
          simpa using hm
        rw [hc] at h2
        exact eq_of_beq h2
    · intro o ho fid hfid
      have h := h8 o ho
      rw [hfid] at h
      rw [List.any_eq_true] at h
      obtain ⟨fn, hfn, hp⟩ := h
      rw [Bool.and_eq_true] at hp
      refine ⟨fn, hfn, by simpa using hp.1, ?_⟩
      have hc := hp.2
      rw [contains_iff] at hc
      simpa using hc
    · intro fn hfn oid hoid
      have h := h9 fn hfn oid hoid
      cases hfo : f.findOp oid with
      | none =>
          rw [hfo] at h
          cases h
      | some o =>
          rw [hfo] at h
          exact ⟨o, rfl, by simpa using h⟩
  · rintro ⟨h1, h2, h3, h4a, h4b, h4c, h5a, h5b, h6, h7, h8, h9, h10, h11⟩
    refine ⟨⟨⟨⟨⟨⟨⟨⟨⟨⟨h1, h2⟩, h3⟩, ?_⟩, ?_⟩, ?_⟩, ?_⟩, ?_⟩, ?_⟩, ?_⟩, h11⟩
    · intro o ho
      exact ⟨⟨fun vid hv => h4a o ho vid hv, fun vid hv => h4b o ho vid hv⟩,
        h4c o ho⟩
    · intro v hv
      refine ⟨fun c hc => h5a v hv c hc, ?_⟩
      cases hp : v.producer with
      | none => rfl
      | some p => exact h5b v hv p hp
    · intro v hv o ho
      have h := h6 v hv o ho
      rw [h]
      exact beq_self_eq_true _
    · intro v hv o ho
      have hiff := h7 v hv o ho
      by_cases hp : v.producer = some o.oid
      · have hb : (v.producer == some o.oid) = true := by
          rw [hp]
          exact beq_self_eq_true _
        have hc : o.outputs.contains v.vid = true := by
          rw [contains_iff]
          simpa using hiff.mp hp
        rw [hb, hc]
        rfl
      · have hm : v.vid ∉ o.outputs := fun hm => hp (hiff.mpr hm)
        have hc : o.outputs.contains v.vid = false := by
          rw [contains_iff]
          simpa using hm
        have hb : (v.producer == some o.oid) = false := by
          simpa using hp
        rw [hc, hb]
        rfl
    · intro o ho
      cases hf : o.func with
      | none => rfl
      | some fid =>
          obtain ⟨fn, hfn, hfid, hmem⟩ := h8 o ho fid hf
          show (f.funcs.any fun fn => fn.fid == fid && fn.ops.contains o.oid)
            = true
          rw [List.any_eq_true]
          refine ⟨fn, hfn, ?_⟩
          rw [Bool.and_eq_true]
          refine ⟨by simpa using hfid, ?_⟩
          rw [contains_iff]
          simpa using hmem
    · intro fn hfn oid hoid
      obtain ⟨o, hfo, hfu⟩ := h9 fn hfn oid hoid
      rw [hfo]
      show (o.func == some fn.fid) = true
      simpa using hfu
    · intro fn hfn
      exact h10 fn hfn

theorem map_key_eq {α : Type} (key : α → Nat) (h : α → α)
    (hk : ∀ a, key (h a) = key a) (l : List α) :
    (l.map h).map key = l.map key := by
  rw [List.map_map]
  exact List.map_congr_left (fun a _ => hk a)

theorem findVar_eq_map (f f2 : Flow) (mV : Variable → Variable)
    (hVid : ∀ v, (mV v).vid = v.vid) (hv2 : f2.vars = f.vars.map mV)
    (w : Nat) : f2.findVar w = (f.findVar w).map mV := by
  unfold Flow.findVar
  rw [hv2]
  exact find?_map_invar f.vars _ mV (fun v => by rw [hVid v])

theorem findOp_eq_map (f f2 : Flow) (mO : Operation → Operation)
    (hOid : ∀ o, (mO o).oid = o.oid) (ho2 : f2.ops = f.ops.map mO)
    (w : Nat) : f2.findOp w = (f.findOp w).map mO := by
  unfold Flow.findOp
  rw [ho2]
  exact find?_map_invar f.ops _ mO (fun o => by rw [hOid o])

/-- Master preservation lemma: a flow whose arenas are pointwise images
of a well-formed flow's arenas, under maps that keep ids and functions
and respect the counting and producer facts, is well formed. -/
theorem wfp_map_arenas (f f2 : Flow) (hw : FlowWFP f)
    (mV : Variable → Variable) (mO : Operation → Operation)
    (hVid : ∀ v, (mV v).vid = v.vid)
    (hOid : ∀ o, (mO o).oid = o.oid)
    (hOfunc : ∀ o, (mO o).func = o.func)
    (hv2 : f2.vars = f.vars.map mV) (ho2 : f2.ops = f.ops.map mO)
    (hf2 : f2.funcs = f.funcs) (hc2 : f2.cnxs = f.cnxs)
    (hIns : ∀ o ∈ f.ops, ∀ w ∈ (mO o).inputs, (f.findVar w).isSome = true)
    (hOuts : ∀ o ∈ f.ops, ∀ w ∈ (mO o).outputs, (f.findVar w).isSome = true)
    (hOnd : ∀ o ∈ f.ops, (mO o).outputs.Nodup)
    (hCons : ∀ v ∈ f.vars, ∀ c ∈ (mV v).consumers,
      (f.findOp c).isSome = true)
    (hProd : ∀ v ∈ f.vars, ∀ p, (mV v).producer = some p →
      (f.findOp p).isSome = true)
    (hCount : ∀ v ∈ f.vars, ∀ o ∈ f.ops,
      (mV v).consumers.count o.oid = (mO o).inputs.count v.vid)
    (hPIff : ∀ v ∈ f.vars, ∀ o ∈ f.ops,
      ((mV v).producer = some o.oid ↔ v.vid ∈ (mO o).outputs)) :
    FlowWFP f2 := by
  have hfv : ∀ w, f2.findVar w = (f.findVar w).map mV :=
    findVar_eq_map f f2 mV hVid hv2
  have hfo : ∀ w, f2.findOp w = (f.findOp w).map mO :=
    findOp_eq_map f f2 mO hOid ho2
  have hfvS : ∀ w, (f2.findVar w).isSome = (f.findVar w).isSome := by
    intro w
    rw [hfv w]
    cases f.findVar w <;> rfl
  have hfoS : ∀ w, (f2.findOp w).isSome = (f.findOp w).isSome := by
    intro w
    rw [hfo w]
    cases f.findOp w <;> rfl
  refine ⟨?_, ?_, ?_, ?_, ?_, ?_, ?_, ?_, ?_, ?_, ?_, ?_, ?_, ?_⟩
  · rw [hv2, map_key_eq _ mV hVid]
    exact hw.vars_nodup
  · rw [ho2, map_key_eq _ mO hOid]
    exact hw.ops_nodup
  · rw [hf2]
    exact hw.funcs_nodup
  · intro o2 ho2m w hwv
    rw [ho2] at ho2m
    rcases List.mem_map.mp ho2m with ⟨o, hom, rfl⟩
    rw [hfvS w]
    exact hIns o hom w hwv
  · intro o2 ho2m w hwv
    rw [ho2] at ho2m
    rcases List.mem_map.mp ho2m with ⟨o, hom, rfl⟩
    rw [hfvS w]
    exact hOuts o hom w hwv
  · intro o2 ho2m
    rw [ho2] at ho2m
    rcases List.mem_map.mp ho2m with ⟨o, hom, rfl⟩
    exact hOnd o hom
  · intro v2 hv2m c hc
    rw [hv2] at hv2m
    rcases List.mem_map.mp hv2m with ⟨v, hvm, rfl⟩
    rw [hfoS c]
    exact hCons v hvm c hc
  · intro v2 hv2m p hp
    rw [hv2] at hv2m
    rcases List.mem_map.mp hv2m with ⟨v, hvm, rfl⟩
    rw [hfoS p]
    exact hProd v hvm p hp
  · intro v2 hv2m o2 ho2m
    rw [hv2] at hv2m
    rw [ho2] at ho2m
    rcases List.mem_map.mp hv2m with ⟨v, hvm, rfl⟩
    rcases List.mem_map.mp ho2m with ⟨o, hom, rfl⟩
    rw [hOid o, hVid v]
    exact hCount v hvm o hom
  · intro v2 hv2m o2 ho2m
    rw [hv2] at hv2m
    rw [ho2] at ho2m
    rcases List.mem_map.mp hv2m with ⟨v, hvm, rfl⟩
    rcases List.mem_map.mp ho2m with ⟨o, hom, rfl⟩
    rw [hOid o, hVid v]
    exact hPIff v hvm o hom
  · intro o2 ho2m fid hfid
    rw [ho2] at ho2m
    rcases List.mem_map.mp ho2m with ⟨o, hom, rfl⟩
    rw [hOfunc o] at hfid
    obtain ⟨fn, hfn, hfe, hoe⟩ := hw.func_sym o hom fid hfid
    rw [hf2, hOid o]
    exact ⟨fn, hfn, hfe, hoe⟩
  · intro fn hfn oid hoid
    rw [hf2] at hfn
    obtain ⟨o, hfind, hfunc⟩ := hw.func_resolve fn hfn oid hoid
    refine ⟨mO o, ?_, ?_⟩
    · rw [hfo oid, hfind]
      rfl
    · rw [hOfunc o]
      exact hfunc
  · intro fn hfn
    rw [hf2] at hfn
    exact hw.func_ops_nodup fn hfn
  · intro c hc
    rw [hc2] at hc
    exact hw.cnx_nodup c hc

theorem removeInput_wfp (f : Flow) (hw : FlowWFP f) (oid vid : Nat) :
    FlowWFP (removeInput f oid vid) := by
  apply wfp_map_arenas f (removeInput f oid vid) hw
    (fun v => if v.vid = vid then
      { v with consumers := v.consumers.erase oid } else v)
    (fun o => if o.oid = oid then
      { o with inputs := o.inputs.erase vid } else o)
  · intro v
    by_cases h : v.vid = vid <;> simp [h]
  · intro o
    by_cases h : o.oid = oid <;> simp [h]
  · intro o
    by_cases h : o.oid = oid <;> simp [h]
  · rfl
  · rfl
  · rfl
  · rfl
  · intro o hom w hwv
    by_cases h : o.oid = oid
    · rw [if_pos h] at hwv
      have hwv2 : w ∈ o.inputs.erase vid := hwv
      exact hw.ins_resolve o hom w (List.erase_subset _ _ hwv2)
    · rw [if_neg h] at hwv
      exact hw.ins_resolve o hom w hwv
  · intro o hom w hwv
    by_cases h : o.oid = oid
    · rw [if_pos h] at hwv
      exact hw.outs_resolve o hom w hwv
    · rw [if_neg h] at hwv
      exact hw.outs_resolve o hom w hwv
  · intro o hom
    by_cases h : o.oid = oid
    · rw [if_pos h]
      exact hw.outs_nodup o hom
    · rw [if_neg h]
      exact hw.outs_nodup o hom
  · intro v hv c hc
    by_cases h : v.vid = vid
    · rw [if_pos h] at hc
      have hc2 : c ∈ v.consumers.erase oid := hc
      exact hw.cons_resolve v hv c (List.erase_subset _ _ hc2)
    · rw [if_neg h] at hc
      exact hw.cons_resolve v hv c hc
  · intro v hv p hp
    by_cases h : v.vid = vid
    · rw [if_pos h] at hp
      exact hw.prod_resolve v hv p hp
    · rw [if_neg h] at hp
      exact hw.prod_resolve v hv p hp
  · intro v hv o ho
    by_cases hvv : v.vid = vid <;> by_cases hoo : o.oid = oid
    · rw [if_pos hvv, if_pos hoo]
      show (v.consumers.erase oid).count o.oid = (o.inputs.erase vid).count v.vid
      rw [hvv, hoo, List.count_erase_self, List.count_erase_self]
      have hcs := hw.count_sym v hv o ho
      rw [hvv, hoo] at hcs
      omega
    · rw [if_pos hvv, if_neg hoo]
      show (v.consumers.erase oid).count o.oid = o.inputs.count v.vid
      rw [List.count_erase_of_ne hoo]
      exact hw.count_sym v hv o ho
    · rw [if_neg hvv, if_pos hoo]
      show v.consumers.count o.oid = (o.inputs.erase vid).count v.vid
      rw [List.count_erase_of_ne hvv]
      exact hw.count_sym v hv o ho
    · rw [if_neg hvv, if_neg hoo]
      exact hw.count_sym v hv o ho
  · intro v hv o ho
    by_cases hvv : v.vid = vid <;> by_cases hoo : o.oid = oid
    · rw [if_pos hvv, if_pos hoo]
      exact hw.prod_iff v hv o ho
    · rw [if_pos hvv, if_neg hoo]
      exact hw.prod_iff v hv o ho
    · rw [if_neg hvv, if_pos hoo]
      exact hw.prod_iff v hv o ho
    · rw [if_neg hvv, if_neg hoo]
      exact hw.prod_iff v hv o ho

theorem removeOutput_wfp (f : Flow) (hw : FlowWFP f) (oid vid : Nat)
    (hpv : producerOf f vid = some oid) :
    FlowWFP (removeOutput f oid vid) := by
  have hvfact : ∀ v ∈ f.vars, v.vid = vid → v.producer = some oid := by
    intro v hv hvv
    have hfind := findVar_of_mem f hw.vars_nodup v hv
    rw [hvv] at hfind
    unfold producerOf at hpv
    rw [hfind] at hpv
    exact hpv
  apply wfp_map_arenas f (removeOutput f oid vid) hw
    (fun v => if v.vid = vid then { v with producer := none } else v)
    (fun o => if o.oid = oid then
      { o with outputs := o.outputs.erase vid } else o)
  · intro v
    by_cases h : v.vid = vid <;> simp [h]
  · intro o
    by_cases h : o.oid = oid <;> simp [h]
  · intro o
    by_cases h : o.oid = oid <;> simp [h]
  · rfl
  · rfl
  · rfl
  · rfl
  · intro o hom w hwv
    by_cases h : o.oid = oid
    · rw [if_pos h] at hwv
      exact hw.ins_resolve o hom w hwv
    · rw [if_neg h] at hwv
      exact hw.ins_resolve o hom w hwv
  · intro o hom w hwv
    by_cases h : o.oid = oid
    · rw [if_pos h] at hwv
      have hwv2 : w ∈ o.outputs.erase vid := hwv
      exact hw.outs_resolve o hom w (List.erase_subset _ _ hwv2)
    · rw [if_neg h] at hwv
      exact hw.outs_resolve o hom w hwv
  · intro o hom
    by_cases h : o.oid = oid
    · rw [if_pos h]
      exact (hw.outs_nodup o hom).erase vid
    · rw [if_neg h]
      exact hw.outs_nodup o hom
  · intro v hv c hc
    by_cases h : v.vid = vid
    · rw [if_pos h] at hc
      exact hw.cons_resolve v hv c hc
    · rw [if_neg h] at hc
      exact hw.cons_resolve v hv c hc
  · intro v hv p hp
    by_cases h : v.vid = vid
    · rw [if_pos h] at hp
      exact absurd hp (by simp)
    · rw [if_neg h] at hp
      exact hw.prod_resolve v hv p hp
  · intro v hv o ho
    by_cases hvv : v.vid = vid <;> by_cases hoo : o.oid = oid
    · rw [if_pos hvv, if_pos hoo]
      exact hw.count_sym v hv o ho
    · rw [if_pos hvv, if_neg hoo]
      exact hw.count_sym v hv o ho
    · rw [if_neg hvv, if_pos hoo]
      exact hw.count_sym v hv o ho
    · rw [if_neg hvv, if_neg hoo]
      exact hw.count_sym v hv o ho
  · intro v hv o ho
    by_cases hvv : v.vid = vid <;> by_cases hoo : o.oid = oid
    · rw [if_pos hvv, if_pos hoo]
      show (none : Option Nat) = some o.oid ↔ v.vid ∈ o.outputs.erase vid
      refine ⟨fun h => absurd h (by simp), fun hm => ?_⟩
      rw [hvv] at hm
      exact absurd hm (List.Nodup.not_mem_erase (hw.outs_nodup o ho))
    · rw [if_pos hvv, if_neg hoo]
      show (none : Option Nat) = some o.oid ↔ v.vid ∈ o.outputs
      refine ⟨fun h => absurd h (by simp), fun hm => ?_⟩
      have hpo := (hw.prod_iff v hv o ho).mpr hm
      rw [hvfact v hv hvv] at hpo
      injection hpo with h2
      exact absurd h2.symm hoo
    · rw [if_neg hvv, if_pos hoo]
      show v.producer = some o.oid ↔ v.vid ∈ o.outputs.erase vid
      rw [List.mem_erase_of_ne hvv]
      exact hw.prod_iff v hv o ho
    · rw [if_neg hvv, if_neg hoo]
      exact hw.prod_iff v hv o ho

theorem replaceFirst_of_not_mem (l : List Nat) (a b : Nat) (h : a ∉ l) :
    replaceFirst l a b = l := by
  induction l with
  | nil => rfl
  | cons x r ih =>
      show (if x = a then b :: r else x :: replaceFirst r a b) = x :: r
      have hxa : ¬x = a := fun hh => h (by rw [← hh]; exact List.mem_cons_self _ _)
      rw [if_neg hxa, ih (fun hm => h (List.mem_cons_of_mem _ hm))]

theorem count_replaceFirst_self (l : List Nat) (a b : Nat) (hab : a ≠ b)
    (h : a ∈ l) : (replaceFirst l a b).count a = l.count a - 1 := by
  induction l with
  | nil => cases h
  | cons y r ih =>
      show (if y = a then b :: r else y :: replaceFirst r a b).count a
        = (y :: r).count a - 1
      by_cases hy : y = a
      · rw [if_pos hy, hy]
        have h1 : (a == b) = false := by simpa using hab
        have h2 : (b == a) = false := by simpa using Ne.symm hab
        simp only [List.count_cons, h1, h2, beq_self_eq_true, if_true,
          Bool.false_eq_true, if_false, Nat.add_zero]
        omega
      · rw [if_neg hy]
        have har : a ∈ r := by
          rcases List.mem_cons.mp h with h1 | h1
          · exact absurd h1.symm hy
          · exact h1
        have hay : a ≠ y := fun hh => hy hh.symm
        have hb1 : (a == y) = false := by simpa using hay
        have hb2 : (y == a) = false := by simpa using hy
        have hpos : 0 < r.count a := List.count_pos_iff.mpr har
        simp only [List.count_cons, hb1, hb2, Bool.false_eq_true, if_false,
          Nat.add_zero]
        rw [ih har]

theorem count_replaceFirst_new (l : List Nat) (a b : Nat) (hab : a ≠ b)
    (h : a ∈ l) : (replaceFirst l a b).count b = l.count b + 1 := by
  induction l with
  | nil => cases h
  | cons y r ih =>
      show (if y = a then b :: r else y :: replaceFirst r a b).count b
        = (y :: r).count b + 1
      by_cases hy : y = a
      · rw [if_pos hy, hy]
        have h1 : (a == b) = false := by simpa using hab
        simp only [List.count_cons, h1, beq_self_eq_true, if_true,
          Bool.false_eq_true, if_false, Nat.add_zero]
      · rw [if_neg hy]
        have har : a ∈ r := by
          rcases List.mem_cons.mp h with h1 | h1
          · exact absurd h1.symm hy
          · exact h1
        simp only [List.count_cons]
        rw [ih har]
        omega

theorem count_replaceFirst_other (l : List Nat) (a b x : Nat) (hxa : x ≠ a)
    (hxb : x ≠ b) : (replaceFirst l a b).count x = l.count x := by
  induction l with
  | nil => rfl
  | cons y r ih =>
      show (if y = a then b :: r else y :: replaceFirst r a b).count x
        = (y :: r).count x
      by_cases hy : y = a
      · rw [if_pos hy, hy]
        have h1 : (b == x) = false := by simpa using Ne.symm hxb
        have h2 : (a == x) = false := by simpa using Ne.symm hxa
        simp only [List.count_cons, h1, h2, Bool.false_eq_true, if_false,
          Nat.add_zero]
      · rw [if_neg hy]
        simp only [List.count_cons]
        rw [ih]

theorem mem_replaceFirst (l : List Nat) (a b x : Nat)
    (h : x ∈ replaceFirst l a b) : x ∈ l ∨ x = b := by
  induction l with
  | nil => cases h
  | cons y r ih =>
      have h2 : x ∈ (if y = a then b :: r else y :: replaceFirst r a b) := h
      by_cases hy : y = a
      · rw [if_pos hy] at h2
        rcases List.mem_cons.mp h2 with rfl | h3
        · exact Or.inr rfl
        · exact Or.inl (List.mem_cons_of_mem _ h3)
      · rw [if_neg hy] at h2
        rcases List.mem_cons.mp h2 with rfl | h3
        · exact Or.inl (List.mem_cons_self _ _)
        · rcases ih h3 with h4 | h4
          · exact Or.inl (List.mem_cons_of_mem _ h4)
          · exact Or.inr h4

theorem moveInput_wfp (f : Flow) (hw : FlowWFP f) (vid fromOid toOid : Nat)
    (hne : fromOid ≠ toOid) (hto : (f.findOp toOid).isSome = true)
    (fo : Operation) (hfo : f.findOp fromOid = some fo)
    (hvin : vid ∈ fo.inputs) :
    FlowWFP (moveInput f vid fromOid toOid) := by
  have hfrom_eq : ∀ o ∈ f.ops, o.oid = fromOid → o = fo := by
    intro o ho hoid
    have h1 := findOp_of_mem f hw.ops_nodup o ho
    rw [hoid, hfo] at h1
    injection h1 with h2
    exact h2.symm
  have hvres : (f.findVar vid).isSome = true :=
    hw.ins_resolve fo (findOp_mem f fromOid fo hfo).1 vid hvin
  have hconsfact : ∀ v ∈ f.vars, v.vid = vid → fromOid ∈ v.consumers := by
    intro v hv hvv
    have hc := hw.count_sym v hv fo (findOp_mem f fromOid fo hfo).1
    rw [(findOp_mem f fromOid fo hfo).2, hvv] at hc
    have hpos : 0 < fo.inputs.count vid := List.count_pos_iff.mpr hvin
    exact List.count_pos_iff.mp (by omega)
  have hnts : ¬toOid = fromOid := fun hh => hne hh.symm
  apply wfp_map_arenas f (moveInput f vid fromOid toOid) hw
    (fun v => if v.vid = vid then
      { v with consumers := replaceFirst v.consumers fromOid toOid } else v)
    (fun o => if o.oid = fromOid then { o with inputs := o.inputs.erase vid }
      else if o.oid = toOid then { o with inputs := o.inputs ++ [vid] } else o)
  · intro v
    by_cases h : v.vid = vid <;> simp [h]
  · intro o
    by_cases h1 : o.oid = fromOid <;> by_cases h2 : o.oid = toOid <;>
      simp [h1, h2, hnts]
  · intro o
    by_cases h1 : o.oid = fromOid <;> by_cases h2 : o.oid = toOid <;>
      simp [h1, h2, hnts]
  · rfl
  · show ((updateOp f fromOid _).ops.map _) = _
    rw [show (updateOp f fromOid
        (fun o => { o with inputs := o.inputs.erase vid })).ops =
      f.ops.map (fun o => if o.oid = fromOid then
        { o with inputs := o.inputs.erase vid } else o) from rfl]
    rw [List.map_map]
    apply List.map_congr_left
    intro o _
    by_cases h1 : o.oid = fromOid
    · have h2 : ¬o.oid = toOid := by
        rw [h1]
        exact hne
      simp [h1, h2, hne]
    · by_cases h2 : o.oid = toOid <;> simp [h1, h2, hnts]
  · rfl
  · rfl
  · intro o hom w hwv
    by_cases h1 : o.oid = fromOid
    · rw [if_pos h1] at hwv
      have hwv2 : w ∈ o.inputs.erase vid := hwv
      exact hw.ins_resolve o hom w (List.erase_subset _ _ hwv2)
    · rw [if_neg h1] at hwv
      by_cases h2 : o.oid = toOid
      · rw [if_pos h2] at hwv
        have hwv2 : w ∈ o.inputs ++ [vid] := hwv
        rcases List.mem_append.mp hwv2 with h3 | h3
        · exact hw.ins_resolve o hom w h3
        · have : w = vid := by simpa using h3
          rw [this]
          exact hvres
      · rw [if_neg h2] at hwv
        exact hw.ins_resolve o hom w hwv
  · intro o hom w hwv
    by_cases h1 : o.oid = fromOid
    · rw [if_pos h1] at hwv
      exact hw.outs_resolve o hom w hwv
    · by_cases h2 : o.oid = toOid
      · rw [if_neg h1, if_pos h2] at hwv
        exact hw.outs_resolve o hom w hwv
      · rw [if_neg h1, if_neg h2] at hwv
        exact hw.outs_resolve o hom w hwv
  · intro o hom
    by_cases h1 : o.oid = fromOid
    · rw [if_pos h1]
      exact hw.outs_nodup o hom
    · by_cases h2 : o.oid = toOid
      · rw [if_neg h1, if_pos h2]
        exact hw.outs_nodup o hom
      · rw [if_neg h1, if_neg h2]
        exact hw.outs_nodup o hom
  · intro v hv c hc
    by_cases h : v.vid = vid
    · rw [if_pos h] at hc
      have hc2 : c ∈ replaceFirst v.consumers fromOid toOid := hc
      rcases mem_replaceFirst _ _ _ _ hc2 with h3 | rfl
      · exact hw.cons_resolve v hv c h3
      · exact hto
    · rw [if_neg h] at hc
      exact hw.cons_resolve v hv c hc
  · intro v hv p hp
    by_cases h : v.vid = vid
    · rw [if_pos h] at hp
      exact hw.prod_resolve v hv p hp
    · rw [if_neg h] at hp
      exact hw.prod_resolve v hv p hp
  · intro v hv o ho
    by_cases hvv : v.vid = vid
    · rw [if_pos hvv]
      have hfc : fromOid ∈ v.consumers := hconsfact v hv hvv
      by_cases h1 : o.oid = fromOid
      · rw [if_pos h1]
        show (replaceFirst v.consumers fromOid toOid).count o.oid =
          (o.inputs.erase vid).count v.vid
        rw [h1, hvv, count_replaceFirst_self _ _ _ hne hfc,
          List.count_erase_self]
        have hcs := hw.count_sym v hv o ho
        rw [h1, hvv] at hcs
        omega
      · by_cases h2 : o.oid = toOid
        · rw [if_neg h1, if_pos h2]
          show (replaceFirst v.consumers fromOid toOid).count o.oid =
            (o.inputs ++ [vid]).count v.vid
          rw [h2, hvv, count_replaceFirst_new _ _ _ hne hfc,
            List.count_append]
          have hcs := hw.count_sym v hv o ho
          rw [h2, hvv] at hcs
          simp only [List.count_singleton, beq_self_eq_true, if_true]
          omega
        · rw [if_neg h1, if_neg h2]
          show (replaceFirst v.consumers fromOid toOid).count o.oid =
            o.inputs.count v.vid
          rw [count_replaceFirst_other _ _ _ _ h1 h2]
          exact hw.count_sym v hv o ho
    · rw [if_neg hvv]
      by_cases h1 : o.oid = fromOid
      · rw [if_pos h1]
        show v.consumers.count o.oid = (o.inputs.erase vid).count v.vid
        rw [List.count_erase_of_ne hvv]
        exact hw.count_sym v hv o ho
      · by_cases h2 : o.oid = toOid
        · rw [if_neg h1, if_pos h2]
          show v.consumers.count o.oid = (o.inputs ++ [vid]).count v.vid
          rw [List.count_append]
          have hz : ([vid] : List Nat).count v.vid = 0 := by
            simp [List.count_singleton, hvv]
          rw [hz]
          rw [Nat.add_zero]
          exact hw.count_sym v hv o ho
        · rw [if_neg h1, if_neg h2]
          exact hw.count_sym v hv o ho
  · intro v hv o ho
    have hmain := hw.prod_iff v hv o ho
    split_ifs <;> exact hmain

theorem moveOutput_wfp (f : Flow) (hw : FlowWFP f) (vid fromOid toOid : Nat)
    (hne : fromOid ≠ toOid)
    (so : Operation) (hfrom : f.findOp fromOid = some so)
    (hvout : vid ∈ so.outputs)
    (to2 : Operation) (hto : f.findOp toOid = some to2)
    (hnotout : vid ∉ to2.outputs) :
    FlowWFP (moveOutput f vid fromOid toOid) := by
  have hnts : ¬toOid = fromOid := fun hh => hne hh.symm
  have hvres : (f.findVar vid).isSome = true :=
    hw.outs_resolve so (findOp_mem f fromOid so hfrom).1 vid hvout
  have hprod_v : ∀ v ∈ f.vars, v.vid = vid → v.producer = some fromOid := by
    intro v hv hvv
    have hiff := hw.prod_iff v hv so (findOp_mem f fromOid so hfrom).1
    rw [(findOp_mem f fromOid so hfrom).2, hvv] at hiff
    exact hiff.mpr hvout
  have hto_eq : ∀ o ∈ f.ops, o.oid = toOid → o = to2 := by
    intro o ho hoid
    have h1 := findOp_of_mem f hw.ops_nodup o ho
    rw [hoid, hto] at h1
    injection h1 with h2
    exact h2.symm
  apply wfp_map_arenas f (moveOutput f vid fromOid toOid) hw
    (fun v => if v.vid = vid then { v with producer := some toOid } else v)
    (fun o => if o.oid = fromOid then
      { o with outputs := o.outputs.erase vid }
      else if o.oid = toOid then
        { o with outputs := o.outputs ++ [vid] } else o)
  · intro v
    by_cases h : v.vid = vid <;> simp [h]
  · intro o
    by_cases h1 : o.oid = fromOid <;> by_cases h2 : o.oid = toOid <;>
      simp [h1, h2, hnts]
  · intro o
    by_cases h1 : o.oid = fromOid <;> by_cases h2 : o.oid = toOid <;>
      simp [h1, h2, hnts]
  · rfl
  · show ((updateOp f fromOid _).ops.map _) = _
    rw [show (updateOp f fromOid
        (fun o => { o with outputs := o.outputs.erase vid })).ops =
      f.ops.map (fun o => if o.oid = fromOid then
        { o with outputs := o.outputs.erase vid } else o) from rfl]
    rw [List.map_map]
    apply List.map_congr_left
    intro o _
    by_cases h1 : o.oid = fromOid
    · have h2 : ¬o.oid = toOid := by
        rw [h1]
        exact hne
      simp [h1, h2, hne]
    · by_cases h2 : o.oid = toOid <;> simp [h1, h2, hnts]
  · rfl
  · rfl
  · intro o hom w hwv
    split_ifs at hwv <;> exact hw.ins_resolve o hom w hwv
  · intro o hom w hwv
    by_cases h1 : o.oid = fromOid
    · rw [if_pos h1] at hwv
      have hwv2 : w ∈ o.outputs.erase vid := hwv
      exact hw.outs_resolve o hom w (List.erase_subset _ _ hwv2)
    · rw [if_neg h1] at hwv
      by_cases h2 : o.oid = toOid
      · rw [if_pos h2] at hwv
        have hwv2 : w ∈ o.outputs ++ [vid] := hwv
        rcases List.mem_append.mp hwv2 with h3 | h3
        · exact hw.outs_resolve o hom w h3
        · have : w = vid := by simpa using h3
          rw [this]
          exact hvres
      · rw [if_neg h2] at hwv
        exact hw.outs_resolve o hom w hwv
  · intro o hom
    by_cases h1 : o.oid = fromOid
    · rw [if_pos h1]
      exact (hw.outs_nodup o hom).erase vid
    · by_cases h2 : o.oid = toOid
      · rw [if_neg h1, if_pos h2]
        show (o.outputs ++ [vid]).Nodup
        apply List.nodup_append.mpr
        refine ⟨hw.outs_nodup o hom, List.nodup_singleton vid, ?_⟩
        intro x hx hxv
        have hxv2 : x = vid := by simpa using hxv
        rw [hxv2] at hx
        rw [hto_eq o hom h2] at hx
        exact hnotout hx
      · rw [if_neg h1, if_neg h2]
        exact hw.outs_nodup o hom
  · intro v hv c hc
    split_ifs at hc <;> exact hw.cons_resolve v hv c hc
  · intro v hv p hp
    by_cases h : v.vid = vid
    · rw [if_pos h] at hp
      have hp2 : (some toOid : Option Nat) = some p := hp
      injection hp2 with h2
      rw [← h2, hto]
      rfl
    · rw [if_neg h] at hp
      exact hw.prod_resolve v hv p hp
  · intro v hv o ho
    have hmain := hw.count_sym v hv o ho
    split_ifs <;> exact hmain
  · intro v hv o ho
    by_cases hvv : v.vid = vid
    · rw [if_pos hvv]
      by_cases h1 : o.oid = fromOid
      · rw [if_pos h1]
        show (some toOid : Option Nat) = some o.oid ↔
          v.vid ∈ o.outputs.erase vid
        constructor
        · intro h
          injection h with h2
          rw [h1] at h2
          exact absurd h2 hnts
        · intro hm
          rw [hvv] at hm
          exact absurd hm (List.Nodup.not_mem_erase (hw.outs_nodup o ho))
      · by_cases h2 : o.oid = toOid
        · rw [if_neg h1, if_pos h2]
          show (some toOid : Option Nat) = some o.oid ↔
            v.vid ∈ o.outputs ++ [vid]
          constructor
          · intro _
            rw [hvv]
            exact List.mem_append_right _ (List.mem_cons_self _ _)
          · intro _
            rw [h2]
        · rw [if_neg h1, if_neg h2]
          show (some toOid : Option Nat) = some o.oid ↔ v.vid ∈ o.outputs
          constructor
          · intro h
            injection h with h3
            exact absurd h3.symm h2
          · intro hm
            have hpo := (hw.prod_iff v hv o ho).mpr hm
            rw [hprod_v v hv hvv] at hpo
            injection hpo with h3
            exact absurd h3.symm h1
    · rw [if_neg hvv]
      by_cases h1 : o.oid = fromOid
      · rw [if_pos h1]
        show v.producer = some o.oid ↔ v.vid ∈ o.outputs.erase vid
        rw [List.mem_erase_of_ne hvv]
        exact hw.prod_iff v hv o ho
      · by_cases h2 : o.oid = toOid
        · rw [if_neg h1, if_pos h2]
          show v.producer = some o.oid ↔ v.vid ∈ o.outputs ++ [vid]
          rw [List.mem_append]
          constructor
          · intro h
            exact Or.inl ((hw.prod_iff v hv o ho).mp h)
          · rintro (hm | hm)
            · exact (hw.prod_iff v hv o ho).mpr hm
            · have : v.vid = vid := by simpa using hm
              exact absurd this hvv
        · rw [if_neg h1, if_neg h2]
          exact hw.prod_iff v hv o ho

theorem wfp_deleteVarCnx (f f2 : Flow) (hw : FlowWFP f) (vid : Nat)
    (hv2 : f2.vars = f.vars.eraseP (fun v => decide (v.vid = vid)))
    (ho2 : f2.ops = f.ops)
    (hf2 : f2.funcs = f.funcs)
    (hc2 : f2.cnxs = f.cnxs.map (fun c => cnxRemoveLink c vid))
    (hnoin : ∀ o ∈ f.ops, vid ∉ o.inputs)
    (hnoout : ∀ o ∈ f.ops, vid ∉ o.outputs) :
    FlowWFP f2 := by
  have hvsub : ∀ v ∈ f2.vars, v ∈ f.vars := by
    intro v hv
    rw [hv2] at hv
    exact (List.eraseP_sublist f.vars).subset hv
  have hfo2 : ∀ w, f2.findOp w = f.findOp w := by
    intro w
    unfold Flow.findOp
    rw [ho2]
  have hfv2 : ∀ w, w ≠ vid → f2.findVar w = f.findVar w := by
    intro w hne
    unfold Flow.findVar
    rw [hv2]
    refine find?_eraseP f.vars _ _ (fun a ha => ?_)
    have hv : a.vid = vid := by simpa using ha
    have : ¬a.vid = w := by
      rw [hv]
      exact fun hh => hne hh.symm
    simp [this]
  refine ⟨?_, ?_, ?_, ?_, ?_, ?_, ?_, ?_, ?_, ?_, ?_, ?_, ?_, ?_⟩
  · rw [hv2]
    exact hw.vars_nodup.sublist ((List.eraseP_sublist f.vars).map _)
  · rw [ho2]
    exact hw.ops_nodup
  · rw [hf2]
    exact hw.funcs_nodup
  · intro o ho w hwv
    rw [ho2] at ho
    have hne : w ≠ vid := fun hh => hnoin o ho (hh ▸ hwv)
    rw [hfv2 w hne]
    exact hw.ins_resolve o ho w hwv
  · intro o ho w hwv
    rw [ho2] at ho
    have hne : w ≠ vid := fun hh => hnoout o ho (hh ▸ hwv)
    rw [hfv2 w hne]
    exact hw.outs_resolve o ho w hwv
  · intro o ho
    rw [ho2] at ho
    exact hw.outs_nodup o ho
  · intro v hv c hc
    rw [hfo2 c]
    exact hw.cons_resolve v (hvsub v hv) c hc
  · intro v hv p hp
    rw [hfo2 p]
    exact hw.prod_resolve v (hvsub v hv) p hp
  · intro v hv o ho
    rw [ho2] at ho
    exact hw.count_sym v (hvsub v hv) o ho
  · intro v hv o ho
    rw [ho2] at ho
    exact hw.prod_iff v (hvsub v hv) o ho
  · intro o ho fid hfid
    rw [ho2] at ho
    rw [hf2]
    exact hw.func_sym o ho fid hfid
  · intro fn hfn oid hoid
    rw [hf2] at hfn
    obtain ⟨o, hfind, hfunc⟩ := hw.func_resolve fn hfn oid hoid
    rw [hfo2 oid]
    exact ⟨o, hfind, hfunc⟩
  · intro fn hfn
    rw [hf2] at hfn
    exact hw.func_ops_nodup fn hfn
  · intro c hc
    rw [hc2] at hc
    rcases List.mem_map.mp hc with ⟨c0, hc0, rfl⟩
    exact (hw.cnx_nodup c0 hc0).erase vid

theorem findOp_deleteOperation_ne (f : Flow) (oid w : Nat) (hne : w ≠ oid) :
    (deleteOperation f oid).findOp w = f.findOp w := by
  unfold Flow.findOp
  rw [ops_deleteOperation]
  refine find?_eraseP f.ops _ _ (fun a ha => ?_)
  have ho : a.oid = oid := by simpa using ha
  have : ¬a.oid = w := by
    rw [ho]
    exact fun hh => hne hh.symm
  simp [this]

theorem findOp_deleteOperation_self (f : Flow) (oid : Nat)
    (hnd : (f.ops.map (fun o => o.oid)).Nodup) :
    (deleteOperation f oid).findOp oid = none := by
  unfold Flow.findOp
  rw [ops_deleteOperation]
  rw [List.find?_eq_none]
  intro o ho
  simpa using eraseP_key_not_mem (fun o => o.oid) f.ops oid hnd o ho

theorem wfp_deleteOperation (f : Flow) (hw : FlowWFP f) (oid : Nat)
    (hnocons : ∀ v ∈ f.vars, oid ∉ v.consumers)
    (hnoprod : ∀ v ∈ f.vars, v.producer ≠ some oid) :
    FlowWFP (deleteOperation f oid) ∧
    (∀ fn ∈ (deleteOperation f oid).funcs, oid ∉ fn.ops) ∧
    (deleteOperation f oid).findOp oid = none := by
  have hopsub : ∀ o ∈ (deleteOperation f oid).ops, o ∈ f.ops := by
    intro o ho
    rw [ops_deleteOperation] at ho
    exact (List.eraseP_sublist f.ops).subset ho
  have hopne : ∀ o ∈ (deleteOperation f oid).ops, o.oid ≠ oid := by
    intro o ho
    rw [ops_deleteOperation] at ho
    exact eraseP_key_not_mem (fun o => o.oid) f.ops oid hw.ops_nodup o ho
  have hnotin_any : ∀ fn ∈ f.funcs, oid ∈ fn.ops →
      ∃ b, f.findOp oid = some b ∧ b.func = some fn.fid := by
    intro fn hfn hmem
    exact hw.func_resolve fn hfn oid hmem
  have hfuncs_fact : ∀ fn2 ∈ (deleteOperation f oid).funcs,
      ∃ fn ∈ f.funcs, fn2.fid = fn.fid ∧ fn2.ops.Nodup ∧ oid ∉ fn2.ops ∧
        (∀ x ∈ fn2.ops, x ∈ fn.ops) ∧
        (∀ x ∈ fn.ops, x ≠ oid → x ∈ fn2.ops) := by
    intro fn2 hfn2
    have hfn2b : fn2 ∈ funcsDeleteOp f oid := hfn2
    unfold funcsDeleteOp at hfn2b
    cases hb : f.findOp oid with
    | none =>
        rw [hb] at hfn2b
        refine ⟨fn2, hfn2b, rfl, hw.func_ops_nodup fn2 hfn2b, ?_,
          fun x hx => hx, fun x hx _ => hx⟩
        intro hmem
        obtain ⟨b, hfind, _⟩ := hnotin_any fn2 hfn2b hmem
        rw [hb] at hfind
        cases hfind
    | some b =>
        rw [hb] at hfn2b
        dsimp only at hfn2b
        cases hbf : b.func with
        | none =>
            rw [hbf] at hfn2b
            dsimp only at hfn2b
            refine ⟨fn2, hfn2b, rfl, hw.func_ops_nodup fn2 hfn2b, ?_,
              fun x hx => hx, fun x hx _ => hx⟩
            intro hmem
            obtain ⟨b2, hfind, hfunc⟩ := hnotin_any fn2 hfn2b hmem
            rw [hb] at hfind
            injection hfind with hb2
            rw [← hb2, hbf] at hfunc
            cases hfunc
        | some fid =>
            rw [hbf] at hfn2b
            dsimp only at hfn2b
            rcases List.mem_map.mp hfn2b with ⟨fn, hfn, rfl⟩
            by_cases hfid : fn.fid = fid
            · rw [if_pos hfid]
              refine ⟨fn, hfn, rfl, (hw.func_ops_nodup fn hfn).erase oid, ?_,
                ?_, ?_⟩
              · exact List.Nodup.not_mem_erase (hw.func_ops_nodup fn hfn)
              · intro x hx
                exact List.mem_of_mem_erase hx
              · intro x hx hne
                exact (List.mem_erase_of_ne hne).mpr hx
            · rw [if_neg hfid]
              refine ⟨fn, hfn, rfl, hw.func_ops_nodup fn hfn, ?_,
                fun x hx => hx, fun x hx _ => hx⟩
              intro hmem
              obtain ⟨b2, hfind, hfunc⟩ := hnotin_any fn hfn hmem
              rw [hb] at hfind
              injection hfind with hb2
              rw [← hb2, hbf] at hfunc
              injection hfunc with hf2
              exact hfid hf2.symm
  have hfuncs_sur : ∀ fn ∈ f.funcs, ∃ fn2 ∈ (deleteOperation f oid).funcs,
      fn2.fid = fn.fid ∧ (∀ x ∈ fn.ops, x ≠ oid → x ∈ fn2.ops) := by
    intro fn hfn
    show ∃ fn2 ∈ funcsDeleteOp f oid, _
    unfold funcsDeleteOp
    cases hb : f.findOp oid with
    | none => exact ⟨fn, hfn, rfl, fun x hx _ => hx⟩
    | some b =>
        dsimp only
        cases hbf : b.func with
        | none => exact ⟨fn, hfn, rfl, fun x hx _ => hx⟩
        | some fid =>
            dsimp only
            by_cases hfid : fn.fid = fid
            · refine ⟨{ fn with ops := fn.ops.erase oid },
                ?_, rfl, ?_⟩
              · apply List.mem_map.mpr
                refine ⟨fn, hfn, ?_⟩
                rw [if_pos hfid]
              · intro x hx hne
                exact (List.mem_erase_of_ne hne).mpr hx
            · refine ⟨fn, ?_, rfl, fun x hx _ => hx⟩
              apply List.mem_map.mpr
              refine ⟨fn, hfn, ?_⟩
              rw [if_neg hfid]
  have hfid_map : (deleteOperation f oid).funcs.map (fun fn => fn.fid) =
      f.funcs.map (fun fn => fn.fid) := by
    show (funcsDeleteOp f oid).map _ = _
    unfold funcsDeleteOp
    cases hb : f.findOp oid with
    | none => rfl
    | some b =>
        dsimp only
        cases hbf : b.func with
        | none => rfl
        | some fid =>
            dsimp only
            rw [List.map_map]
            apply List.map_congr_left
            intro fn _
            by_cases hfid : fn.fid = fid <;> simp [hfid]
  have hfone : ∀ w, w ≠ oid → (deleteOperation f oid).findOp w = f.findOp w :=
    fun w hne => findOp_deleteOperation_ne f oid w hne
  have hfv : ∀ w, (deleteOperation f oid).findVar w = f.findVar w :=
    fun w => findVar_deleteOperation f oid w
  refine ⟨⟨?_, ?_, ?_, ?_, ?_, ?_, ?_, ?_, ?_, ?_, ?_, ?_, ?_, ?_⟩, ?_, ?_⟩
  · rw [vars_deleteOperation]
    exact hw.vars_nodup
  · rw [ops_deleteOperation]
    exact hw.ops_nodup.sublist ((List.eraseP_sublist f.ops).map _)
  · rw [hfid_map]
    exact hw.funcs_nodup
  · intro o ho w hwv
    rw [hfv w]
    exact hw.ins_resolve o (hopsub o ho) w hwv
  · intro o ho w hwv
    rw [hfv w]
    exact hw.outs_resolve o (hopsub o ho) w hwv
  · intro o ho
    exact hw.outs_nodup o (hopsub o ho)
  · intro v hv c hc
    rw [vars_deleteOperation] at hv
    have hcne : c ≠ oid := fun hh => hnocons v hv (hh ▸ hc)
    rw [hfone c hcne]
    exact hw.cons_resolve v hv c hc
  · intro v hv p hp
    rw [vars_deleteOperation] at hv
    have hpne : p ≠ oid := by
      intro hh
      rw [hh] at hp
      exact hnoprod v hv hp
    rw [hfone p hpne]
    exact hw.prod_resolve v hv p hp
  · intro v hv o ho
    rw [vars_deleteOperation] at hv
    exact hw.count_sym v hv o (hopsub o ho)
  · intro v hv o ho
    rw [vars_deleteOperation] at hv
    exact hw.prod_iff v hv o (hopsub o ho)
  · intro o ho fid hfid
    obtain ⟨fn, hfn, hfe, hmem⟩ := hw.func_sym o (hopsub o ho) fid hfid
    obtain ⟨fn2, hfn2, hfe2, hkeep⟩ := hfuncs_sur fn hfn
    exact ⟨fn2, hfn2, by rw [hfe2, hfe], hkeep o.oid hmem (hopne o ho)⟩
  · intro fn2 hfn2 oid2 hoid2
    obtain ⟨fn, hfn, hfe, _, hnot, hsub, _⟩ := hfuncs_fact fn2 hfn2
    have hne : oid2 ≠ oid := fun hh => hnot (hh ▸ hoid2)
    obtain ⟨o, hfind, hfunc⟩ := hw.func_resolve fn hfn oid2 (hsub oid2 hoid2)
    rw [hfone oid2 hne, hfe]
    exact ⟨o, hfind, hfunc⟩
  · intro fn2 hfn2
    obtain ⟨fn, hfn, _, hnd, _, _, _⟩ := hfuncs_fact fn2 hfn2
    exact hnd
  · intro c hc
    rw [cnxs_deleteOperation] at hc
    exact hw.cnx_nodup c hc
  · intro fn2 hfn2
    obtain ⟨fn, hfn, _, _, hnot, _, _⟩ := hfuncs_fact fn2 hfn2
    exact hnot
  · exact findOp_deleteOperation_self f oid hw.ops_nodup

theorem updateOp_wfp (f : Flow) (hw : FlowWFP f) (oid : Nat)
    (g : Operation → Operation)
    (hgid : ∀ o, (g o).oid = o.oid)
    (hgin : ∀ o, (g o).inputs = o.inputs)
    (hgout : ∀ o, (g o).outputs = o.outputs)
    (hgfunc : ∀ o, (g o).func = o.func) :
    FlowWFP (updateOp f oid g) := by
  apply wfp_map_arenas f (updateOp f oid g) hw (fun v => v)
    (fun o => if o.oid = oid then g o else o)
  · intro v
    rfl
  · intro o
    by_cases h : o.oid = oid <;> simp [h, hgid]
  · intro o
    by_cases h : o.oid = oid <;> simp [h, hgfunc]
  · show f.vars = f.vars.map (fun v => v)
    simp
  · rfl
  · rfl
  · rfl
  · intro o hom w hwv
    split_ifs at hwv with h
    · rw [hgin] at hwv
      exact hw.ins_resolve o hom w hwv
    · exact hw.ins_resolve o hom w hwv
  · intro o hom w hwv
    split_ifs at hwv with h
    · rw [hgout] at hwv
      exact hw.outs_resolve o hom w hwv
    · exact hw.outs_resolve o hom w hwv
  · intro o hom
    split_ifs with h
    · rw [hgout]
      exact hw.outs_nodup o hom
    · exact hw.outs_nodup o hom
  · intro v hv c hc
    exact hw.cons_resolve v hv c hc
  · intro v hv p hp
    exact hw.prod_resolve v hv p hp
  · intro v hv o ho
    split_ifs with h
    · rw [hgin]
      exact hw.count_sym v hv o ho
    · exact hw.count_sym v hv o ho
  · intro v hv o ho
    split_ifs with h
    · rw [hgout]
      exact hw.prod_iff v hv o ho
    · exact hw.prod_iff v hv o ho

theorem findVar_deleteVariable_self (f : Flow) (vid : Nat)
    (hnd : (f.vars.map (fun v => v.vid)).Nodup) :
    (deleteVariable f vid).findVar vid = none := by
  unfold deleteVariable Flow.findVar
  rw [List.find?_eq_none]
  intro v hv
  simpa using eraseP_key_not_mem (fun v => v.vid) f.vars vid hnd v hv

theorem findVar_none_deleteVariable (f : Flow) (vid w : Nat)
    (h : f.findVar w = none) : (deleteVariable f vid).findVar w = none := by
  unfold deleteVariable Flow.findVar
  rw [List.find?_eq_none]
  intro v hv
  exact List.find?_eq_none.mp h v ((List.eraseP_sublist f.vars).subset hv)

theorem removeInput_findOp_self (f : Flow) (oid vid : Nat) :
    (removeInput f oid vid).findOp oid =
      (f.findOp oid).map (fun o => { o with inputs := o.inputs.erase vid }) := by
  unfold removeInput
  dsimp only
  rw [findOp_updateOp_self, findOp_updateVar]
  intro o
  rfl

theorem removeInput_findOp_ne (f : Flow) (oid vid w : Nat) (hne : w ≠ oid) :
    (removeInput f oid vid).findOp w = f.findOp w := by
  unfold removeInput
  dsimp only
  rw [findOp_updateOp_ne _ _ _ _ _ hne, findOp_updateVar]
  intro o
  rfl

theorem removeInput_findVar_self (f : Flow) (oid vid : Nat) :
    (removeInput f oid vid).findVar vid =
      (f.findVar vid).map
        (fun v => { v with consumers := v.consumers.erase oid }) := by
  unfold removeInput
  dsimp only
  rw [findVar_updateOp, findVar_updateVar_self]
  intro v
  rfl

theorem removeInput_findVar_ne (f : Flow) (oid vid w : Nat) (hne : w ≠ vid) :
    (removeInput f oid vid).findVar w = f.findVar w := by
  unfold removeInput
  dsimp only
  rw [findVar_updateOp, findVar_updateVar_ne _ _ _ _ _ hne]
  intro v
  rfl

theorem removeInput_cnxs (f : Flow) (oid vid : Nat) :
    (removeInput f oid vid).cnxs = f.cnxs := rfl

theorem removeOutput_findOp_self (f : Flow) (oid vid : Nat) :
    (removeOutput f oid vid).findOp oid =
      (f.findOp oid).map
        (fun o => { o with outputs := o.outputs.erase vid }) := by
  unfold removeOutput
  dsimp only
  rw [findOp_updateOp_self, findOp_updateVar]
  intro o
  rfl

theorem removeOutput_findOp_ne (f : Flow) (oid vid w : Nat) (hne : w ≠ oid) :
    (removeOutput f oid vid).findOp w = f.findOp w := by
  unfold removeOutput
  dsimp only
  rw [findOp_updateOp_ne _ _ _ _ _ hne, findOp_updateVar]
  intro o
  rfl

theorem removeOutput_findVar_self (f : Flow) (oid vid : Nat) :
    (removeOutput f oid vid).findVar vid =
      (f.findVar vid).map (fun v => { v with producer := none }) := by
  unfold removeOutput
  dsimp only
  rw [findVar_updateOp, findVar_updateVar_self]
  intro v
  rfl

theorem removeOutput_findVar_ne (f : Flow) (oid vid w : Nat) (hne : w ≠ vid) :
    (removeOutput f oid vid).findVar w = f.findVar w := by
  unfold removeOutput
  dsimp only
  rw [findVar_updateOp, findVar_updateVar_ne _ _ _ _ _ hne]
  intro v
  rfl

theorem removeOutput_cnxs (f : Flow) (oid vid : Nat) :
    (removeOutput f oid vid).cnxs = f.cnxs := rfl

theorem moveInput_findOp_from (f : Flow) (vid fromOid toOid : Nat)
    (hne : fromOid ≠ toOid) :
    (moveInput f vid fromOid toOid).findOp fromOid =
      (f.findOp fromOid).map
        (fun o => { o with inputs := o.inputs.erase vid }) := by
  unfold moveInput
  dsimp only
  rw [findOp_updateVar, findOp_updateOp_ne _ _ _ _ _ hne, findOp_updateOp_self]
  all_goals intro x
  all_goals rfl

theorem moveInput_findOp_to (f : Flow) (vid fromOid toOid : Nat)
    (hne : fromOid ≠ toOid) :
    (moveInput f vid fromOid toOid).findOp toOid =
      ((f.findOp toOid).map
        (fun o => { o with inputs := o.inputs ++ [vid] })) := by
  unfold moveInput
  dsimp only
  rw [findOp_updateVar, findOp_updateOp_self,
    findOp_updateOp_ne _ _ _ _ _ (fun hh => hne hh.symm)]
  all_goals intro x
  all_goals rfl

theorem moveInput_findVar_ne (f : Flow) (vid fromOid toOid w : Nat)
    (hne : w ≠ vid) :
    (moveInput f vid fromOid toOid).findVar w = f.findVar w := by
  unfold moveInput
  dsimp only
  rw [findVar_updateVar_ne _ _ _ _ _ hne, findVar_updateOp, findVar_updateOp]
  intro v
  rfl

theorem moveInput_findVar_none (f : Flow) (vid fromOid toOid w : Nat)
    (h : f.findVar w = none) :
    (moveInput f vid fromOid toOid).findVar w = none := by
  by_cases hw : w = vid
  · unfold moveInput
    dsimp only
    rw [hw, findVar_updateVar_self, findVar_updateOp, findVar_updateOp,
      ← hw, h]
    all_goals try intro v
    all_goals rfl
  · rw [moveInput_findVar_ne f vid fromOid toOid w hw]
    exact h

theorem moveInput_cnxs (f : Flow) (vid fromOid toOid : Nat) :
    (moveInput f vid fromOid toOid).cnxs = f.cnxs := rfl

theorem moveOutput_findOp_from (f : Flow) (vid fromOid toOid : Nat)
    (hne : fromOid ≠ toOid) :
    (moveOutput f vid fromOid toOid).findOp fromOid =
      (f.findOp fromOid).map
        (fun o => { o with outputs := o.outputs.erase vid }) := by
  unfold moveOutput
  dsimp only
  rw [findOp_updateVar, findOp_updateOp_ne _ _ _ _ _ hne, findOp_updateOp_self]
  all_goals intro x
  all_goals rfl

theorem moveOutput_findOp_to (f : Flow) (vid fromOid toOid : Nat)
    (hne : fromOid ≠ toOid) :
    (moveOutput f vid fromOid toOid).findOp toOid =
      ((f.findOp toOid).map
        (fun o => { o with outputs := o.outputs ++ [vid] })) := by
  unfold moveOutput
  dsimp only
  rw [findOp_updateVar, findOp_updateOp_self,
    findOp_updateOp_ne _ _ _ _ _ (fun hh => hne hh.symm)]
  all_goals intro x
  all_goals rfl

theorem moveOutput_findVar_self (f : Flow) (vid fromOid toOid : Nat) :
    (moveOutput f vid fromOid toOid).findVar vid =
      (f.findVar vid).map (fun v => { v with producer := some toOid }) := by
  unfold moveOutput
  dsimp only
  rw [findVar_updateVar_self, findVar_updateOp, findVar_updateOp]
  intro v
  rfl

theorem moveOutput_findVar_ne (f : Flow) (vid fromOid toOid w : Nat)
    (hne : w ≠ vid) :
    (moveOutput f vid fromOid toOid).findVar w = f.findVar w := by
  unfold moveOutput
  dsimp only
  rw [findVar_updateVar_ne _ _ _ _ _ hne, findVar_updateOp, findVar_updateOp]
  intro v
  rfl

theorem moveOutput_findVar_none (f : Flow) (vid fromOid toOid w : Nat)
    (h : f.findVar w = none) :
    (moveOutput f vid fromOid toOid).findVar w = none := by
  by_cases hw : w = vid
  · unfold moveOutput
    dsimp only
    rw [hw, findVar_updateVar_self, findVar_updateOp, findVar_updateOp,
      ← hw, h]
    all_goals try intro v
    all_goals rfl
  · rw [moveOutput_findVar_ne f vid fromOid toOid w hw]
    exact h

theorem moveOutput_cnxs (f : Flow) (vid fromOid toOid : Nat) :
    (moveOutput f vid fromOid toOid).cnxs = f.cnxs := rfl

theorem removeInput_findVar_none (f : Flow) (oid vid w : Nat)
    (h : f.findVar w = none) :
    (removeInput f oid vid).findVar w = none := by
  by_cases hw : w = vid
  · rw [hw, removeInput_findVar_self, ← hw, h]
    rfl
  · rw [removeInput_findVar_ne f oid vid w hw]
    exact h

theorem removeOutput_findVar_none (f : Flow) (oid vid w : Nat)
    (h : f.findVar w = none) :
    (removeOutput f oid vid).findVar w = none := by
  by_cases hw : w = vid
  · rw [hw, removeOutput_findVar_self, ← hw, h]
    rfl
  · rw [removeOutput_findVar_ne f oid vid w hw]
    exact h

theorem fuseInputStep_spec (f : Flow) (hw : FlowWFP f)
    (firstOid secondOid : Nat) (mi : Bool) (hne : firstOid ≠ secondOid)
    (first : Operation) (hfirst : f.findOp firstOid = some first)
    (second : Operation) (hsec : f.findOp secondOid = some second)
    (vid : Nat) (rest : List Nat) (hins : second.inputs = vid :: rest) :
    FlowWFP (fuseInputStep f firstOid secondOid mi vid) ∧
    (fuseInputStep f firstOid secondOid mi vid).findOp secondOid =
      some { second with inputs := rest } ∧
    ((fuseInputStep f firstOid secondOid mi vid).findOp firstOid).isSome
      = true ∧
    (∀ vid0,
      ((f.findVar vid0 = none ∧ ∀ c ∈ f.cnxs, vid0 ∉ c.links) →
        ((fuseInputStep f firstOid secondOid mi vid).findVar vid0 = none ∧
          ∀ c ∈ (fuseInputStep f firstOid secondOid mi vid).cnxs,
            vid0 ∉ c.links)) ∧
      (∀ v0, f.findVar vid0 = some v0 → v0.consumers = [secondOid] →
        v0.isOut = false → v0.producer = some firstOid →
        vid0 ∈ second.inputs →
        (((fuseInputStep f firstOid secondOid mi vid).findVar vid0 = none ∧
          ∀ c ∈ (fuseInputStep f firstOid secondOid mi vid).cnxs,
            vid0 ∉ c.links) ∨
        (∃ v1, (fuseInputStep f firstOid secondOid mi vid).findVar vid0 =
            some v1 ∧ v1.consumers = [secondOid] ∧ v1.isOut = false ∧
            v1.producer = some firstOid ∧ vid0 ∈ rest)))) := by
  have hne2 : secondOid ≠ firstOid := fun hh => hne hh.symm
  have hsecmem := findOp_mem f secondOid second hsec
  have hfirstmem := findOp_mem f firstOid first hfirst
  have hvidin : vid ∈ second.inputs := by
    rw [hins]
    exact List.mem_cons_self _ _
  rcases Option.isSome_iff_exists.mp
    (hw.ins_resolve second hsecmem.1 vid hvidin) with ⟨vOrig, hvOrig⟩
  have hvOmem := findVar_mem f vid vOrig hvOrig
  have hsec_erase : second.inputs.erase vid = rest := by
    rw [hins]
    exact List.erase_cons_head _ _
  have hkey : (removeInput f secondOid vid).findOp secondOid =
      some { second with inputs := rest } := by
    rw [removeInput_findOp_self, hsec]
    show some ({ second with inputs := second.inputs.erase vid } : Operation) =
      some ({ second with inputs := rest } : Operation)
    rw [hsec_erase]
  -- the Live hypothesis pins the variable down to the one found
  have hLiveEq : ∀ v0, f.findVar vid = some v0 → v0 = vOrig := by
    intro v0 h
    rw [hvOrig] at h
    injection h with h2
    exact h2.symm
  by_cases hA : mi = true ∧ vid ∈ first.inputs
  · -- shared input: drop it from the second operation
    have hF : fuseInputStep f firstOid secondOid mi vid =
        removeInput f secondOid vid := by
      unfold fuseInputStep
      rw [hfirst]
      dsimp only
      rw [if_pos hA]
    rw [hF]
    refine ⟨removeInput_wfp f hw secondOid vid, hkey, ?_, ?_⟩
    · rw [removeInput_findOp_ne f secondOid vid firstOid hne, hfirst]
      rfl
    · intro vid0
      constructor
      · rintro ⟨hnone, hlinks⟩
        exact ⟨removeInput_findVar_none f secondOid vid vid0 hnone, hlinks⟩
      · intro v0 hfv0 hcons0 hout0 hprodf hvin0
        by_cases hveq : vid0 = vid
        · -- impossible: the first op would be a consumer of the variable
          rw [hveq] at hfv0
          have hv0e := hLiveEq v0 hfv0
          rw [hv0e] at hcons0
          have hcs := hw.count_sym vOrig hvOmem.1 first hfirstmem.1
          rw [hcons0, hvOmem.2, hfirstmem.2] at hcs
          have hpos : 0 < first.inputs.count vid :=
            List.count_pos_iff.mpr hA.2
          have hmem : firstOid ∈ [secondOid] := List.count_pos_iff.mp (by omega)
          have : firstOid = secondOid := by simpa using hmem
          exact absurd this hne
        · right
          refine ⟨v0, ?_, hcons0, hout0, hprodf, ?_⟩
          · rw [removeInput_findVar_ne f secondOid vid vid0 hveq]
            exact hfv0
          · rw [hins] at hvin0
            rcases List.mem_cons.mp hvin0 with h | h
            · exact absurd h hveq
            · exact h
  · by_cases hB : vid ∈ first.outputs
    · -- input produced by the first op
      have wf1 : FlowWFP (removeInput f secondOid vid) :=
        removeInput_wfp f hw secondOid vid
      have hv1 : (removeInput f secondOid vid).findVar vid =
          some { vOrig with
            consumers := vOrig.consumers.erase secondOid } := by
        rw [removeInput_findVar_self, hvOrig]
        rfl
      have hprodO : vOrig.producer = some firstOid := by
        have hiff := hw.prod_iff vOrig hvOmem.1 first hfirstmem.1
        rw [hfirstmem.2, hvOmem.2] at hiff
        exact hiff.mpr hB
      by_cases hC : vOrig.consumers.erase secondOid = [] ∧ vOrig.isOut = false
      · -- the intermediate variable dies
        have hF : fuseInputStep f firstOid secondOid mi vid =
            { deleteVariable
                (removeOutput (removeInput f secondOid vid) firstOid vid)
                vid with
              cnxs := (deleteVariable
                (removeOutput (removeInput f secondOid vid) firstOid vid)
                vid).cnxs.map (fun c => cnxRemoveLink c vid) } := by
          unfold fuseInputStep
          rw [hfirst]
          dsimp only
          rw [if_neg hA, if_pos hB, hv1]
          dsimp only
          rw [if_pos hC]
        rw [hF]
        have hpv1 : producerOf (removeInput f secondOid vid) vid =
            some firstOid := by
          unfold producerOf
          rw [hv1]
          exact hprodO
        have wf2 : FlowWFP
            (removeOutput (removeInput f secondOid vid) firstOid vid) :=
          removeOutput_wfp _ wf1 firstOid vid hpv1
        have hv2 : (removeOutput (removeInput f secondOid vid) firstOid
            vid).findVar vid =
            some { vOrig with
              consumers := vOrig.consumers.erase secondOid,
              producer := none } := by
          rw [removeOutput_findVar_self, hv1]
          rfl
        have hv2mem := findVar_mem _ vid _ hv2
        have hnoin : ∀ o ∈ (removeOutput (removeInput f secondOid vid)
            firstOid vid).ops, vid ∉ o.inputs := by
          intro o ho hmem
          have hcs := wf2.count_sym _ hv2mem.1 o ho
          have hcons2 : ({ vOrig with
              consumers := vOrig.consumers.erase secondOid,
              producer := none } : Variable).consumers = [] := hC.1
          rw [hcons2, hv2mem.2] at hcs
          have hpos : 0 < o.inputs.count vid := List.count_pos_iff.mpr hmem
          simp at hcs
          omega
        have hnoout : ∀ o ∈ (removeOutput (removeInput f secondOid vid)
            firstOid vid).ops, vid ∉ o.outputs := by
          intro o ho hmem
          have hiff := wf2.prod_iff _ hv2mem.1 o ho
          rw [hv2mem.2] at hiff
          have hx := hiff.mpr hmem
          cases hx
        refine ⟨?_, ?_, ?_, ?_⟩
        · exact wfp_deleteVarCnx _ _ wf2 vid rfl rfl rfl rfl hnoin hnoout
        · show (removeOutput (removeInput f secondOid vid) firstOid
            vid).findOp secondOid = _
          rw [removeOutput_findOp_ne _ _ _ _ hne2]
          exact hkey
        · show ((removeOutput (removeInput f secondOid vid) firstOid
            vid).findOp firstOid).isSome = true
          rw [removeOutput_findOp_self,
            removeInput_findOp_ne f secondOid vid firstOid hne, hfirst]
          rfl
        · intro vid0
          constructor
          · rintro ⟨hnone, hlinks⟩
            constructor
            · show (deleteVariable (removeOutput (removeInput f secondOid
                vid) firstOid vid) vid).findVar vid0 = none
              exact findVar_none_deleteVariable _ _ _
                (removeOutput_findVar_none _ _ _ _
                  (removeInput_findVar_none _ _ _ _ hnone))
            · intro c hc hmem
              have hc2 : c ∈ f.cnxs.map (fun c => cnxRemoveLink c vid) := hc
              rcases List.mem_map.mp hc2 with ⟨c0, hc0, rfl⟩
              have hm2 : vid0 ∈ c0.links :=
                List.mem_of_mem_erase hmem
              exact hlinks c0 hc0 hm2
          · intro v0 hfv0 hcons0 hout0 hprodf hvin0
            by_cases hveq : vid0 = vid
            · left
              rw [hveq]
              constructor
              · show (deleteVariable (removeOutput (removeInput f secondOid
                  vid) firstOid vid) vid).findVar vid = none
                exact findVar_deleteVariable_self _ vid wf2.vars_nodup
              · intro c hc hmem
                have hc2 : c ∈ f.cnxs.map
                    (fun c => cnxRemoveLink c vid) := hc
                rcases List.mem_map.mp hc2 with ⟨c0, hc0, rfl⟩
                exact (List.Nodup.not_mem_erase (hw.cnx_nodup c0 hc0)) hmem
            · right
              refine ⟨v0, ?_, hcons0, hout0, hprodf, ?_⟩
              · show (deleteVariable (removeOutput (removeInput f secondOid
                  vid) firstOid vid) vid).findVar vid0 = some v0
                rw [findVar_deleteVariable_ne _ vid vid0 hveq,
                  removeOutput_findVar_ne _ _ _ _ hveq,
                  removeInput_findVar_ne _ _ _ _ hveq]
                exact hfv0
              · rw [hins] at hvin0
                rcases List.mem_cons.mp hvin0 with h | h
                · exact absurd h hveq
                · exact h
      · -- the intermediate variable survives
        have hF : fuseInputStep f firstOid secondOid mi vid =
            removeInput f secondOid vid := by
          unfold fuseInputStep
          rw [hfirst]
          dsimp only
          rw [if_neg hA, if_pos hB, hv1]
          dsimp only
          rw [if_neg hC]
        rw [hF]
        refine ⟨wf1, hkey, ?_, ?_⟩
        · rw [removeInput_findOp_ne f secondOid vid firstOid hne, hfirst]
          rfl
        · intro vid0
          constructor
          · rintro ⟨hnone, hlinks⟩
            exact ⟨removeInput_findVar_none f secondOid vid vid0 hnone,
              hlinks⟩
          · intro v0 hfv0 hcons0 hout0 hprodf hvin0
            by_cases hveq : vid0 = vid
            · -- impossible: the survival test would have failed
              rw [hveq] at hfv0
              have hv0e := hLiveEq v0 hfv0
              rw [hv0e] at hcons0 hout0
              refine absurd ⟨?_, hout0⟩ hC
              rw [hcons0]
              exact List.erase_cons_head _ _
            · right
              refine ⟨v0, ?_, hcons0, hout0, hprodf, ?_⟩
              · rw [removeInput_findVar_ne f secondOid vid vid0 hveq]
                exact hfv0
              · rw [hins] at hvin0
                rcases List.mem_cons.mp hvin0 with h | h
                · exact absurd h hveq
                · exact h
    · -- additional input: move it to the first op
      have hF : fuseInputStep f firstOid secondOid mi vid =
          moveInput f vid secondOid firstOid := by
        unfold fuseInputStep
        rw [hfirst]
        dsimp only
        rw [if_neg hA, if_neg hB]
      rw [hF]
      refine ⟨?_, ?_, ?_, ?_⟩
      · exact moveInput_wfp f hw vid secondOid firstOid hne2
          (by rw [hfirst]; rfl) second hsec hvidin
      · rw [moveInput_findOp_from f vid secondOid firstOid hne2, hsec]
        show some ({ second with inputs := second.inputs.erase vid } :
            Operation) =
          some ({ second with inputs := rest } : Operation)
        rw [hsec_erase]
      · rw [moveInput_findOp_to f vid secondOid firstOid hne2, hfirst]
        rfl
      · intro vid0
        constructor
        · rintro ⟨hnone, hlinks⟩
          exact ⟨moveInput_findVar_none f vid secondOid firstOid vid0 hnone,
            hlinks⟩
        · intro v0 hfv0 hcons0 hout0 hprodf hvin0
          by_cases hveq : vid0 = vid
          · -- impossible: the producer link would make it an output of first
            rw [hveq] at hfv0
            have hv0e := hLiveEq v0 hfv0
            rw [hv0e] at hprodf
            have hiff := hw.prod_iff vOrig hvOmem.1 first hfirstmem.1
            rw [hfirstmem.2, hvOmem.2] at hiff
            exact absurd (hiff.mp hprodf) hB
          · right
            refine ⟨v0, ?_, hcons0, hout0, hprodf, ?_⟩
            · rw [moveInput_findVar_ne f vid secondOid firstOid vid0 hveq]
              exact hfv0
            · rw [hins] at hvin0
              rcases List.mem_cons.mp hvin0 with h | h
              · exact absurd h hveq
              · exact h

theorem eq_singleton_of_length_one (l : List Nat) (a : Nat)
    (hlen : l.length = 1) (ha : a ∈ l) : l = [a] := by
  cases l with
  | nil => cases ha
  | cons x t =>
      cases t with
      | nil =>
          have : a = x := by simpa using ha
          rw [this]
      | cons y r => simp at hlen

theorem fuseOutputStep_spec (f : Flow) (hw : FlowWFP f)
    (firstOid secondOid : Nat) (hne : firstOid ≠ secondOid)
    (first : Operation) (hfirst : f.findOp firstOid = some first)
    (second : Operation) (hsec : f.findOp secondOid = some second)
    (vid : Nat) (rest : List Nat) (houts : second.outputs = vid :: rest) :
    FlowWFP (fuseOutputStep f firstOid secondOid vid) ∧
    (fuseOutputStep f firstOid secondOid vid).findOp secondOid =
      some { second with outputs := rest } ∧
    ((fuseOutputStep f firstOid secondOid vid).findOp firstOid).isSome
      = true ∧
    (∀ vid0, (f.findVar vid0 = none ∧ ∀ c ∈ f.cnxs, vid0 ∉ c.links) →
      ((fuseOutputStep f firstOid secondOid vid).findVar vid0 = none ∧
        ∀ c ∈ (fuseOutputStep f firstOid secondOid vid).cnxs,
          vid0 ∉ c.links)) := by
  have hne2 : secondOid ≠ firstOid := fun hh => hne hh.symm
  have hsecmem := findOp_mem f secondOid second hsec
  have hfirstmem := findOp_mem f firstOid first hfirst
  have hvidout : vid ∈ second.outputs := by
    rw [houts]
    exact List.mem_cons_self _ _
  rcases Option.isSome_iff_exists.mp
    (hw.outs_resolve second hsecmem.1 vid hvidout) with ⟨vOrig, hvOrig⟩
  have hvOmem := findVar_mem f vid vOrig hvOrig
  have hsec_erase : second.outputs.erase vid = rest := by
    rw [houts]
    exact List.erase_cons_head _ _
  have hprodO : vOrig.producer = some secondOid := by
    have hiff := hw.prod_iff vOrig hvOmem.1 second hsecmem.1
    rw [hsecmem.2, hvOmem.2] at hiff
    exact hiff.mpr hvidout
  have hnotfirstout : vid ∉ first.outputs := by
    intro hmem
    have hiff := hw.prod_iff vOrig hvOmem.1 first hfirstmem.1
    rw [hfirstmem.2, hvOmem.2] at hiff
    have := hiff.mpr hmem
    rw [hprodO] at this
    injection this with h2
    exact hne2 h2
  by_cases hA : vid ∈ first.inputs
  · -- output consumed by the first op
    have hfirstcons : firstOid ∈ vOrig.consumers := by
      have hcs := hw.count_sym vOrig hvOmem.1 first hfirstmem.1
      rw [hvOmem.2, hfirstmem.2] at hcs
      have hpos : 0 < first.inputs.count vid := List.count_pos_iff.mpr hA
      exact List.count_pos_iff.mp (by omega)
    by_cases hC : vOrig.consumers.length = 1 ∧ vOrig.isOut = false
    · -- the intermediate variable dies
      have hconsone : vOrig.consumers = [firstOid] :=
        eq_singleton_of_length_one vOrig.consumers firstOid hC.1 hfirstcons
      have hF : fuseOutputStep f firstOid secondOid vid =
          { deleteVariable
              (removeOutput (removeInput f firstOid vid) secondOid vid)
              vid with
            cnxs := (deleteVariable
              (removeOutput (removeInput f firstOid vid) secondOid vid)
              vid).cnxs.map (fun c => cnxRemoveLink c vid) } := by
        unfold fuseOutputStep
        rw [hfirst]
        dsimp only
        rw [if_pos hA, hvOrig]
        dsimp only
        rw [if_pos hC]
      rw [hF]
      have wf1 : FlowWFP (removeInput f firstOid vid) :=
        removeInput_wfp f hw firstOid vid
      have hpv1 : producerOf (removeInput f firstOid vid) vid =
          some secondOid := by
        unfold producerOf
        rw [removeInput_findVar_self, hvOrig]
        exact hprodO
      have wf2 : FlowWFP
          (removeOutput (removeInput f firstOid vid) secondOid vid) :=
        removeOutput_wfp _ wf1 secondOid vid hpv1
      have hv2 : (removeOutput (removeInput f firstOid vid) secondOid
          vid).findVar vid =
          some { vOrig with
            consumers := vOrig.consumers.erase firstOid,
            producer := none } := by
        rw [removeOutput_findVar_self, removeInput_findVar_self, hvOrig]
        rfl
      have hv2mem := findVar_mem _ vid _ hv2
      have hnoin : ∀ o ∈ (removeOutput (removeInput f firstOid vid)
          secondOid vid).ops, vid ∉ o.inputs := by
        intro o ho hmem
        have hcs := wf2.count_sym _ hv2mem.1 o ho
        have hcons2 : ({ vOrig with
            consumers := vOrig.consumers.erase firstOid,
            producer := none } : Variable).consumers = [] := by
          show vOrig.consumers.erase firstOid = []
          rw [hconsone]
          exact List.erase_cons_head _ _
        rw [hcons2, hv2mem.2] at hcs
        have hpos : 0 < o.inputs.count vid := List.count_pos_iff.mpr hmem
        simp at hcs
        omega
      have hnoout : ∀ o ∈ (removeOutput (removeInput f firstOid vid)
          secondOid vid).ops, vid ∉ o.outputs := by
        intro o ho hmem
        have hiff := wf2.prod_iff _ hv2mem.1 o ho
        rw [hv2mem.2] at hiff
        have hx := hiff.mpr hmem
        cases hx
      refine ⟨?_, ?_, ?_, ?_⟩
      · exact wfp_deleteVarCnx _ _ wf2 vid rfl rfl rfl rfl hnoin hnoout
      · show (removeOutput (removeInput f firstOid vid) secondOid
          vid).findOp secondOid = _
        rw [removeOutput_findOp_self,
          removeInput_findOp_ne f firstOid vid secondOid hne2, hsec]
        show some ({ second with outputs := second.outputs.erase vid } :
            Operation) =
          some ({ second with outputs := rest } : Operation)
        rw [hsec_erase]
      · show ((removeOutput (removeInput f firstOid vid) secondOid
          vid).findOp firstOid).isSome = true
        rw [removeOutput_findOp_ne _ _ _ _ hne, removeInput_findOp_self,
          hfirst]
        rfl
      · rintro vid0 ⟨hnone, hlinks⟩
        constructor
        · show (deleteVariable (removeOutput (removeInput f firstOid
            vid) secondOid vid) vid).findVar vid0 = none
          exact findVar_none_deleteVariable _ _ _
            (removeOutput_findVar_none _ _ _ _
              (removeInput_findVar_none _ _ _ _ hnone))
        · intro c hc hmem
          have hc2 : c ∈ f.cnxs.map (fun c => cnxRemoveLink c vid) := hc
          rcases List.mem_map.mp hc2 with ⟨c0, hc0, rfl⟩
          exact hlinks c0 hc0 (List.mem_of_mem_erase hmem)
    · -- keep the variable: move the output to the first op
      have hF : fuseOutputStep f firstOid secondOid vid =
          moveOutput (removeInput f firstOid vid) vid secondOid firstOid := by
        unfold fuseOutputStep
        rw [hfirst]
        dsimp only
        rw [if_pos hA, hvOrig]
        dsimp only
        rw [if_neg hC]
      rw [hF]
      have wf1 : FlowWFP (removeInput f firstOid vid) :=
        removeInput_wfp f hw firstOid vid
      have hsec1 : (removeInput f firstOid vid).findOp secondOid =
          some second := by
        rw [removeInput_findOp_ne f firstOid vid secondOid hne2]
        exact hsec
      have hfirst1 : (removeInput f firstOid vid).findOp firstOid =
          some { first with inputs := first.inputs.erase vid } := by
        rw [removeInput_findOp_self, hfirst]
        rfl
      refine ⟨?_, ?_, ?_, ?_⟩
      · exact moveOutput_wfp _ wf1 vid secondOid firstOid hne2
          second hsec1 hvidout _ hfirst1 hnotfirstout
      · rw [moveOutput_findOp_from _ vid secondOid firstOid hne2, hsec1]
        show some ({ second with outputs := second.outputs.erase vid } :
            Operation) =
          some ({ second with outputs := rest } : Operation)
        rw [hsec_erase]
      · rw [moveOutput_findOp_to _ vid secondOid firstOid hne2, hfirst1]
        rfl
      · rintro vid0 ⟨hnone, hlinks⟩
        refine ⟨?_, hlinks⟩
        exact moveOutput_findVar_none _ _ _ _ _
          (removeInput_findVar_none _ _ _ _ hnone)
  · by_cases hB : vid ∈ first.outputs
    · exact absurd hB hnotfirstout
    · -- additional output: move it to the first op
      have hF : fuseOutputStep f firstOid secondOid vid =
          moveOutput f vid secondOid firstOid := by
        unfold fuseOutputStep
        rw [hfirst]
        dsimp only
        rw [if_neg hA, if_neg hB]
      rw [hF]
      refine ⟨?_, ?_, ?_, ?_⟩
      · exact moveOutput_wfp f hw vid secondOid firstOid hne2
          second hsec hvidout first hfirst hnotfirstout
      · rw [moveOutput_findOp_from f vid secondOid firstOid hne2, hsec]
        show some ({ second with outputs := second.outputs.erase vid } :
            Operation) =
          some ({ second with outputs := rest } : Operation)
        rw [hsec_erase]
      · rw [moveOutput_findOp_to f vid secondOid firstOid hne2, hfirst]
        rfl
      · rintro vid0 ⟨hnone, hlinks⟩
        exact ⟨moveOutput_findVar_none f vid secondOid firstOid vid0 hnone,
          hlinks⟩

theorem fuseInputsLoop_spec (firstOid secondOid : Nat) (mi : Bool)
    (hne : firstOid ≠ secondOid) (fuel : Nat) :
    ∀ (f : Flow), FlowWFP f →
    ∀ second, f.findOp secondOid = some second →
    second.inputs.length ≤ fuel →
    (f.findOp firstOid).isSome = true →
    FlowWFP (fuseInputsLoop firstOid secondOid mi fuel f) ∧
    (∃ s2, (fuseInputsLoop firstOid secondOid mi fuel f).findOp secondOid =
      some s2 ∧ s2.inputs = []) ∧
    ((fuseInputsLoop firstOid secondOid mi fuel f).findOp firstOid).isSome
      = true ∧
    (∀ vid0, (f.findVar vid0 = none ∧ ∀ c ∈ f.cnxs, vid0 ∉ c.links) →
      ((fuseInputsLoop firstOid secondOid mi fuel f).findVar vid0 = none ∧
        ∀ c ∈ (fuseInputsLoop firstOid secondOid mi fuel f).cnxs,
          vid0 ∉ c.links)) ∧
    (∀ vid0 v0, f.findVar vid0 = some v0 → v0.consumers = [secondOid] →
      v0.isOut = false → v0.producer = some firstOid →
      vid0 ∈ second.inputs →
      ((fuseInputsLoop firstOid secondOid mi fuel f).findVar vid0 = none ∧
        ∀ c ∈ (fuseInputsLoop firstOid secondOid mi fuel f).cnxs,
          vid0 ∉ c.links)) := by
  induction fuel with
  | zero =>
      intro f hw second hsec hlen hfirst
      have hinz : second.inputs = [] :=
        List.eq_nil_of_length_eq_zero (Nat.le_zero.mp hlen)
      refine ⟨hw, ⟨second, hsec, hinz⟩, hfirst, ?_, ?_⟩
      · intro vid0 h
        exact h
      · intro vid0 v0 hv0 hcons hout hprod hmem
        rw [hinz] at hmem
        cases hmem
  | succ n ih =>
      intro f hw second hsec hlen hfirst
      cases hins : second.inputs with
      | nil =>
          have hL : fuseInputsLoop firstOid secondOid mi (n + 1) f = f := by
            simp only [fuseInputsLoop, hsec, hins]
          rw [hL]
          refine ⟨hw, ⟨second, hsec, hins⟩, hfirst, ?_, ?_⟩
          · intro vid0 h
            exact h
          · intro vid0 v0 hv0 hcons hout hprod hmem
            cases hmem
      | cons vid rest =>
          have hL : fuseInputsLoop firstOid secondOid mi (n + 1) f =
              fuseInputsLoop firstOid secondOid mi n
                (fuseInputStep f firstOid secondOid mi vid) := by
            simp only [fuseInputsLoop, hsec, hins]
          rcases Option.isSome_iff_exists.mp hfirst with ⟨first, hfirstEq⟩
          obtain ⟨hw1, hsec1, hfirst1, hclause⟩ :=
            fuseInputStep_spec f hw firstOid secondOid mi hne
              first hfirstEq second hsec vid rest hins
          have hlen1 : ({ second with inputs := rest } :
              Operation).inputs.length ≤ n := by
            show rest.length ≤ n
            rw [hins] at hlen
            simp at hlen
            omega
          obtain ⟨hwL, hexL, hfL, hDelL, hLiveL⟩ :=
            ih (fuseInputStep f firstOid secondOid mi vid) hw1
              { second with inputs := rest } hsec1 hlen1 hfirst1
          rw [hL]
          refine ⟨hwL, hexL, hfL, ?_, ?_⟩
          · intro vid0 hdel
            exact hDelL vid0 ((hclause vid0).1 hdel)
          · intro vid0 v0 hv0 hcons hout hprod hmem
            rw [← hins] at hmem
            rcases (hclause vid0).2 v0 hv0 hcons hout hprod hmem with
              hdel1 | ⟨v1, hv1, hc1, ho1, hp1, hmem1⟩
            · exact hDelL vid0 hdel1
            · exact hLiveL vid0 v1 hv1 hc1 ho1 hp1 hmem1

theorem fuseOutputsLoop_spec (firstOid secondOid : Nat)
    (hne : firstOid ≠ secondOid) (fuel : Nat) :
    ∀ (f : Flow), FlowWFP f →
    ∀ second, f.findOp secondOid = some second →
    second.outputs.length ≤ fuel →
    (f.findOp firstOid).isSome = true →
    FlowWFP (fuseOutputsLoop firstOid secondOid fuel f) ∧
    (∃ s2, (fuseOutputsLoop firstOid secondOid fuel f).findOp secondOid =
      some s2 ∧ s2.outputs = [] ∧ s2.inputs = second.inputs) ∧
    ((fuseOutputsLoop firstOid secondOid fuel f).findOp firstOid).isSome
      = true ∧
    (∀ vid0, (f.findVar vid0 = none ∧ ∀ c ∈ f.cnxs, vid0 ∉ c.links) →
      ((fuseOutputsLoop firstOid secondOid fuel f).findVar vid0 = none ∧
        ∀ c ∈ (fuseOutputsLoop firstOid secondOid fuel f).cnxs,
          vid0 ∉ c.links)) := by
  induction fuel with
  | zero =>
      intro f hw second hsec hlen hfirst
      have houz : second.outputs = [] :=
        List.eq_nil_of_length_eq_zero (Nat.le_zero.mp hlen)
      refine ⟨hw, ⟨second, hsec, houz, rfl⟩, hfirst, ?_⟩
      intro vid0 h
      exact h
  | succ n ih =>
      intro f hw second hsec hlen hfirst
      cases houts : second.outputs with
      | nil =>
          have hL : fuseOutputsLoop firstOid secondOid (n + 1) f = f := by
            simp only [fuseOutputsLoop, hsec, houts]
          rw [hL]
          refine ⟨hw, ⟨second, hsec, houts, rfl⟩, hfirst, ?_⟩
          intro vid0 h
          exact h
      | cons vid rest =>
          have hL : fuseOutputsLoop firstOid secondOid (n + 1) f =
              fuseOutputsLoop firstOid secondOid n
                (fuseOutputStep f firstOid secondOid vid) := by
            simp only [fuseOutputsLoop, hsec, houts]
          rcases Option.isSome_iff_exists.mp hfirst with ⟨first, hfirstEq⟩
          obtain ⟨hw1, hsec1, hfirst1, hDel1⟩ :=
            fuseOutputStep_spec f hw firstOid secondOid hne
              first hfirstEq second hsec vid rest houts
          have hlen1 : ({ second with outputs := rest } :
              Operation).outputs.length ≤ n := by
            show rest.length ≤ n
            rw [houts] at hlen
            simp at hlen
            omega
          obtain ⟨hwL, ⟨s2, hs2, hs2out, hs2in⟩, hfL, hDelL⟩ :=
            ih (fuseOutputStep f firstOid secondOid vid) hw1
              { second with outputs := rest } hsec1 hlen1 hfirst1
          rw [hL]
          refine ⟨hwL, ⟨s2, hs2, hs2out, hs2in⟩, hfL, ?_⟩
          intro vid0 hdel
          exact hDelL vid0 (hDel1 vid0 hdel)

theorem wfp_isConsistent (f : Flow) (hw : FlowWFP f) :
    isConsistent f = true := by
  unfold isConsistent
  simp only [Bool.and_eq_true, List.all_eq_true]
  refine ⟨⟨?_, ?_⟩, ?_⟩
  · intro o ho
    constructor
    · intro vid hvid
      rcases Option.isSome_iff_exists.mp
        (hw.ins_resolve o ho vid hvid) with ⟨v, hv⟩
      rw [hv]
      dsimp only
      have hvm := findVar_mem f vid v hv
      have hc := hw.count_sym v hvm.1 o ho
      rw [hvm.2] at hc
      have hpos : 0 < o.inputs.count vid := List.count_pos_iff.mpr hvid
      have hmem : o.oid ∈ v.consumers := List.count_pos_iff.mp (by omega)
      rw [contains_iff]
      exact decide_eq_true hmem
    · intro vid hvid
      rcases Option.isSome_iff_exists.mp
        (hw.outs_resolve o ho vid hvid) with ⟨v, hv⟩
      rw [hv]
      dsimp only
      have hvm := findVar_mem f vid v hv
      have hiff := hw.prod_iff v hvm.1 o ho
      rw [hvm.2] at hiff
      rw [hiff.mpr hvid]
      exact beq_self_eq_true _
  · intro v hv
    constructor
    · cases hp : v.producer with
      | none => rfl
      | some p =>
          rcases Option.isSome_iff_exists.mp
            (hw.prod_resolve v hv p hp) with ⟨o, ho⟩
          dsimp only
          rw [ho]
          dsimp only
          have hom := findOp_mem f p o ho
          have hiff := hw.prod_iff v hv o hom.1
          rw [hom.2] at hiff
          rw [contains_iff]
          exact decide_eq_true (hiff.mp hp)
    · intro c hc
      rcases Option.isSome_iff_exists.mp
        (hw.cons_resolve v hv c hc) with ⟨o, ho⟩
      rw [ho]
      dsimp only
      have hom := findOp_mem f c o ho
      have hcnt := hw.count_sym v hv o hom.1
      rw [hom.2] at hcnt
      have hpos : 0 < v.consumers.count c := List.count_pos_iff.mpr hc
      have hmem : v.vid ∈ o.inputs := List.count_pos_iff.mp (by omega)
      rw [contains_iff]
      exact decide_eq_true hmem
  · intro fn hfn oid hoid
    rcases hw.func_resolve fn hfn oid hoid with ⟨o, ho, hfunc⟩
    rw [ho]
    dsimp only
    rw [hfunc]
    exact beq_self_eq_true _

/-- C4: for every structurally consistent flow and distinct operations
`a` (firstOid) and `b` (secondOid) present in it, after
`Fuse(a, b, combined, merge_inputs)` the flow is still structurally
consistent and passes `IsConsistent`; the operation `b` is deleted and no
remaining operation, variable (producer pointer or consumer list) or
function references `b`; and an intermediate variable that was an output
of `a` and whose only consumption was a single input of `b`, not marked
as a graph output, is deleted and removed from every connector. -/
theorem c4_fuse_consistent (f : Flow) (hwf : flowWF f = true)
    (firstOid secondOid : Nat) (hne : firstOid ≠ secondOid)
    (combined : Str) (mi : Bool)
    (hfirst : (f.findOp firstOid).isSome = true)
    (hsecond : (f.findOp secondOid).isSome = true) :
    flowWF (fuse f firstOid secondOid combined mi) = true ∧
    isConsistent (fuse f firstOid secondOid combined mi) = true ∧
    (fuse f firstOid secondOid combined mi).findOp secondOid = none ∧
    (∀ o ∈ (fuse f firstOid secondOid combined mi).ops,
      o.oid ≠ secondOid) ∧
    (∀ v ∈ (fuse f firstOid secondOid combined mi).vars,
      v.producer ≠ some secondOid ∧ secondOid ∉ v.consumers) ∧
    (∀ fn ∈ (fuse f firstOid secondOid combined mi).funcs,
      secondOid ∉ fn.ops) ∧
    (∀ vid v, f.findVar vid = some v → v.producer = some firstOid →
      v.consumers = [secondOid] → v.isOut = false →
      ((fuse f firstOid secondOid combined mi).findVar vid = none ∧
        ∀ c ∈ (fuse f firstOid secondOid combined mi).cnxs,
          vid ∉ c.links)) := by
  have hwp : FlowWFP f := (flowWF_iff f).mp hwf
  rcases Option.isSome_iff_exists.mp hsecond with ⟨second, hsecEq⟩
  obtain ⟨hw1, ⟨s1, hs1, hs1in⟩, hf1, hDel1, hLive1⟩ :=
    fuseInputsLoop_spec firstOid secondOid mi hne second.inputs.length f hwp
      second hsecEq (le_refl _) hfirst
  obtain ⟨hw2, ⟨s2, hs2, hs2out, hs2in⟩, hf2, hDel2⟩ :=
    fuseOutputsLoop_spec firstOid secondOid hne s1.outputs.length
      (fuseInputsLoop firstOid secondOid mi second.inputs.length f) hw1
      s1 hs1 (le_refl _) hf1
  have hs2in0 : s2.inputs = [] := by rw [hs2in, hs1in]
  have hw3 : FlowWFP (updateOp
      (fuseOutputsLoop firstOid secondOid s1.outputs.length
        (fuseInputsLoop firstOid secondOid mi second.inputs.length f))
      firstOid
      (fun o => { o with type := combined, attrs := mergeAttrs o.attrs s2.attrs })) :=
    updateOp_wfp _ hw2 firstOid _
      (fun o => rfl) (fun o => rfl) (fun o => rfl) (fun o => rfl)
  have hs2mem := findOp_mem _ secondOid s2 hs2
  have hnocons : ∀ v ∈ (fuseOutputsLoop firstOid secondOid
      s1.outputs.length
      (fuseInputsLoop firstOid secondOid mi second.inputs.length f)).vars,
      secondOid ∉ v.consumers := by
    intro v hv hmem
    have hc := hw2.count_sym v hv s2 hs2mem.1
    rw [hs2mem.2, hs2in0] at hc
    simp at hc
    have hpos := List.count_pos_iff.mpr hmem
    omega
  have hnoprod : ∀ v ∈ (fuseOutputsLoop firstOid secondOid
      s1.outputs.length
      (fuseInputsLoop firstOid secondOid mi second.inputs.length f)).vars,
      v.producer ≠ some secondOid := by
    intro v hv hp
    have hiff := hw2.prod_iff v hv s2 hs2mem.1
    rw [hs2mem.2, hs2out] at hiff
    cases hiff.mp hp
  obtain ⟨hwG, hfnG, hfindG⟩ :=
    wfp_deleteOperation _ hw3 secondOid hnocons hnoprod
  have hg : fuse f firstOid secondOid combined mi =
      deleteOperation
        (updateOp
          (fuseOutputsLoop firstOid secondOid s1.outputs.length
            (fuseInputsLoop firstOid secondOid mi second.inputs.length f))
          firstOid
          (fun o => { o with type := combined, attrs := mergeAttrs o.attrs s2.attrs }))
        secondOid := by
    unfold fuse
    dsimp only
    rw [hsecEq]
    dsimp only
    rw [hs1]
    dsimp only
    rw [hs2]
  rw [hg]
  refine ⟨(flowWF_iff _).mpr hwG, wfp_isConsistent _ hwG, hfindG,
    ?_, ?_, hfnG, ?_⟩
  · intro o ho
    rw [ops_deleteOperation] at ho
    exact eraseP_key_not_mem (fun o => o.oid) _ secondOid hw3.ops_nodup o ho
  · intro v hv
    have hv2 : v ∈ (fuseOutputsLoop firstOid secondOid s1.outputs.length
        (fuseInputsLoop firstOid secondOid mi
          second.inputs.length f)).vars := hv
    exact ⟨hnoprod v hv2, hnocons v hv2⟩
  · intro vid v hfv hprod hcons hout
    have hvm := findVar_mem f vid v hfv
    have hsecmem := findOp_mem f secondOid second hsecEq
    have hc := hwp.count_sym v hvm.1 second hsecmem.1
    rw [hvm.2, hsecmem.2, hcons] at hc
    have hone : ([secondOid] : List Nat).count secondOid = 1 := by simp
    rw [hone] at hc
    have hmem : vid ∈ second.inputs := List.count_pos_iff.mp (by omega)
    have hd1 := hLive1 vid v hfv hcons hout hprod hmem
    have hd2 := hDel2 vid hd1
    exact ⟨hd2.1, fun c hcx => hd2.2 c hcx⟩

/-- The fusion theorem applies to the concrete two-operation flow: both
operations exist, fusing them keeps the flow consistent, deletes the
second operation, and deletes the intermediate variable. -/
theorem c4_fuse_consistent_witness :
    flowWF exFuse = true ∧ (0 : Nat) ≠ 1 ∧
    (exFuse.findOp 0).isSome = true ∧ (exFuse.findOp 1).isSome = true ∧
    isConsistent (fuse exFuse 0 1 (strBytes "MatMulAdd") false) = true ∧
    (fuse exFuse 0 1 (strBytes "MatMulAdd") false).findOp 1 = none ∧
    (fuse exFuse 0 1 (strBytes "MatMulAdd") false).findVar 1 = none := by
  have h := c4_fuse_consistent exFuse (by decide) 0 1 (by decide)
    (strBytes "MatMulAdd") false (by decide) (by decide)
  have hv : exFuse.findVar 1 = some
      { vid := 1, name := strBytes "t", aliases := [], type := 1,
        shape := [2], data := none, size := 0, isIn := false,
        isOut := false, ref := false, producer := some 0,
        consumers := [1] } := by rfl
  refine ⟨by decide, by decide, by decide, by decide, h.2.1, h.2.2.1, ?_⟩
  exact (h.2.2.2.2.2.2 1 _ hv rfl rfl rfl).1

/-- The topological-order theorem applies to the concrete three-stage
chain flow: its invariant holds, the identity rank certifies acyclicity,
and the sorted operation arena is a permutation of the original one. -/
theorem c2_sort_topological_witness :
    flowWF exChain = true ∧ Acyclic exChain ∧
      ((sortFlow exChain).ops.map (fun o => o.oid)).Perm (opIds exChain) :=
  ⟨by decide, ⟨fun oid => oid, by decide⟩,
    (c2_sort_topological exChain (by decide)
      ⟨fun oid => oid, by decide⟩).1⟩

/-!
Round-trip lemmas for the file codec (claim C1).
-/

theorem readBytes_append (b rest : List Nat) :
    readBytes b.length (b ++ rest) = some (b, rest) := by
  unfold readBytes
  rw [if_pos]
  · rw [List.take_left, List.drop_left]
  · simp

theorem readBytes_len (n : Nat) (b rest : List Nat) (h : b.length = n) :
    readBytes n (b ++ rest) = some (b, rest) := by
  subst h
  exact readBytes_append b rest

theorem readInt_encInt (i : Int) (h0 : 0 ≤ i) (h1 : i < 2147483648)
    (rest : List Nat) : readInt (encInt i ++ rest) = some (i, rest) := by
  have hmod : i.emod 4294967296 = i := Int.emod_eq_of_lt h0 (by omega)
  have hlt : i.toNat < 4294967296 := by omega
  have hn31 : i.toNat < 2147483648 := by omega
  have hb : encInt i = [i.toNat % 256, i.toNat / 256 % 256,
      i.toNat / 65536 % 256, i.toNat / 16777216 % 256] := by
    simp only [encInt, hmod]
  have hdec : decodeLE [i.toNat % 256, i.toNat / 256 % 256,
      i.toNat / 65536 % 256, i.toNat / 16777216 % 256] = i.toNat := by
    unfold decodeLE
    simp only [List.foldr]
    omega
  unfold readInt
  rw [hb, readBytes_len 4 _ rest (by simp)]
  dsimp only
  rw [hdec, if_pos hn31, Int.toNat_of_nonneg h0]

theorem readInt_encNat (n : Nat) (h1 : n < 2147483648) (rest : List Nat) :
    readInt (encInt (n : Int) ++ rest) = some ((n : Int), rest) :=
  readInt_encInt (n : Int) (by omega) (by omega) rest

theorem readLong_encLong (n : Nat) (h : n < 18446744073709551616)
    (rest : List Nat) : readLong (encLong n ++ rest) = some (n, rest) := by
  have hdec : decodeLE (encLong n) = n := by
    unfold decodeLE encLong
    simp only [List.foldr]
    omega
  unfold readLong
  rw [readBytes_len 8 _ rest (by simp [encLong])]
  dsimp only
  rw [hdec]

theorem readStr_encStr (s : Str) (h : s.length < 2147483648)
    (rest : List Nat) : readStr (encStr s ++ rest) = some (s, rest) := by
  unfold readStr encStr
  rw [List.append_assoc, readInt_encNat s.length h (s ++ rest)]
  dsimp only
  rw [if_neg (by omega)]
  rw [Int.toNat_natCast]
  exact readBytes_append s rest

theorem readN_enc {α : Type} (rd : List Nat → Option (α × List Nat))
    (en : α → List Nat) (l : List α)
    (hrt : ∀ a ∈ l, ∀ r, rd (en a ++ r) = some (a, r)) :
    ∀ rest, readN rd l.length ((l.map en).flatten ++ rest) =
      some (l, rest) := by
  induction l with
  | nil => intro rest; rfl
  | cons a t ih =>
      intro rest
      show readN rd (t.length + 1) ((en a ++ (t.map en).flatten) ++ rest) =
        some (a :: t, rest)
      unfold readN
      rw [List.append_assoc, hrt a (List.mem_cons_self _ _)]
      dsimp only
      rw [ih (fun b hb r => hrt b (List.mem_cons_of_mem _ hb) r) rest]


theorem attrSet_append_new (acc : Attributes) (n v : Str)
    (h : n ∉ acc.map (fun a => a.name)) :
    attrSet acc n v = acc ++ [⟨n, v⟩] := by
  induction acc with
  | nil => rfl
  | cons a t ih =>
      have h1 : ¬(a.name = n) := fun hh => h (by simp [hh])
      have h2 : n ∉ t.map (fun a => a.name) := fun hh => h (by simp [hh])
      show (if a.name = n then _ else _) = _
      rw [if_neg h1, ih h2]
      rfl

theorem attrFold_nodup (l : List Attribute) :
    ∀ acc, (∀ a ∈ l, a.name ∉ acc.map (fun a => a.name)) →
    ((l.map (fun a => a.name)).Nodup) →
    l.foldl (fun acc a => attrSet acc a.name a.value) acc = acc ++ l := by
  induction l with
  | nil => intro acc _ _; simp
  | cons a t ih =>
      intro acc hnew hnd
      show t.foldl _ (attrSet acc a.name a.value) = acc ++ a :: t
      rw [attrSet_append_new acc a.name a.value
        (hnew a (List.mem_cons_self _ _))]
      have heta : (⟨a.name, a.value⟩ : Attribute) = a := rfl
      rw [heta]
      have hat : a.name ∉ t.map (fun a => a.name) := (List.nodup_cons.mp hnd).1
      rw [ih (acc ++ [a]) ?_ (List.nodup_cons.mp hnd).2]
      · simp
      · intro b hb
        rw [List.map_append]
        intro hmem
        rcases List.mem_append.mp hmem with hl | hr
        · exact hnew b (List.mem_cons_of_mem _ hb) hl
        · have : b.name = a.name := by simpa using hr
          exact hat (this ▸ List.mem_map_of_mem _ hb)

theorem processAttrs_closed (l : List Attribute) (T : Int) :
    ∀ t0 acc,
    (∀ a ∈ l, a.name = strBytes "task" → parseDec a.value = some T) →
    ((∀ a ∈ l, ¬(a.name = strBytes "task")) → T = t0) →
    processAttrs l acc t0 =
      some (l.foldl (fun acc a => attrSet acc a.name a.value) acc, T) := by
  induction l with
  | nil =>
      intro t0 acc h1 h2
      have : T = t0 := h2 (by intro a ha; cases ha)
      rw [this]
      rfl
  | cons a t ih =>
      intro t0 acc h1 h2
      unfold processAttrs
      by_cases ha : a.name = strBytes "task"
      · rw [if_pos ha, h1 a (List.mem_cons_self _ _) ha]
        exact ih T _ (fun b hb hbn => h1 b (List.mem_cons_of_mem _ hb) hbn)
          (fun _ => rfl)
      · rw [if_neg ha]
        exact ih t0 _ (fun b hb hbn => h1 b (List.mem_cons_of_mem _ hb) hbn)
          (fun ht => h2 (by
            intro b hb
            rcases List.mem_cons.mp hb with rfl | hbt
            · exact ha
            · exact ht b hbt))

theorem foldl_addIfNew_nodup (l : List Nat) :
    ∀ acc, (acc ++ l).Nodup → l.foldl addIfNew acc = acc ++ l := by
  induction l with
  | nil => intro acc _; simp
  | cons x t ih =>
      intro acc hnd
      show t.foldl addIfNew (addIfNew acc x) = acc ++ x :: t
      have hx : x ∉ acc := by
        rcases List.nodup_append.mp hnd with ⟨_, _, hdisj⟩
        exact fun hh => hdisj hh (List.mem_cons_self _ _)
      have hstep : addIfNew acc x = acc ++ [x] := by
        unfold addIfNew
        rw [if_neg hx]
      rw [hstep]
      have hnd2 : ((acc ++ [x]) ++ t).Nodup := by
        rw [List.append_assoc]
        simpa using hnd
      rw [ih (acc ++ [x]) hnd2]
      simp

theorem readVarEntry_saveVar (batch : Int) (v : Variable)
    (hc : closedVar v) :
    ∀ (vid : Nat) (rest : List Nat),
    readVarEntry batch vid (saveVar v ++ rest) =
      some ({ varShell v with vid := vid }, rest) := by
  obtain ⟨hname, halen, hal, ht1, ht2, ht3, ht4, htlen, hslen, hdims,
    hsize, hdata⟩ := hc
  intro vid rest
  have hshell : ({ varShell v with vid := vid } : Variable) =
      { vid := vid, name := v.name, aliases := v.aliases, type := v.type,
        shape := v.shape, data := v.data, size := v.size, isIn := false,
        isOut := false, ref := v.ref, producer := none,
        consumers := [] } := rfl
  rw [hshell]
  unfold readVarEntry saveVar
  simp only [List.append_assoc]
  rw [readStr_encStr v.name hname]
  dsimp only
  rw [readInt_encNat v.aliases.length halen]
  dsimp only
  rw [Int.toNat_natCast]
  rw [readN_enc readStr encStr v.aliases
    (fun a ha r => readStr_encStr a (hal a ha) r)]
  dsimp only
  rw [readStr_encStr _ htlen]
  dsimp only
  by_cases href : v.ref = true
  · have hts : (if v.ref then strBytes "&" else []) ++ typeName v.type =
        38 :: typeName v.type := by
      rw [if_pos href]
      rfl
    rw [hts]
    rw [if_neg (List.cons_ne_nil 38 (typeName v.type))]
    have hrefv : decide ((38 :: typeName v.type).headD 0 = 38) = true := by
      simp
    rw [hrefv]
    have hhead : (38 :: typeName v.type).headD 0 = 38 := rfl
    rw [if_pos hhead]
    have hdrop : (38 :: typeName v.type).drop 1 = typeName v.type := rfl
    rw [hdrop, ht3, if_neg ht4]
    dsimp only
    rw [readInt_encNat v.shape.length hslen]
    dsimp only
    rw [Int.toNat_natCast]
    rw [readN_enc readInt encInt v.shape
      (fun d hd r => readInt_encInt d (hdims d hd).1 (hdims d hd).2 r)]
    dsimp only
    have hmap : v.shape.map (fun d => if d = -1 then batch else d) =
        v.shape := by
      have hdd : ∀ d ∈ v.shape,
          (if d = -1 then batch else d) = id d := by
        intro d hd
        have := hdims d hd
        show (if d = -1 then batch else d) = d
        rw [if_neg (by omega)]
      rw [List.map_congr_left hdd, List.map_id]
    rw [hmap]
    rw [readLong_encLong v.size hsize]
    dsimp only
    rcases hdata with ⟨hdn, hs0⟩ | ⟨hds, hlen, hpos⟩
    · rw [hdn]
      dsimp only
      rw [List.nil_append, if_pos hs0, href]
    · obtain ⟨d, hd⟩ := Option.ne_none_iff_exists'.mp hds
      rw [hd] at hlen
      simp only [Option.getD_some] at hlen
      rw [hd]
      dsimp only
      rw [hlen, List.take_length, if_neg (by omega),
        readBytes_append d rest, href]
  · have href2 : v.ref = false := by
      cases hv : v.ref
      · rfl
      · exact absurd hv href
    have hts : (if v.ref then strBytes "&" else []) ++ typeName v.type =
        typeName v.type := by
      rw [href2]
      rfl
    rw [hts]
    rw [if_neg ht1]
    have hrefv : decide ((typeName v.type).headD 0 = 38) = false :=
      decide_eq_false ht2
    rw [hrefv]
    rw [if_neg ht2]
    rw [ht3, if_neg ht4]
    dsimp only
    rw [readInt_encNat v.shape.length hslen]
    dsimp only
    rw [Int.toNat_natCast]
    rw [readN_enc readInt encInt v.shape
      (fun d hd r => readInt_encInt d (hdims d hd).1 (hdims d hd).2 r)]
    dsimp only
    have hmap : v.shape.map (fun d => if d = -1 then batch else d) =
        v.shape := by
      have hdd : ∀ d ∈ v.shape,
          (if d = -1 then batch else d) = id d := by
        intro d hd
        have := hdims d hd
        show (if d = -1 then batch else d) = d
        rw [if_neg (by omega)]
      rw [List.map_congr_left hdd, List.map_id]
    rw [hmap]
    rw [readLong_encLong v.size hsize]
    dsimp only
    rcases hdata with ⟨hdn, hs0⟩ | ⟨hds, hlen, hpos⟩
    · rw [hdn]
      dsimp only
      rw [List.nil_append, if_pos hs0, href2]
    · obtain ⟨d, hd⟩ := Option.ne_none_iff_exists'.mp hds
      rw [hd] at hlen
      simp only [Option.getD_some] at hlen
      rw [hd]
      dsimp only
      rw [hlen, List.take_length, if_neg (by omega),
        readBytes_append d rest, href2]

theorem readVars_save (batch : Int) (l : List Variable)
    (hcv : ∀ v ∈ l, closedVar v) :
    ∀ (vid0 : Nat), l.map (fun v => v.vid) = List.range' vid0 l.length →
    ∀ rest, readVars batch l.length vid0 ((l.map saveVar).flatten ++ rest) =
      some (l.map varShell, rest) := by
  induction l with
  | nil =>
      intro vid0 _ rest
      rfl
  | cons v t ih =>
      intro vid0 hvid rest
      have hrange : List.range' vid0 (t.length + 1) =
          vid0 :: List.range' (vid0 + 1) t.length := rfl
      rw [show (v :: t).length = t.length + 1 from rfl, hrange] at hvid
      have hmap : (v :: t).map (fun v => v.vid) =
          v.vid :: t.map (fun v => v.vid) := rfl
      rw [hmap] at hvid
      injection hvid with hv0 hrest
      show readVars batch (t.length + 1) vid0
        ((saveVar v ++ (t.map saveVar).flatten) ++ rest) =
        some (varShell v :: t.map varShell, rest)
      unfold readVars
      rw [List.append_assoc,
        readVarEntry_saveVar batch v (hcv v (List.mem_cons_self _ _)) vid0]
      dsimp only
      rw [ih (fun w hw => hcv w (List.mem_cons_of_mem _ hw)) (vid0 + 1)
        hrest rest]
      rw [← hv0]
      rfl

theorem resolveLinks_run (vars : List Variable) :
    ∀ (names : List Str) (vids : List Nat),
    List.Forall₂ (fun n vid => lookupVarId vars n = some vid) names vids →
    ∀ acc, resolveLinks vars names acc = some (vids.foldl addIfNew acc) := by
  intro names vids h
  induction h with
  | nil => intro acc; rfl
  | cons hx hrest ih =>
      intro acc
      unfold resolveLinks
      rw [hx]
      exact ih _


theorem lookupVarId_congr : ∀ (vs vs' : List Variable),
    vs.map varSig = vs'.map varSig → ∀ n,
    lookupVarId vs n = lookupVarId vs' n := by
  intro vs
  induction vs with
  | nil =>
      intro vs' h n
      cases vs' with
      | nil => rfl
      | cons b t' => simp at h
  | cons a t ih =>
      intro vs' h n
      cases vs' with
      | nil => simp at h
      | cons b t' =>
          simp only [List.map_cons] at h
          injection h with h1 h2
          simp only [varSig, Prod.mk.injEq] at h1
          obtain ⟨hvid, hname, hali, _⟩ := h1
          cases hpb : decide (b.name = n ∨ n ∈ b.aliases) with
          | true =>
              have hpa : decide (a.name = n ∨ n ∈ a.aliases) = true := by
                rw [hname, hali]
                exact hpb
              unfold lookupVarId
              rw [List.find?_cons, List.find?_cons]
              rw [hpa, hpb]
              dsimp only
              rw [hvid]
          | false =>
              have hpa : decide (a.name = n ∨ n ∈ a.aliases) = false := by
                rw [hname, hali]
                exact hpb
              unfold lookupVarId
              rw [List.find?_cons, List.find?_cons]
              rw [hpa, hpb]
              dsimp only
              exact ih t' h2 n

theorem lookupOpId_congr : ∀ (os os' : List Operation),
    os.map opSig = os'.map opSig → ∀ n,
    lookupOpId os n = lookupOpId os' n := by
  intro os
  induction os with
  | nil =>
      intro os' h n
      cases os' with
      | nil => rfl
      | cons b t' => simp at h
  | cons a t ih =>
      intro os' h n
      cases os' with
      | nil => simp at h
      | cons b t' =>
          simp only [List.map_cons] at h
          injection h with h1 h2
          simp only [opSig, Prod.mk.injEq] at h1
          obtain ⟨hoid, hname⟩ := h1
          cases hpb : decide (b.name = n) with
          | true =>
              have hpa : decide (a.name = n) = true := by
                rw [hname]
                exact hpb
              unfold lookupOpId
              rw [List.find?_cons, List.find?_cons]
              rw [hpa, hpb]
              dsimp only
              rw [hoid]
          | false =>
              have hpa : decide (a.name = n) = false := by
                rw [hname]
                exact hpb
              unfold lookupOpId
              rw [List.find?_cons, List.find?_cons]
              rw [hpa, hpb]
              dsimp only
              exact ih t' h2 n

theorem varNameOf_bound (f : Flow) (hv : ∀ v ∈ f.vars, closedVar v)
    (vid : Nat) : (varNameOf f vid).length < 2147483648 := by
  unfold varNameOf
  cases hfv : f.findVar vid with
  | none => simp
  | some u => exact (hv u (findVar_mem f vid u hfv).1).1

theorem opNameOf_bound (f : Flow) (ho : ∀ o ∈ f.ops, closedOp f o)
    (oid : Nat) : (opNameOf f oid).length < 2147483648 := by
  unfold opNameOf
  cases hfo : f.findOp oid with
  | none => simp
  | some o => exact (ho o (findOp_mem f oid o hfo).1).1

theorem readAttr_enc (a : Attribute) (h1 : a.name.length < 2147483648)
    (h2 : a.value.length < 2147483648) (r : List Nat) :
    readAttr ((encStr a.name ++ encStr a.value) ++ r) = some (a, r) := by
  unfold readAttr
  rw [List.append_assoc, readStr_encStr _ h1]
  dsimp only
  rw [readStr_encStr _ h2]

theorem resolveInputs_run (f : Flow) (oid : Nat) (vids : List Nat)
    (hres : ∀ vid ∈ vids,
      lookupVarId f.vars (varNameOf f vid) = some vid) :
    ∀ vs, vs.map varSig = f.vars.map varSig →
    ∃ vs', resolveInputs oid (vids.map (varNameOf f)) vs =
        some (vs', vids) ∧
      vs'.map varSig = f.vars.map varSig ∧
      vs'.map (fun w => (w.vid, w.producer)) =
        vs.map (fun w => (w.vid, w.producer)) := by
  induction vids with
  | nil =>
      intro vs hs
      exact ⟨vs, rfl, hs, rfl⟩
  | cons vid t ih =>
      intro vs hs
      show ∃ vs', resolveInputs oid
        (varNameOf f vid :: t.map (varNameOf f)) vs = some (vs', vid :: t) ∧ _
      unfold resolveInputs
      rw [lookupVarId_congr vs f.vars hs (varNameOf f vid),
        hres vid (List.mem_cons_self _ _)]
      dsimp only
      have hs1 : (vs.map (fun v => if v.vid = vid then
          { v with consumers := v.consumers ++ [oid] } else v)).map varSig =
          f.vars.map varSig := by
        rw [← hs, List.map_map]
        refine List.map_congr_left ?_
        intro v _
        dsimp only [Function.comp]
        by_cases h : v.vid = vid
        · rw [if_pos h]
          rfl
        · rw [if_neg h]
      obtain ⟨vs', hrun, hsig, hprod⟩ :=
        ih (fun w hw => hres w (List.mem_cons_of_mem _ hw)) _ hs1
      rw [hrun]
      refine ⟨vs', rfl, hsig, ?_⟩
      rw [hprod, List.map_map]
      refine List.map_congr_left ?_
      intro v _
      dsimp only [Function.comp]
      by_cases h : v.vid = vid
      · rw [if_pos h]
      · rw [if_neg h]

theorem resolveOutputs_run (f : Flow)
    (hvnd : (f.vars.map (fun v => v.vid)).Nodup)
    (oid : Nat) (opName : Str) :
    ∀ (vids : List Nat) (A : List Nat) (vs : List Variable),
    (∀ vid ∈ vids, lookupVarId f.vars (varNameOf f vid) = some vid) →
    (∀ vid ∈ vids, opName ∈ varAliasesOf f vid) →
    (A ++ vids).Nodup →
    vs.map varSig = f.vars.map varSig →
    (∀ w ∈ vs, w.producer ≠ none → w.vid ∈ A) →
    ∃ vs', resolveOutputs oid opName (vids.map (varNameOf f)) vs =
        some (vs', vids) ∧
      vs'.map varSig = f.vars.map varSig ∧
      (∀ w ∈ vs', w.producer ≠ none → w.vid ∈ A ++ vids) := by
  intro vids
  induction vids with
  | nil =>
      intro A vs _ _ _ hs hP
      refine ⟨vs, rfl, hs, ?_⟩
      intro w hw hp
      simpa using hP w hw hp
  | cons vid t ih =>
      intro A vs hres halias hnd hs hP
      show ∃ vs', resolveOutputs oid opName
        (varNameOf f vid :: t.map (varNameOf f)) vs = some (vs', vid :: t) ∧ _
      unfold resolveOutputs
      rw [lookupVarId_congr vs f.vars hs (varNameOf f vid),
        hres vid (List.mem_cons_self _ _)]
      dsimp only
      have hvidmap : vs.map (fun v => v.vid) = f.vars.map (fun v => v.vid) := by
        have h' := congrArg (List.map Prod.fst) hs
        rw [List.map_map, List.map_map] at h'
        exact h'
      have hex : ∃ u ∈ f.vars, u.vid = vid := by
        have h0 := hres vid (List.mem_cons_self _ _)
        unfold lookupVarId at h0
        cases hf : f.vars.find? (fun v =>
            decide (v.name = varNameOf f vid ∨ varNameOf f vid ∈ v.aliases)) with
        | none => rw [hf] at h0; cases h0
        | some u =>
            rw [hf] at h0
            injection h0 with h0'
            exact ⟨u, List.mem_of_find?_eq_some hf, h0'⟩
      have hmemv : vid ∈ vs.map (fun v => v.vid) := by
        rw [hvidmap]
        obtain ⟨u, hu, he⟩ := hex
        exact he ▸ List.mem_map_of_mem _ hu
      have hfindsome : (vs.find? (fun v => decide (v.vid = vid))).isSome
          = true := by
        rw [List.find?_isSome]
        obtain ⟨w, hwmem, hwvid⟩ := List.mem_map.mp hmemv
        exact ⟨w, hwmem, by simp [hwvid]⟩
      obtain ⟨w, hwfind⟩ := Option.isSome_iff_exists.mp hfindsome
      rw [hwfind]
      dsimp only
      have hwmem : w ∈ vs := List.mem_of_find?_eq_some hwfind
      have hwvid : w.vid = vid := by simpa using List.find?_some hwfind
      have hA : vid ∉ A := by
        rcases List.nodup_append.mp hnd with ⟨_, _, hdisj⟩
        exact fun hin => hdisj hin (List.mem_cons_self _ _)
      have hwprod : w.producer = none := by
        by_contra hwp
        exact hA (hwvid ▸ hP w hwmem hwp)
      have hcond : ¬(w.producer.isSome = true) := by
        rw [hwprod]
        simp
      rw [if_neg hcond]
      have hsigmem : ∀ w0 ∈ vs, ∃ u ∈ f.vars, varSig u = varSig w0 := by
        intro w0 hw0
        have hmm : varSig w0 ∈ vs.map varSig := List.mem_map_of_mem _ hw0
        rw [hs] at hmm
        obtain ⟨u, hu, he⟩ := List.mem_map.mp hmm
        exact ⟨u, hu, he⟩
      have halias_state : ∀ w0 ∈ vs, w0.vid = vid → opName ∈ w0.aliases := by
        intro w0 hw0 hwv
        obtain ⟨u, hu, he⟩ := hsigmem w0 hw0
        simp only [varSig, Prod.mk.injEq] at he
        obtain ⟨hev, hen, hea, _⟩ := he
        have hu_vid : u.vid = vid := by rw [hev, hwv]
        have hfind : f.findVar vid = some u := by
          have hf0 := findVar_of_mem f hvnd u hu
          rw [hu_vid] at hf0
          exact hf0
        have hal := halias vid (List.mem_cons_self _ _)
        unfold varAliasesOf at hal
        rw [hfind] at hal
        rw [← hea]
        exact hal
      have hs1 : (vs.map (fun w0 => if w0.vid = vid then
          { w0 with producer := some oid, aliases := addAlias w0.aliases opName } else w0)).map varSig =
          f.vars.map varSig := by
        rw [← hs, List.map_map]
        refine List.map_congr_left ?_
        intro w0 hw0
        dsimp only [Function.comp]
        by_cases h : w0.vid = vid
        · rw [if_pos h]
          have hmm := halias_state w0 hw0 h
          have hadd : addAlias w0.aliases opName = w0.aliases := by
            unfold addAlias
            rw [if_pos hmm]
          show varSig { w0 with producer := some oid, aliases := addAlias w0.aliases opName } = varSig w0
          rw [hadd]
          rfl
        · rw [if_neg h]
      have hP1 : ∀ w0 ∈ (vs.map (fun w0 => if w0.vid = vid then
          { w0 with producer := some oid, aliases := addAlias w0.aliases opName } else w0)),
          w0.producer ≠ none → w0.vid ∈ A ++ [vid] := by
        intro w0 hw0 hp
        obtain ⟨w1, hw1, he⟩ := List.mem_map.mp hw0
        by_cases h : w1.vid = vid
        · rw [← he]
          show (if w1.vid = vid then _ else w1).vid ∈ _
          rw [if_pos h]
          show w1.vid ∈ A ++ [vid]
          rw [h]
          exact List.mem_append_right _ (List.mem_singleton_self _)
        · rw [← he]
          show (if w1.vid = vid then _ else w1).vid ∈ _
          rw [if_neg h]
          rw [← he] at hp
          rw [if_neg h] at hp
          exact List.mem_append_left _ (hP w1 hw1 hp)
      have hnd' : ((A ++ [vid]) ++ t).Nodup := by
        rw [List.append_assoc]
        simpa using hnd
      obtain ⟨vs', hrun, hsig', hP'⟩ := ih (A ++ [vid]) _
        (fun w hw => hres w (List.mem_cons_of_mem _ hw))
        (fun w hw => halias w (List.mem_cons_of_mem _ hw)) hnd' hs1 hP1
      rw [hrun]
      dsimp only
      refine ⟨vs', rfl, hsig', ?_⟩
      intro w0 hw0 hp
      have hmm := hP' w0 hw0 hp
      rw [List.append_assoc] at hmm
      simpa using hmm

theorem pno_of_prodmap (A : List Nat) (vs vs' : List Variable)
    (h : vs'.map (fun w => (w.vid, w.producer)) =
      vs.map (fun w => (w.vid, w.producer)))
    (hP : ∀ w ∈ vs, w.producer ≠ none → w.vid ∈ A) :
    ∀ w ∈ vs', w.producer ≠ none → w.vid ∈ A := by
  intro w hw hp
  have hmm : (w.vid, w.producer) ∈
      vs'.map (fun w => (w.vid, w.producer)) := List.mem_map_of_mem _ hw
  rw [h] at hmm
  obtain ⟨w0, hw0, he⟩ := List.mem_map.mp hmm
  simp only [Prod.mk.injEq] at he
  obtain ⟨e1, e2⟩ := he
  rw [← e1]
  refine hP w0 hw0 ?_
  rw [e2]
  exact hp

theorem readOpEntry_save (f : Flow)
    (hvnd : (f.vars.map (fun v => v.vid)).Nodup)
    (hv : ∀ v ∈ f.vars, closedVar v)
    (o : Operation) (hco : closedOp f o) :
    ∀ (oid : Nat) (vs : List Variable) (A : List Nat) (rest : List Nat),
    vs.map varSig = f.vars.map varSig →
    (∀ w ∈ vs, w.producer ≠ none → w.vid ∈ A) →
    (A ++ o.outputs).Nodup →
    ∃ vs', readOpEntry oid vs (saveOp f o ++ rest) =
        some ((vs', { opNoFunc o with oid := oid }), rest) ∧
      vs'.map varSig = f.vars.map varSig ∧
      (∀ w ∈ vs', w.producer ≠ none → w.vid ∈ A ++ o.outputs) := by
  obtain ⟨hnm, hty, hinlen, houtlen, hatlen, hresin, hresout, halias,
    hknd, hattrb, htask1, htask2⟩ := hco
  intro oid vs A rest hs hP hnd
  unfold readOpEntry saveOp
  simp only [List.append_assoc]
  rw [readStr_encStr o.name hnm]
  dsimp only
  rw [readStr_encStr o.type hty]
  dsimp only
  rw [readInt_encNat o.inputs.length hinlen]
  dsimp only
  rw [Int.toNat_natCast]
  have hmapin : o.inputs.map (fun vid => encStr (varNameOf f vid)) =
      (o.inputs.map (varNameOf f)).map encStr := by
    rw [List.map_map]
    rfl
  rw [hmapin,
    show o.inputs.length = (o.inputs.map (varNameOf f)).length from
      (List.length_map _ _).symm,
    readN_enc readStr encStr (o.inputs.map (varNameOf f))
      (fun n hn r => by
        obtain ⟨vid, hvid, he⟩ := List.mem_map.mp hn
        rw [← he]
        exact readStr_encStr _ (varNameOf_bound f hv vid) r)]
  dsimp only
  obtain ⟨vs1, hrun1, hsig1, hprod1⟩ :=
    resolveInputs_run f oid o.inputs hresin vs hs
  rw [hrun1]
  dsimp only
  rw [readInt_encNat o.outputs.length houtlen]
  dsimp only
  rw [Int.toNat_natCast]
  have hmapout : o.outputs.map (fun vid => encStr (varNameOf f vid)) =
      (o.outputs.map (varNameOf f)).map encStr := by
    rw [List.map_map]
    rfl
  rw [hmapout,
    show o.outputs.length = (o.outputs.map (varNameOf f)).length from
      (List.length_map _ _).symm,
    readN_enc readStr encStr (o.outputs.map (varNameOf f))
      (fun n hn r => by
        obtain ⟨vid, hvid, he⟩ := List.mem_map.mp hn
        rw [← he]
        exact readStr_encStr _ (varNameOf_bound f hv vid) r)]
  dsimp only
  have hP1 : ∀ w ∈ vs1, w.producer ≠ none → w.vid ∈ A :=
    pno_of_prodmap A vs vs1 hprod1 hP
  obtain ⟨vs2, hrun2, hsig2, hP2⟩ :=
    resolveOutputs_run f hvnd oid o.name o.outputs A vs1
      hresout halias hnd hsig1 hP1
  rw [hrun2]
  dsimp only
  rw [readInt_encNat o.attrs.length hatlen]
  dsimp only
  rw [Int.toNat_natCast]
  rw [readN_enc readAttr (fun a => encStr a.name ++ encStr a.value) o.attrs
    (fun a ha r => readAttr_enc a (hattrb a ha).1 (hattrb a ha).2 r)]
  dsimp only
  rw [processAttrs_closed o.attrs o.task 0 [] htask1 htask2]
  dsimp only
  rw [attrFold_nodup o.attrs [] (by simp) hknd]
  exact ⟨vs2, rfl, hsig2, hP2⟩

theorem readOps_save (f : Flow)
    (hvnd : (f.vars.map (fun v => v.vid)).Nodup)
    (hv : ∀ v ∈ f.vars, closedVar v) :
    ∀ (l : List Operation), (∀ o ∈ l, closedOp f o) →
    ∀ (oid0 : Nat), l.map (fun o => o.oid) = List.range' oid0 l.length →
    ∀ (A : List Nat) (vs : List Variable) (rest : List Nat),
    vs.map varSig = f.vars.map varSig →
    (∀ w ∈ vs, w.producer ≠ none → w.vid ∈ A) →
    (A ++ l.flatMap (fun o => o.outputs)).Nodup →
    ∃ vs', readOps l.length oid0 vs ((l.map (saveOp f)).flatten ++ rest) =
        some ((vs', l.map opNoFunc), rest) ∧
      vs'.map varSig = f.vars.map varSig := by
  intro l
  induction l with
  | nil =>
      intro _ oid0 _ A vs rest hs _ _
      exact ⟨vs, rfl, hs⟩
  | cons o t ih =>
      intro hcl oid0 hoid A vs rest hs hP hnd
      have hrange : List.range' oid0 (t.length + 1) =
          oid0 :: List.range' (oid0 + 1) t.length := rfl
      rw [show (o :: t).length = t.length + 1 from rfl, hrange] at hoid
      rw [show (o :: t).map (fun o => o.oid) =
        o.oid :: t.map (fun o => o.oid) from rfl] at hoid
      injection hoid with ho0 horest
      have hnd1 : ((A ++ o.outputs) ++ t.flatMap (fun o => o.outputs)).Nodup := by
        rw [List.append_assoc]
        rw [show (o :: t).flatMap (fun o => o.outputs) =
          o.outputs ++ t.flatMap (fun o => o.outputs) from rfl] at hnd
        exact hnd
      have hndh : (A ++ o.outputs).Nodup := (List.nodup_append.mp hnd1).1
      obtain ⟨vs1, hrun, hsig1, hP1⟩ :=
        readOpEntry_save f hvnd hv o (hcl o (List.mem_cons_self _ _))
          oid0 vs A ((t.map (saveOp f)).flatten ++ rest) hs hP hndh
      show ∃ vs', readOps (t.length + 1) oid0 vs
        ((saveOp f o ++ (t.map (saveOp f)).flatten) ++ rest) = _ ∧ _
      unfold readOps
      rw [List.append_assoc, hrun]
      dsimp only
      obtain ⟨vs', hrun', hsig'⟩ :=
        ih (fun p hp => hcl p (List.mem_cons_of_mem _ hp)) (oid0 + 1)
          horest (A ++ o.outputs) vs1 rest hsig1 hP1 hnd1
      rw [hrun']
      refine ⟨vs', ?_, hsig'⟩
      rw [← ho0]
      rfl

theorem opSig_of_opNoFunc (os os' : List Operation)
    (h : os.map opNoFunc = os'.map opNoFunc) :
    os.map opSig = os'.map opSig := by
  have h1 : os.map opSig = (os.map opNoFunc).map opSig := by
    rw [List.map_map]
    exact List.map_congr_left (fun o _ => rfl)
  have h2 : os'.map opSig = (os'.map opNoFunc).map opSig := by
    rw [List.map_map]
    exact List.map_congr_left (fun o _ => rfl)
  rw [h1, h2, h]

theorem resolveFuncOps_run (f : Flow)
    (hond : (f.ops.map (fun o => o.oid)).Nodup) (fid : Nat) :
    ∀ (oids : List Nat) (A : List Nat) (os : List Operation),
    (∀ oid ∈ oids, lookupOpId f.ops (opNameOf f oid) = some oid) →
    (A ++ oids).Nodup →
    os.map opNoFunc = f.ops.map opNoFunc →
    (∀ o ∈ os, o.func ≠ none → o.oid ∈ A) →
    ∃ os', resolveFuncOps fid (oids.map (opNameOf f)) os =
        some (os', oids) ∧
      os'.map opNoFunc = f.ops.map opNoFunc ∧
      (∀ o ∈ os', o.func ≠ none → o.oid ∈ A ++ oids) := by
  intro oids
  induction oids with
  | nil =>
      intro A os _ _ hmap hQ
      refine ⟨os, rfl, hmap, ?_⟩
      intro o ho hf2
      simpa using hQ o ho hf2
  | cons oid t ih =>
      intro A os hres hnd hmap hQ
      show ∃ os', resolveFuncOps fid
        (opNameOf f oid :: t.map (opNameOf f)) os = some (os', oid :: t) ∧ _
      unfold resolveFuncOps
      rw [lookupOpId_congr os f.ops (opSig_of_opNoFunc os f.ops hmap) _,
        hres oid (List.mem_cons_self _ _)]
      dsimp only
      have hoidmap : os.map (fun o => o.oid) = f.ops.map (fun o => o.oid) := by
        have h' := congrArg (List.map (fun p : Operation => p.oid)) hmap
        rw [List.map_map, List.map_map] at h'
        exact h'
      have hex : ∃ u ∈ f.ops, u.oid = oid := by
        have h0 := hres oid (List.mem_cons_self _ _)
        unfold lookupOpId at h0
        cases hf : f.ops.find? (fun o => decide (o.name = opNameOf f oid)) with
        | none => rw [hf] at h0; cases h0
        | some u =>
            rw [hf] at h0
            injection h0 with h0'
            exact ⟨u, List.mem_of_find?_eq_some hf, h0'⟩
      have hmemo : oid ∈ os.map (fun o => o.oid) := by
        rw [hoidmap]
        obtain ⟨u, hu, he⟩ := hex
        exact he ▸ List.mem_map_of_mem _ hu
      have hfindsome : (os.find? (fun o => decide (o.oid = oid))).isSome
          = true := by
        rw [List.find?_isSome]
        obtain ⟨w, hwmem, hwoid⟩ := List.mem_map.mp hmemo
        exact ⟨w, hwmem, by simp [hwoid]⟩
      obtain ⟨w, hwfind⟩ := Option.isSome_iff_exists.mp hfindsome
      rw [hwfind]
      dsimp only
      have hwmem : w ∈ os := List.mem_of_find?_eq_some hwfind
      have hwoid : w.oid = oid := by simpa using List.find?_some hwfind
      have hA : oid ∉ A := by
        rcases List.nodup_append.mp hnd with ⟨_, _, hdisj⟩
        exact fun hin => hdisj hin (List.mem_cons_self _ _)
      have hwf : w.func = none := by
        by_contra hwp
        exact hA (hwoid ▸ hQ w hwmem hwp)
      have hcond : ¬(w.func.isSome = true) := by
        rw [hwf]
        simp
      rw [if_neg hcond]
      have hmap1 : (os.map (fun p => if p.oid = oid then
          { p with func := some fid } else p)).map opNoFunc =
          f.ops.map opNoFunc := by
        rw [← hmap, List.map_map]
        refine List.map_congr_left ?_
        intro p _
        dsimp only [Function.comp]
        by_cases h : p.oid = oid
        · rw [if_pos h]
          rfl
        · rw [if_neg h]
      have hQ1 : ∀ o ∈ (os.map (fun p => if p.oid = oid then
          { p with func := some fid } else p)),
          o.func ≠ none → o.oid ∈ A ++ [oid] := by
        intro o ho hf2
        obtain ⟨p, hp, he⟩ := List.mem_map.mp ho
        by_cases h : p.oid = oid
        · rw [← he]
          show (if p.oid = oid then _ else p).oid ∈ _
          rw [if_pos h]
          show p.oid ∈ A ++ [oid]
          rw [h]
          exact List.mem_append_right _ (List.mem_singleton_self _)
        · rw [← he]
          show (if p.oid = oid then _ else p).oid ∈ _
          rw [if_neg h]
          rw [← he, if_neg h] at hf2
          exact List.mem_append_left _ (hQ p hp hf2)
      have hnd' : ((A ++ [oid]) ++ t).Nodup := by
        rw [List.append_assoc]
        simpa using hnd
      obtain ⟨os', hrun, hmap', hQ'⟩ := ih (A ++ [oid]) _
        (fun w2 hw2 => hres w2 (List.mem_cons_of_mem _ hw2)) hnd' hmap1 hQ1
      rw [hrun]
      dsimp only
      refine ⟨os', rfl, hmap', ?_⟩
      intro o ho hf2
      have hmm := hQ' o ho hf2
      rw [List.append_assoc] at hmm
      simpa using hmm

theorem readFuncEntry_save (f : Flow)
    (hond : (f.ops.map (fun o => o.oid)).Nodup)
    (ho : ∀ o ∈ f.ops, closedOp f o)
    (fn : FlowFunction) (hcf : closedFunc f fn) :
    ∀ (fid : Nat) (os : List Operation) (A : List Nat) (rest : List Nat),
    os.map opNoFunc = f.ops.map opNoFunc →
    (∀ o ∈ os, o.func ≠ none → o.oid ∈ A) →
    (A ++ fn.ops).Nodup →
    ∃ os', readFuncEntry fid os (saveFunc f fn ++ rest) =
        some ((os', { fid := fid, name := fn.name, ops := fn.ops }), rest) ∧
      os'.map opNoFunc = f.ops.map opNoFunc ∧
      (∀ o ∈ os', o.func ≠ none → o.oid ∈ A ++ fn.ops) := by
  obtain ⟨hnm, holen, hres⟩ := hcf
  intro fid os A rest hmap hQ hnd
  unfold readFuncEntry saveFunc
  simp only [List.append_assoc]
  rw [readStr_encStr fn.name hnm]
  dsimp only
  rw [readInt_encNat fn.ops.length holen]
  dsimp only
  rw [Int.toNat_natCast]
  have hmapn : fn.ops.map (fun oid => encStr (opNameOf f oid)) =
      (fn.ops.map (opNameOf f)).map encStr := by
    rw [List.map_map]
    rfl
  rw [hmapn,
    show fn.ops.length = (fn.ops.map (opNameOf f)).length from
      (List.length_map _ _).symm,
    readN_enc readStr encStr (fn.ops.map (opNameOf f))
      (fun n hn r => by
        obtain ⟨oid, hoid, he⟩ := List.mem_map.mp hn
        rw [← he]
        exact readStr_encStr _ (opNameOf_bound f ho oid) r)]
  dsimp only
  obtain ⟨os', hrun, hmap', hQ'⟩ :=
    resolveFuncOps_run f hond fid fn.ops A os hres hnd hmap hQ
  rw [hrun]
  exact ⟨os', rfl, hmap', hQ'⟩

theorem readFuncs_save (f : Flow)
    (hond : (f.ops.map (fun o => o.oid)).Nodup)
    (ho : ∀ o ∈ f.ops, closedOp f o) :
    ∀ (l : List FlowFunction), (∀ fn ∈ l, closedFunc f fn) →
    ∀ (fid0 : Nat), l.map (fun fn => fn.fid) = List.range' fid0 l.length →
    ∀ (A : List Nat) (os : List Operation) (rest : List Nat),
    os.map opNoFunc = f.ops.map opNoFunc →
    (∀ o ∈ os, o.func ≠ none → o.oid ∈ A) →
    (A ++ l.flatMap (fun fn => fn.ops)).Nodup →
    ∃ os', readFuncs l.length fid0 os
        ((l.map (saveFunc f)).flatten ++ rest) = some ((os', l), rest) ∧
      os'.map opNoFunc = f.ops.map opNoFunc := by
  intro l
  induction l with
  | nil =>
      intro _ fid0 _ A os rest hmap _ _
      exact ⟨os, rfl, hmap⟩
  | cons fn t ih =>
      intro hcl fid0 hfid A os rest hmap hQ hnd
      have hrange : List.range' fid0 (t.length + 1) =
          fid0 :: List.range' (fid0 + 1) t.length := rfl
      rw [show (fn :: t).length = t.length + 1 from rfl, hrange] at hfid
      rw [show (fn :: t).map (fun fn => fn.fid) =
        fn.fid :: t.map (fun fn => fn.fid) from rfl] at hfid
      injection hfid with hf0 hfrest
      have hnd1 : ((A ++ fn.ops) ++ t.flatMap (fun fn => fn.ops)).Nodup := by
        rw [List.append_assoc]
        rw [show (fn :: t).flatMap (fun fn => fn.ops) =
          fn.ops ++ t.flatMap (fun fn => fn.ops) from rfl] at hnd
        exact hnd
      have hndh : (A ++ fn.ops).Nodup := (List.nodup_append.mp hnd1).1
      obtain ⟨os1, hrun, hmap1, hQ1⟩ :=
        readFuncEntry_save f hond ho fn (hcl fn (List.mem_cons_self _ _))
          fid0 os A ((t.map (saveFunc f)).flatten ++ rest) hmap hQ hndh
      show ∃ os', readFuncs (t.length + 1) fid0 os
        ((saveFunc f fn ++ (t.map (saveFunc f)).flatten) ++ rest) = _ ∧ _
      unfold readFuncs
      rw [List.append_assoc, hrun]
      dsimp only
      obtain ⟨os', hrun', hmap'⟩ :=
        ih (fun p hp => hcl p (List.mem_cons_of_mem _ hp)) (fid0 + 1)
          hfrest (A ++ fn.ops) os1 rest hmap1 hQ1 hnd1
      rw [hrun']
      refine ⟨os', ?_, hmap'⟩
      rw [← hf0]

theorem forall2_lookup (vars1 : List Variable) (g : Nat → Str) :
    ∀ (l : List Nat), (∀ vid ∈ l, lookupVarId vars1 (g vid) = some vid) →
    List.Forall₂ (fun n vid => lookupVarId vars1 n = some vid) (l.map g) l := by
  intro l
  induction l with
  | nil =>
      intro _
      exact List.Forall₂.nil
  | cons x t ih =>
      intro h
      exact List.Forall₂.cons (h x (List.mem_cons_self _ _))
        (ih (fun y hy => h y (List.mem_cons_of_mem _ hy)))

theorem readCnxEntry_save (f : Flow) (hv : ∀ v ∈ f.vars, closedVar v)
    (c : Connector) (hcc : closedCnx f c) :
    ∀ (vars1 : List Variable) (rest : List Nat),
    vars1.map varSig = f.vars.map varSig →
    readCnxEntry vars1 (saveCnx f c ++ rest) = some (c, rest) := by
  obtain ⟨hnm, hllen, hlnd, hres⟩ := hcc
  intro vars1 rest hs
  show readCnxEntry vars1 (saveCnx f c ++ rest) =
    some (⟨c.name, c.links⟩, rest)
  unfold readCnxEntry saveCnx
  simp only [List.append_assoc]
  rw [readStr_encStr c.name hnm]
  dsimp only
  rw [readInt_encNat c.links.length hllen]
  dsimp only
  rw [Int.toNat_natCast]
  have hmapn : c.links.map (fun vid => encStr (varNameOf f vid)) =
      (c.links.map (varNameOf f)).map encStr := by
    rw [List.map_map]
    rfl
  rw [hmapn,
    show c.links.length = (c.links.map (varNameOf f)).length from
      (List.length_map _ _).symm,
    readN_enc readStr encStr (c.links.map (varNameOf f))
      (fun n hn r => by
        obtain ⟨vid, hvid, he⟩ := List.mem_map.mp hn
        rw [← he]
        exact readStr_encStr _ (varNameOf_bound f hv vid) r)]
  dsimp only
  have hfa : List.Forall₂ (fun n vid => lookupVarId vars1 n = some vid)
      (c.links.map (varNameOf f)) c.links := by
    refine forall2_lookup vars1 (varNameOf f) c.links ?_
    intro vid hvid
    rw [lookupVarId_congr vars1 f.vars hs]
    exact hres vid hvid
  rw [resolveLinks_run vars1 _ _ hfa []]
  dsimp only
  rw [foldl_addIfNew_nodup c.links [] (by simpa using hlnd)]
  rw [List.nil_append]

theorem readCnxs_save (f : Flow) (hv : ∀ v ∈ f.vars, closedVar v)
    (vars1 : List Variable) (hs : vars1.map varSig = f.vars.map varSig) :
    ∀ (l : List Connector), (∀ c ∈ l, closedCnx f c) →
    ∀ rest, readCnxs vars1 l.length ((l.map (saveCnx f)).flatten ++ rest) =
      some (l, rest) := by
  intro l
  induction l with
  | nil =>
      intro _ rest
      rfl
  | cons c t ih =>
      intro hcl rest
      show readCnxs vars1 (t.length + 1)
        ((saveCnx f c ++ (t.map (saveCnx f)).flatten) ++ rest) =
        some (c :: t, rest)
      unfold readCnxs
      rw [List.append_assoc,
        readCnxEntry_save f hv c (hcl c (List.mem_cons_self _ _)) vars1 _ hs]
      dsimp only
      rw [ih (fun d hd => hcl d (List.mem_cons_of_mem _ hd)) rest]

theorem readBlobEntry_save (b : Blob) (hcb : closedBlob b) :
    ∀ rest, readBlobEntry (saveBlob b ++ rest) = some (b, rest) := by
  obtain ⟨hnm, hty, halen, hab, hknd, hsize, hdata⟩ := hcb
  intro rest
  show readBlobEntry (saveBlob b ++ rest) =
    some (⟨b.name, b.type, b.attrs, b.size, b.data⟩, rest)
  unfold readBlobEntry saveBlob
  simp only [List.append_assoc]
  rw [readStr_encStr b.name hnm]
  dsimp only
  rw [readStr_encStr b.type hty]
  dsimp only
  rw [readInt_encNat b.attrs.length halen]
  dsimp only
  rw [Int.toNat_natCast]
  rw [readN_enc readAttr (fun a => encStr a.name ++ encStr a.value) b.attrs
    (fun a ha r => readAttr_enc a (hab a ha).1 (hab a ha).2 r)]
  dsimp only
  rw [attrFold_nodup b.attrs [] (by simp) hknd]
  rw [readLong_encLong b.size hsize]
  dsimp only
  rcases hdata with ⟨hdn, hs0⟩ | ⟨hds, hlen, hpos⟩
  · rw [hdn]
    dsimp only
    rw [if_pos hs0]
    simp only [List.nil_append]
  · obtain ⟨d, hd⟩ := Option.ne_none_iff_exists'.mp hds
    rw [hd] at hlen
    simp only [Option.getD_some] at hlen
    rw [hd]
    dsimp only
    rw [hlen, List.take_length, if_neg (by omega), readBytes_append d rest]
    dsimp only
    simp only [List.nil_append]

theorem readBlobs_save (l : List Blob) (hcl : ∀ b ∈ l, closedBlob b) :
    ∀ rest, readBlobs l.length ((l.map saveBlob).flatten ++ rest) =
      some (l, rest) := by
  induction l with
  | nil =>
      intro rest
      rfl
  | cons b t ih =>
      intro rest
      show readBlobs (t.length + 1)
        ((saveBlob b ++ (t.map saveBlob).flatten) ++ rest) =
        some (b :: t, rest)
      unfold readBlobs
      rw [List.append_assoc,
        readBlobEntry_save b (hcl b (List.mem_cons_self _ _))]
      dsimp only
      rw [ih (fun d hd => hcl d (List.mem_cons_of_mem _ hd)) rest]

theorem opView_of_opNoFunc (os os' : List Operation)
    (h : os.map opNoFunc = os'.map opNoFunc) :
    os.map opView = os'.map opView := by
  have h1 : os.map opView = (os.map opNoFunc).map opView := by
    rw [List.map_map]
    exact List.map_congr_left (fun o _ => rfl)
  have h2 : os'.map opView = (os'.map opNoFunc).map opView := by
    rw [List.map_map]
    exact List.map_congr_left (fun o _ => rfl)
  rw [h1, h2, h]

/-- C1 (amended): Save-then-Read is the identity on the file-visible
structure of every closed flow (positional arena ids, resolvable and
unambiguous names, aliases already carrying producer names, bounded
sizes) at both supported file versions: the reader succeeds and
reproduces the variables (ids, names, aliases, types, shapes, payloads,
sizes, reference flags), the operations (ids, names, type tags, input
and output lists, attributes, task ids), the functions and the
connectors exactly, and the blobs exactly when the version is at least
4 (a version-3 file stores no blobs). -/
theorem c1_roundtrip_amended (f : Flow) (batch : Int) (version : Nat)
    (hc : closedFlow f) (hv3 : 3 ≤ version) (hv4 : version ≤ 4) :
    ∃ g, readFlow batch (saveFlow f version) = some g ∧
      g.vars.map varSig = f.vars.map varSig ∧
      g.ops.map opView = f.ops.map opView ∧
      g.funcs = f.funcs ∧
      g.cnxs = f.cnxs ∧
      g.blobs = (if 4 ≤ version then f.blobs else []) := by
  obtain ⟨hvid, hoid, hfid, hcv, hco, hond_out, hcf, hfnd_ops, hcc, hcb,
    hvlen, holen, hflen, hclen, hblen⟩ := hc
  have hvnd : (f.vars.map (fun v => v.vid)).Nodup := by
    rw [hvid]
    exact List.nodup_range _
  have hond : (f.ops.map (fun o => o.oid)).Nodup := by
    rw [hoid]
    exact List.nodup_range _
  unfold readFlow saveFlow
  simp only [List.append_assoc]
  rw [readInt_encInt kMagic (by decide) (by decide)]
  dsimp only
  rw [if_neg (by simp)]
  rw [readInt_encNat version (by omega)]
  dsimp only
  rw [if_neg (by omega)]
  rw [readInt_encNat f.vars.length hvlen]
  dsimp only
  rw [Int.toNat_natCast]
  rw [readVars_save batch f.vars hcv 0 (by rw [hvid, List.range_eq_range'])]
  dsimp only
  rw [readInt_encNat f.ops.length holen]
  dsimp only
  rw [Int.toNat_natCast]
  have hs0 : (f.vars.map varShell).map varSig = f.vars.map varSig := by
    rw [List.map_map]
    exact List.map_congr_left (fun v _ => rfl)
  have hP0 : ∀ w ∈ f.vars.map varShell, w.producer ≠ none →
      w.vid ∈ ([] : List Nat) := by
    intro w hw hp
    obtain ⟨v, hv2, he⟩ := List.mem_map.mp hw
    rw [← he] at hp
    exact absurd rfl hp
  obtain ⟨vs1, hrunops, hsig1⟩ :=
    readOps_save f hvnd hcv f.ops hco 0
      (by rw [hoid, List.range_eq_range']) [] (f.vars.map varShell) _
      hs0 hP0 (by simpa using hond_out)
  rw [hrunops]
  dsimp only
  rw [readInt_encNat f.funcs.length hflen]
  dsimp only
  rw [Int.toNat_natCast]
  have hmap0 : (f.ops.map opNoFunc).map opNoFunc = f.ops.map opNoFunc := by
    rw [List.map_map]
    exact List.map_congr_left (fun o _ => rfl)
  have hQ0 : ∀ o ∈ f.ops.map opNoFunc, o.func ≠ none →
      o.oid ∈ ([] : List Nat) := by
    intro o ho hf2
    obtain ⟨p, hp, he⟩ := List.mem_map.mp ho
    rw [← he] at hf2
    exact absurd rfl hf2
  obtain ⟨os1, hrunfn, hmap1⟩ :=
    readFuncs_save f hond hco f.funcs hcf 0
      (by rw [hfid, List.range_eq_range']) [] (f.ops.map opNoFunc) _
      hmap0 hQ0 (by simpa using hfnd_ops)
  rw [hrunfn]
  dsimp only
  rw [readInt_encNat f.cnxs.length hclen]
  dsimp only
  rw [Int.toNat_natCast]
  rw [readCnxs_save f hcv vs1 hsig1 f.cnxs hcc]
  dsimp only
  by_cases hver : 4 ≤ version
  · rw [if_pos (show (4 : Int) ≤ (version : Int) by omega)]
    rw [if_pos hver]
    rw [readInt_encNat f.blobs.length hblen]
    dsimp only
    rw [Int.toNat_natCast]
    rw [show (f.blobs.map saveBlob).flatten =
      (f.blobs.map saveBlob).flatten ++ [] from (List.append_nil _).symm]
    rw [readBlobs_save f.blobs hcb []]
    dsimp only
    refine ⟨{ vars := vs1, ops := os1, funcs := f.funcs, cnxs := f.cnxs, blobs := f.blobs }, rfl,
      hsig1, opView_of_opNoFunc os1 f.ops hmap1, rfl, rfl, ?_⟩
    show f.blobs = (if 4 ≤ version then f.blobs else [])
    rw [if_pos hver]
  · rw [if_neg (show ¬((4 : Int) ≤ (version : Int)) by omega)]
    refine ⟨{ vars := vs1, ops := os1, funcs := f.funcs, cnxs := f.cnxs, blobs := [] }, rfl,
      hsig1, opView_of_opNoFunc os1 f.ops hmap1, rfl, rfl, ?_⟩
    show ([] : List Blob) = (if 4 ≤ version then f.blobs else [])
    rw [if_neg hver]

set_option maxRecDepth 8000 in
/-- The round-trip theorem applies to the concrete closed flow that
exercises every file section (aliases, reference type, constant payload,
task attribute, function, connector, blob), at file version 4 and at
file version 3 (where the blob section is dropped). -/
theorem c1_roundtrip_amended_witness :
    closedFlow exRT2 ∧
    (∃ g, readFlow 1 (saveFlow exRT2 4) = some g ∧
      g.vars.map varSig = exRT2.vars.map varSig ∧
      g.ops.map opView = exRT2.ops.map opView ∧
      g.funcs = exRT2.funcs ∧
      g.cnxs = exRT2.cnxs ∧
      g.blobs = (if 4 ≤ 4 then exRT2.blobs else [])) ∧
    (∃ g, readFlow 1 (saveFlow exRT2 3) = some g ∧
      g.vars.map varSig = exRT2.vars.map varSig ∧
      g.ops.map opView = exRT2.ops.map opView ∧
      g.funcs = exRT2.funcs ∧
      g.cnxs = exRT2.cnxs ∧
      g.blobs = (if 4 ≤ 3 then exRT2.blobs else [])) := by
  have hcl : closedFlow exRT2 :=
    ⟨by decide, by decide, by decide, by decide, by decide, by decide,
     by decide, by decide, by decide, by decide, by decide, by decide,
     by decide, by decide, by decide⟩
  exact ⟨hcl,
    c1_roundtrip_amended exRT2 1 4 hcl (by decide) (by decide),
    c1_roundtrip_amended exRT2 1 3 hcl (by decide) (by decide)⟩

set_option maxRecDepth 8000 in
/-- The unamended round-trip claim fails on alias lists: reading back a
saved flow adds the producing operation's name to each output variable's
aliases (Flow::Var's AddAlias during output resolution), so a flow whose
output variable does not already carry its producer's name among its
aliases does not come back structurally equal. -/
theorem c1_roundtrip_counterexample :
    (readFlow 1 (saveFlow exRT 3)).map
      (fun g => g.vars.map (fun v => v.aliases)) =
      some [[], [strBytes "f"]] ∧
    exRT.vars.map (fun v => v.aliases) = [[], []] := by
  constructor
  · decide
  · decide

end Myelin
